import Mathlib

/-!
Verification development for the dreadlocks path-keyed readers-writer lock
library.  The repository ships its test suite (`path_lock-test.py`) but the
lock implementation itself (`dreadlocks/path_lock.py`) is not part of the
sources at hand, so the definitions below are a shallow embedding of the
library modelled from its specification (spec.md), with the test suite taken
as the authority wherever it pins concrete behaviour.

The model has two layers:

* a functional layer (`SysA`, `pathLockAcquire`, `pathLockRelease`, ...)
  modelling the public API calls as pure state transformers, used to settle
  the claims about error surfacing, reentrancy, release symmetry, file
  descriptors and path keys;

* a small-step trace layer (`TSys`, `step`, `run`) in which a finite set of
  scripted threads, spread over several processes, interleave lock
  operations, file reads/writes and queue operations; it is used to settle
  the concurrency claims (mutual exclusion, reader chaining, deadlock).
-/

namespace Dreadlocks

/-- Lock modes of the readers-writer lock: shared (reader) or
exclusive (writer). -/
inductive Mode where
  | shared
  | exclusive
deriving DecidableEq, Repr

/-- Modelled from the spec (§4.C): mode compatibility.  Shared is compatible
with shared; exclusive is incompatible with anything. -/
def Mode.compat : Mode → Mode → Bool
  | Mode.shared, Mode.shared => true
  | _, _ => false

/-- Association-list lookup of the first entry with the given key. -/
def alookup {α β : Type} [DecidableEq α] (k : α) : List (α × β) → Option β
  | [] => none
  | e :: l => if e.1 = k then some e.2 else alookup k l

/-- Association-list update: replace the value of the first entry with the
given key in place, or append a new entry at the end. -/
def aset {α β : Type} [DecidableEq α] (k : α) (v : β) : List (α × β) → List (α × β)
  | [] => [(k, v)]
  | e :: l => if e.1 = k then (k, v) :: l else e :: aset k v l

/-- Association-list removal of every entry with the given key. -/
def aremove {α β : Type} [DecidableEq α] (k : α) : List (α × β) → List (α × β)
  | [] => []
  | e :: l => if e.1 = k then aremove k l else e :: aremove k l

/-- Holdings ledger of one readers-writer lock layer: an association list
mapping a thread identity to the stack of modes it holds.  A reentrant
acquisition pushes onto the stack; the stack length is the reentrance
depth.  Modelled from the spec (§3, `thread_owners`), except that a stack
replaces the single `{mode, depth}` pair because the test
`test_reentrant_mixed` exercises reentrant acquisitions whose mode differs
from the currently held one. -/
abbrev Ledger := List (Nat × List Mode)

/-- Whether a fresh acquisition in mode `m` is compatible with one held
stack (the stack top is the currently held mode). -/
def headCompat (m : Mode) (st : List Mode) : Bool :=
  match st.head? with
  | some m0 => Mode.compat m m0
  | none => true

/-- Whether a fresh acquisition in mode `m` is compatible with every
current holder in the ledger. -/
def canAcquire (led : Ledger) (m : Mode) : Bool :=
  led.all (fun e => headCompat m e.2)

/-- Error outcomes of one lock layer, before the public surface names
them. -/
inductive RwErr where
  | wouldBlock
  | recursiveDeadlock
deriving DecidableEq, Repr

/-- Modelled from the spec (§4.C `t_acquire`, §4.D `p_acquire`, intra-process
part): one layer's acquisition by thread `t` in mode `m`.

* If `t` already holds and `reentrant` is false, the call fails with
  `recursiveDeadlock` and no state change.
* If `t` already holds and `reentrant` is true, the requested mode is pushed
  onto its stack (the depth increases by one).  The spec's §4.C says a
  reentrant request must match the held mode, but the repository's own test
  `test_reentrant_mixed` acquires reentrantly in the other mode and expects
  success, so the model follows the test.
* Otherwise the acquisition succeeds when `m` is compatible with every
  current holder, and reports `wouldBlock` (with no state change) when
  not. -/
def rwAcquire (led : Ledger) (t : Nat) (m : Mode) (reentrant : Bool) :
    Except RwErr Ledger :=
  match alookup t led with
  | some st =>
      if reentrant then Except.ok (aset t (m :: st) led)
      else Except.error RwErr.recursiveDeadlock
  | none =>
      if canAcquire led m then Except.ok (led ++ [(t, [m])])
      else Except.error RwErr.wouldBlock

/-- Modelled from the spec (§4.C `t_release`): pop one level of thread `t`'s
stack; when the depth reaches zero, clear the owner entry. -/
def rwRelease (led : Ledger) (t : Nat) : Ledger :=
  match alookup t led with
  | none => led
  | some st =>
      match st with
      | [] => aremove t led
      | [_] => aremove t led
      | _ :: st2 => aset t st2 led

/-- Modelled from the spec (§3 `file_mode`, §4.D): the file-lock mode a
process holds, derived from its process-level ledger.  It is `none` when no
thread of the process holds the process-level lock, `exclusive` when some
holder's current mode is exclusive, and `shared` otherwise. -/
def procMode (led : Ledger) : Option Mode :=
  match led with
  | [] => none
  | _ =>
      if led.any (fun e => e.2.head? = some Mode.exclusive) then some Mode.exclusive
      else some Mode.shared

/-- Modelled from the spec (§4.A `flock_acquire`): whether the kernel file
lock can move to mode `m` given the modes held by the other contenders on
the same file. -/
def kernelCompat (others : List Mode) (m : Option Mode) : Bool :=
  match m with
  | none => true
  | some m0 => others.all (fun m1 => Mode.compat m0 m1)

/-- Modelled from the spec (§3 `LockRecord`): the per-path, per-process lock
record: the thread-level ledger, the process-level ledger, and the open file
descriptor on which the OS file lock is held (present exactly while the
process holds the file lock in some mode). -/
structure RecA where
  tLed : Ledger
  pLed : Ledger
  fd : Option Nat
deriving DecidableEq, Repr

/-- Record with no holder and no open descriptor. -/
def RecA.empty : RecA := ⟨[], [], none⟩

/-- Modelled from the spec (§4.B): one process's in-memory state: its
current working directory and its registry mapping a path string to a live
lock record.  Matching the design note §9, the registry key is the literal
path string passed by the caller. -/
structure ProcA where
  cwd : String
  recs : List (String × RecA)
deriving DecidableEq, Repr

/-- Modelled from the spec (§2, §6): the whole-system state: every
process's in-memory state, plus the kernel's table of open descriptors
mapping each descriptor to the canonical path (the file identity) it was
opened on. -/
structure SysA where
  procs : List (Nat × ProcA)
  fdTable : List (Nat × String)
deriving DecidableEq, Repr

/-- Whether a path string is absolute. -/
def isAbsPath (p : String) : Bool := p.data.head? = some '/'

/-- Modelled from the spec (§3, §4.B, §9): path canonicalization.  A
relative path is made absolute against the process working directory;
canonicalization is by string (symlinks are not resolved). -/
def canonKey (cwd p : String) : String :=
  if isAbsPath p then p else cwd ++ "/" ++ p

/-- Process state looked up in the system (defaulting to a fresh process at
the filesystem root if absent). -/
def getProc (s : SysA) (p : Nat) : ProcA :=
  (alookup p s.procs).getD ⟨"/", []⟩

/-- Record looked up in a process registry (defaulting to the empty
record; the registry inserts a record on first acquisition). -/
def getRec (pr : ProcA) (path : String) : RecA :=
  (alookup path pr.recs).getD RecA.empty

/-- Store a record under a path in a process registry. -/
def setRec (s : SysA) (p : Nat) (path : String) (r : RecA) : SysA :=
  let pr := getProc s p
  { s with procs := aset p { pr with recs := aset path r pr.recs } s.procs }

/-- Drop a record from a process registry (the spec's registry removes a
record when its reference count reaches zero). -/
def dropRec (s : SysA) (p : Nat) (path : String) : SysA :=
  let pr := getProc s p
  { s with procs := aset p { pr with recs := aremove path pr.recs } s.procs }

/-- File modes held by every other contender on the same file: records of
any process whose canonical key matches, excluding the acquiring record
itself.  Modelled from the spec (§4.A, §9): the kernel file lock is keyed
by the file, so distinct records resolving to the same canonical path share
it. -/
def otherFileModes (s : SysA) (p : Nat) (path key : String) : List Mode :=
  s.procs.flatMap (fun pe =>
    pe.2.recs.filterMap (fun re =>
      if pe.1 = p ∧ re.1 = path then none
      else if canonKey pe.2.cwd re.1 = key then procMode re.2.pLed
      else none))

/-- Fresh file descriptor: one past the largest descriptor currently
open. -/
def freshFd (s : SysA) : Nat :=
  (s.fdTable.map Prod.fst).foldr max 0 + 1

/-- Errors surfaced by the public acquisition API (§6, §7). -/
inductive LockErr where
  | threadWouldBlock
  | processWouldBlock
  | recursiveDeadlock
deriving DecidableEq, Repr

/-- Requested mode of an acquisition call: `shared = false` means
exclusive. -/
def modeOf (shared : Bool) : Mode :=
  if shared then Mode.shared else Mode.exclusive

/-- Modelled from the spec (§4.E): the composite `path_lock` acquisition by
thread `t` of process `p`.  In fixed order it looks up the record, acquires
the thread level, then the process level; the process level calls the
kernel only when the process's file-lock mode has to change, opening the
record's descriptor on first need.  On success it returns the new system
state and the descriptor yielded to the caller; on failure it returns the
error and no state change happened (a thread-layer `would_block` surfaces
as `threadWouldBlock`, a process-layer one as `processWouldBlock`).  With
`blocking = true` a caller of the real library would wait instead of
seeing a `WouldBlock` error; the trace layer models that by leaving the
step disabled, so the flag does not change this function's result. -/
def pathLockAcquire (s : SysA) (p t : Nat) (path : String)
    (shared _blocking reentrant : Bool) : Except LockErr (SysA × Nat) :=
  let m := modeOf shared
  let pr := getProc s p
  let r := getRec pr path
  match rwAcquire r.tLed t m reentrant with
  | Except.error RwErr.recursiveDeadlock => Except.error LockErr.recursiveDeadlock
  | Except.error RwErr.wouldBlock => Except.error LockErr.threadWouldBlock
  | Except.ok tl =>
      match rwAcquire r.pLed t m reentrant with
      | Except.error RwErr.recursiveDeadlock => Except.error LockErr.recursiveDeadlock
      | Except.error RwErr.wouldBlock => Except.error LockErr.processWouldBlock
      | Except.ok pl =>
          let key := canonKey pr.cwd path
          if procMode pl = procMode r.pLed
             ∨ kernelCompat (otherFileModes s p path key) (procMode pl) then
            let fd := match r.fd with
              | some f => f
              | none => freshFd s
            let s2 := setRec s p path ⟨tl, pl, some fd⟩
            let s3 := match r.fd with
              | some _ => s2
              | none => { s2 with fdTable := (fd, key) :: s2.fdTable }
            Except.ok (s3, fd)
          else Except.error LockErr.processWouldBlock

/-- Modelled from the spec (§4.E): the matching scoped release, performed
when the acquiring scope exits: release the process level, closing the
descriptor when the process no longer holds the file lock, then the thread
level, then drop the record from the registry when it has no holder
left. -/
def pathLockRelease (s : SysA) (p t : Nat) (path : String) : SysA :=
  let pr := getProc s p
  match alookup path pr.recs with
  | none => s
  | some r =>
      let pl := rwRelease r.pLed t
      let tl := rwRelease r.tLed t
      let fd2 := if pl.isEmpty then none else r.fd
      let s2 :=
        if tl.isEmpty ∧ pl.isEmpty then dropRec s p path
        else setRec s p path ⟨tl, pl, fd2⟩
      match r.fd with
      | some f =>
          if pl.isEmpty then
            { s2 with fdTable := aremove f s2.fdTable }
          else s2
      | none => s2

/-- Modelled from the spec (§6 `thread_level_path_lock`): acquisition of the
thread layer only. -/
def threadLevelAcquire (s : SysA) (p t : Nat) (path : String)
    (shared _blocking reentrant : Bool) : Except LockErr SysA :=
  let m := modeOf shared
  let pr := getProc s p
  let r := getRec pr path
  match rwAcquire r.tLed t m reentrant with
  | Except.error RwErr.recursiveDeadlock => Except.error LockErr.recursiveDeadlock
  | Except.error RwErr.wouldBlock => Except.error LockErr.threadWouldBlock
  | Except.ok tl => Except.ok (setRec s p path ⟨tl, r.pLed, r.fd⟩)

/-- Modelled from the spec (§6 `process_level_path_lock`): acquisition of
the process layer only (intra-process accounting plus the kernel file
lock). -/
def processLevelAcquire (s : SysA) (p t : Nat) (path : String)
    (shared _blocking reentrant : Bool) : Except LockErr (SysA × Nat) :=
  let m := modeOf shared
  let pr := getProc s p
  let r := getRec pr path
  match rwAcquire r.pLed t m reentrant with
  | Except.error RwErr.recursiveDeadlock => Except.error LockErr.recursiveDeadlock
  | Except.error RwErr.wouldBlock => Except.error LockErr.processWouldBlock
  | Except.ok pl =>
      let key := canonKey pr.cwd path
      if procMode pl = procMode r.pLed
         ∨ kernelCompat (otherFileModes s p path key) (procMode pl) then
        let fd := match r.fd with
          | some f => f
          | none => freshFd s
        let s2 := setRec s p path ⟨r.tLed, pl, some fd⟩
        let s3 := match r.fd with
          | some _ => s2
          | none => { s2 with fdTable := (fd, key) :: s2.fdTable }
        Except.ok (s3, fd)
      else Except.error LockErr.processWouldBlock

/-- Modelled from the spec (§6): scoped release of a
`thread_level_path_lock` acquisition. -/
def threadLevelRelease (s : SysA) (p t : Nat) (path : String) : SysA :=
  let pr := getProc s p
  match alookup path pr.recs with
  | none => s
  | some r =>
      let tl := rwRelease r.tLed t
      if tl.isEmpty ∧ r.pLed.isEmpty then dropRec s p path
      else setRec s p path ⟨tl, r.pLed, r.fd⟩

/-- Modelled from the spec (§6): scoped release of a
`process_level_path_lock` acquisition, closing the descriptor when the
process no longer holds the file lock. -/
def processLevelRelease (s : SysA) (p t : Nat) (path : String) : SysA :=
  let pr := getProc s p
  match alookup path pr.recs with
  | none => s
  | some r =>
      let pl := rwRelease r.pLed t
      let fd2 := if pl.isEmpty then none else r.fd
      let s2 :=
        if r.tLed.isEmpty ∧ pl.isEmpty then dropRec s p path
        else setRec s p path ⟨r.tLed, pl, fd2⟩
      match r.fd with
      | some f =>
          if pl.isEmpty then
            { s2 with fdTable := aremove f s2.fdTable }
          else s2
      | none => s2

/-! Association-list lemmas.  `aset` rewrites only the first entry with the
key and `alookup` reads only the first, so the update/restore identities
below hold without any distinctness assumption. -/

theorem alookup_cons {α β : Type} [DecidableEq α] (k : α) (a : α × β)
    (l : List (α × β)) :
    alookup k (a :: l) = if a.1 = k then some a.2 else alookup k l := rfl

theorem alookup_forall_ne {α β : Type} [DecidableEq α] {k : α} {l : List (α × β)}
    (h : alookup k l = none) : ∀ e ∈ l, e.1 ≠ k := by
  induction l with
  | nil => intro e he; cases he
  | cons a l ih =>
      rw [alookup_cons] at h
      by_cases hk : a.1 = k
      · simp [hk] at h
      · rw [if_neg hk] at h
        intro e he
        rcases List.mem_cons.mp he with rfl | he
        · exact hk
        · exact ih h e he

theorem alookup_append_absent {α β : Type} [DecidableEq α] {k : α}
    {l : List (α × β)} (h : alookup k l = none) (v : β) :
    alookup k (l ++ [(k, v)]) = some v := by
  induction l with
  | nil => simp [alookup]
  | cons a l ih =>
      rw [alookup_cons] at h
      by_cases hk : a.1 = k
      · simp [hk] at h
      · rw [List.cons_append, alookup_cons, if_neg hk]
        exact ih (by rwa [if_neg hk] at h)

theorem aremove_of_absent {α β : Type} [DecidableEq α] {k : α}
    {l : List (α × β)} (h : ∀ e ∈ l, e.1 ≠ k) : aremove k l = l := by
  induction l with
  | nil => rfl
  | cons a l ih =>
      have ha : a.1 ≠ k := h a (List.mem_cons_self a l)
      simp only [aremove]
      rw [if_neg ha, ih fun e he => h e (List.mem_cons_of_mem a he)]

theorem aremove_append_absent {α β : Type} [DecidableEq α] {k : α}
    {l : List (α × β)} (h : ∀ e ∈ l, e.1 ≠ k) (v : β) :
    aremove k (l ++ [(k, v)]) = l := by
  induction l with
  | nil => simp [aremove]
  | cons a l ih =>
      have ha : a.1 ≠ k := h a (List.mem_cons_self a l)
      simp only [List.cons_append, aremove]
      rw [if_neg ha]
      show a :: aremove k (l ++ [(k, v)]) = a :: l
      rw [ih fun e he => h e (List.mem_cons_of_mem a he)]

theorem aset_absent {α β : Type} [DecidableEq α] {k : α} {l : List (α × β)}
    (h : alookup k l = none) (v : β) : aset k v l = l ++ [(k, v)] := by
  induction l with
  | nil => rfl
  | cons a l ih =>
      rw [alookup_cons] at h
      by_cases hk : a.1 = k
      · simp [hk] at h
      · rw [if_neg hk] at h
        simp only [aset, if_neg hk, List.cons_append]
        rw [ih h]

theorem alookup_aset_self {α β : Type} [DecidableEq α] (k : α) (v : β)
    (l : List (α × β)) : alookup k (aset k v l) = some v := by
  induction l with
  | nil => simp [aset, alookup]
  | cons a l ih =>
      by_cases hk : a.1 = k
      · simp [aset, if_pos hk, alookup]
      · simp only [aset, if_neg hk, alookup_cons, if_neg hk]
        exact ih

theorem alookup_aset_ne {α β : Type} [DecidableEq α] {k k' : α} (h : k ≠ k')
    (v : β) (l : List (α × β)) : alookup k' (aset k v l) = alookup k' l := by
  induction l with
  | nil => simp [aset, alookup, h]
  | cons a l ih =>
      by_cases hk : a.1 = k
      · simp only [aset, if_pos hk, alookup_cons, if_neg h]
        rw [if_neg (by rw [hk]; exact h)]
      · simp only [aset, if_neg hk, alookup_cons]
        by_cases hk' : a.1 = k'
        · rw [if_pos hk', if_pos hk']
        · rw [if_neg hk', if_neg hk']
          exact ih

theorem aset_restore {α β : Type} [DecidableEq α] {k : α} {l : List (α × β)}
    {v0 : β} (h : alookup k l = some v0) (v : β) :
    aset k v0 (aset k v l) = l := by
  induction l with
  | nil => simp [alookup] at h
  | cons a l ih =>
      obtain ⟨a1, a2⟩ := a
      rw [alookup_cons] at h
      by_cases hk : a1 = k
      · subst hk
        simp only [if_pos] at h
        cases h
        simp [aset]
      · rw [if_neg hk] at h
        simp only [aset, if_neg hk]
        rw [ih h]

theorem aset_of_lookup_eq {α β : Type} [DecidableEq α] {k : α}
    {l : List (α × β)} {v : β} (h : alookup k l = some v) : aset k v l = l := by
  induction l with
  | nil => simp [alookup] at h
  | cons a l ih =>
      obtain ⟨a1, a2⟩ := a
      rw [alookup_cons] at h
      by_cases hk : a1 = k
      · subst hk
        simp only [if_pos] at h
        cases h
        simp [aset]
      · rw [if_neg hk] at h
        simp only [aset, if_neg hk]
        rw [ih h]

theorem le_foldr_max {x : Nat} {l : List Nat} (hx : x ∈ l) :
    x ≤ l.foldr max 0 := by
  induction l with
  | nil => cases hx
  | cons a l ih =>
      rcases List.mem_cons.mp hx with rfl | hx
      · exact Nat.le_max_left _ _
      · exact Nat.le_trans (ih hx) (Nat.le_max_right _ _)

theorem freshFd_not_key (s : SysA) : ∀ e ∈ s.fdTable, e.1 ≠ freshFd s := by
  intro e he heq
  have hx : e.1 ∈ s.fdTable.map Prod.fst := List.mem_map_of_mem Prod.fst he
  have hle := le_foldr_max hx
  rw [heq] at hle
  simp only [freshFd] at hle
  omega

/-! Ledger lemmas: releasing exactly undoes an acquisition. -/

theorem rwRelease_insert {led : Ledger} {t : Nat} (h : alookup t led = none)
    (m : Mode) : rwRelease (led ++ [(t, [m])]) t = led := by
  unfold rwRelease
  rw [alookup_append_absent h [m]]
  exact aremove_append_absent (alookup_forall_ne h) [m]

theorem alookup_mem {α β : Type} [DecidableEq α] {k : α} {l : List (α × β)}
    {v : β} (h : alookup k l = some v) : (k, v) ∈ l := by
  induction l with
  | nil => simp [alookup] at h
  | cons a l ih =>
      obtain ⟨a1, a2⟩ := a
      rw [alookup_cons] at h
      by_cases hk : a1 = k
      · subst hk
        simp only [if_pos] at h
        cases h
        exact List.mem_cons_self _ _
      · rw [if_neg hk] at h
        exact List.mem_cons_of_mem _ (ih h)

theorem rwRelease_push {led : Ledger} {t : Nat} {st : List Mode}
    (h : alookup t led = some st) (hne : st ≠ []) (m : Mode) :
    rwRelease (aset t (m :: st) led) t = led := by
  match st, hne with
  | m0 :: st0, _ =>
      show rwRelease (aset t (m :: m0 :: st0) led) t = led
      unfold rwRelease
      rw [alookup_aset_self]
      show aset t (m0 :: st0) (aset t (m :: m0 :: st0) led) = led
      exact aset_restore h (m :: m0 :: st0)

theorem rwAcquire_ok_cases {led : Ledger} {t : Nat} {m : Mode}
    {reentrant : Bool} {led2 : Ledger}
    (h : rwAcquire led t m reentrant = Except.ok led2) :
    (alookup t led = none ∧ led2 = led ++ [(t, [m])]) ∨
    (∃ st, alookup t led = some st ∧ led2 = aset t (m :: st) led) := by
  unfold rwAcquire at h
  cases hl : alookup t led with
  | none =>
      rw [hl] at h
      by_cases hc : canAcquire led m
      · simp [hc] at h
        exact Or.inl ⟨rfl, h.symm⟩
      · simp [hc] at h
  | some st =>
      rw [hl] at h
      cases reentrant with
      | false => simp at h
      | true =>
          simp at h
          exact Or.inr ⟨st, rfl, h.symm⟩

theorem rwRelease_rwAcquire {led : Ledger} {t : Nat} {m : Mode}
    {reentrant : Bool} {led2 : Ledger} (hwf : ∀ e ∈ led, e.2 ≠ [])
    (h : rwAcquire led t m reentrant = Except.ok led2) :
    rwRelease led2 t = led := by
  rcases rwAcquire_ok_cases h with ⟨hl, rfl⟩ | ⟨st, hl, rfl⟩
  · exact rwRelease_insert hl m
  · exact rwRelease_push hl (hwf (t, st) (alookup_mem hl)) m

/-! System-level glue lemmas. -/

theorem getProc_of_lookup {s : SysA} {p : Nat} {pr0 : ProcA}
    (h : alookup p s.procs = some pr0) : getProc s p = pr0 := by
  simp [getProc, h]

theorem aremove_cons_self {α β : Type} [DecidableEq α] (k : α) (v : β)
    (l : List (α × β)) : aremove k ((k, v) :: l) = aremove k l := by
  simp [aremove]

theorem getProc_setRec (s : SysA) (p : Nat) (path : String) (r : RecA) :
    getProc (setRec s p path r) p =
      { getProc s p with recs := aset path r (getProc s p).recs } := by
  simp [getProc, setRec, alookup_aset_self]

/-- Conditions on a registered record that the well-formed states of the
model maintain: stacks in both ledgers are nonempty, the descriptor is open
exactly while the process holds the file lock, and the record is live
(some thread holds it at one of the two levels, otherwise the registry
would have dropped it). -/
def RecOk (r : RecA) : Prop :=
  (∀ e ∈ r.tLed, e.2 ≠ []) ∧ (∀ e ∈ r.pLed, e.2 ≠ []) ∧
  (r.fd = none ↔ r.pLed = []) ∧ ¬(r.tLed = [] ∧ r.pLed = [])

instance (r : RecA) : Decidable (RecOk r) := by
  unfold RecOk
  infer_instance

theorem procA_eta (pr : ProcA) : ProcA.mk pr.cwd pr.recs = pr := rfl

theorem recA_eta (r : RecA) : RecA.mk r.tLed r.pLed r.fd = r := rfl

theorem aset_aset {α β : Type} [DecidableEq α] (k : α) (v1 v2 : β)
    (l : List (α × β)) : aset k v2 (aset k v1 l) = aset k v2 l := by
  induction l with
  | nil => simp [aset]
  | cons a l ih =>
      by_cases hk : a.1 = k
      · simp [aset, hk]
      · simp [aset, hk, ih]

theorem aremove_aset {α β : Type} [DecidableEq α] (k : α) (v : β)
    (l : List (α × β)) : aremove k (aset k v l) = aremove k l := by
  induction l with
  | nil => simp [aset, aremove]
  | cons a l ih =>
      by_cases hk : a.1 = k
      · simp [aset, aremove, hk]
      · simp [aset, aremove, hk, ih]

theorem setRec_setRec (s : SysA) (p : Nat) (path : String) (r1 r2 : RecA) :
    setRec (setRec s p path r1) p path r2 = setRec s p path r2 := by
  simp only [setRec, getProc, alookup_aset_self, Option.getD_some, aset_aset]

theorem setRec_restore {s : SysA} {p : Nat} {path : String} {r0 : RecA}
    (hr0 : alookup path (getProc s p).recs = some r0)
    (hpp : alookup p s.procs = some (getProc s p)) :
    setRec s p path r0 = s := by
  simp only [setRec]
  rw [aset_of_lookup_eq hr0, procA_eta, aset_of_lookup_eq hpp]

theorem dropRec_setRec (s : SysA) (p : Nat) (path : String) (r : RecA) :
    dropRec (setRec s p path r) p path = dropRec s p path := by
  simp only [dropRec, setRec, getProc, alookup_aset_self, Option.getD_some,
    aremove_aset, aset_aset]

theorem dropRec_absent {s : SysA} {p : Nat} {path : String}
    (hr0 : alookup path (getProc s p).recs = none)
    (hpp : alookup p s.procs = some (getProc s p)) :
    dropRec s p path = s := by
  simp only [dropRec]
  rw [aremove_of_absent (alookup_forall_ne hr0), procA_eta, aset_of_lookup_eq hpp]

theorem setRec_fdTable (s : SysA) (p : Nat) (path : String) (r : RecA) :
    (setRec s p path r).fdTable = s.fdTable := rfl

theorem mkFd_setRec (s : SysA) (p : Nat) (path : String) (r : RecA)
    (ft : List (Nat × String)) :
    SysA.mk (setRec s p path r).procs ft = setRec ⟨s.procs, ft⟩ p path r := rfl

theorem getProc_mkFd (s : SysA) (ft : List (Nat × String)) (p : Nat) :
    getProc ⟨s.procs, ft⟩ p = getProc s p := rfl

/-- Spec §4.E and §8 invariant 1, thread layer: releasing a successful
`thread_level_path_lock` acquisition when its scope exits restores the
system state exactly. -/
theorem threadLevelRelease_acquire {s : SysA} {p t : Nat} {path : String}
    {shared blocking reentrant : Bool} {s' : SysA} {pr0 : ProcA}
    (hp : alookup p s.procs = some pr0)
    (hrec : ∀ r0, alookup path (getProc s p).recs = some r0 → RecOk r0)
    (h : threadLevelAcquire s p t path shared blocking reentrant = Except.ok s') :
    threadLevelRelease s' p t path = s := by
  simp only [threadLevelAcquire] at h
  cases htl : rwAcquire (getRec (getProc s p) path).tLed t (modeOf shared) reentrant with
  | error e => rw [htl] at h; cases e <;> simp at h
  | ok tl =>
      rw [htl] at h
      simp only [Except.ok.injEq] at h
      subst h
      have hwfT : ∀ e ∈ (getRec (getProc s p) path).tLed, e.2 ≠ [] := by
        cases hr0 : alookup path (getProc s p).recs with
        | none => simp [getRec, hr0, RecA.empty]
        | some r0 =>
            simp only [getRec, hr0, Option.getD_some]
            exact (hrec r0 hr0).1
      have hrel : rwRelease tl t = (getRec (getProc s p) path).tLed :=
        rwRelease_rwAcquire hwfT htl
      simp only [threadLevelRelease, getProc_setRec, alookup_aset_self, hrel]
      have hpp : alookup p s.procs = some (getProc s p) := by
        rw [getProc_of_lookup hp]; exact hp
      cases hr0 : alookup path (getProc s p).recs with
      | none =>
          have hre : getRec (getProc s p) path = RecA.empty := by simp [getRec, hr0]
          rw [hre]
          simp only [RecA.empty, List.isEmpty_nil, and_self, if_true]
          rw [dropRec_setRec, dropRec_absent hr0 hpp]
      | some r0 =>
          have hre : getRec (getProc s p) path = r0 := by simp [getRec, hr0]
          rw [hre]
          obtain ⟨hw1, hw2, hfd, hlive⟩ := hrec r0 hr0
          have hcond : ¬(List.isEmpty r0.tLed = true ∧ List.isEmpty r0.pLed = true) := by
            intro hc
            exact hlive ⟨List.isEmpty_iff.mp hc.1, List.isEmpty_iff.mp hc.2⟩
          rw [if_neg hcond, recA_eta, setRec_setRec, setRec_restore hr0 hpp]

/-- Spec §4.E and §8 invariant 1: releasing a successful composite
`path_lock` acquisition when its scope exits restores the system state
exactly. -/
theorem pathLockRelease_acquire {s : SysA} {p t : Nat} {path : String}
    {shared blocking reentrant : Bool} {s' : SysA} {fdv : Nat} {pr0 : ProcA}
    (hp : alookup p s.procs = some pr0)
    (hrec : ∀ r0, alookup path (getProc s p).recs = some r0 → RecOk r0)
    (h : pathLockAcquire s p t path shared blocking reentrant = Except.ok (s', fdv)) :
    pathLockRelease s' p t path = s := by
  have hpp : alookup p s.procs = some (getProc s p) := by
    rw [getProc_of_lookup hp]; exact hp
  have hwfT : ∀ e ∈ (getRec (getProc s p) path).tLed, e.2 ≠ [] := by
    cases hr0 : alookup path (getProc s p).recs with
    | none => simp [getRec, hr0, RecA.empty]
    | some r0 =>
        simp only [getRec, hr0, Option.getD_some]
        exact (hrec r0 hr0).1
  have hwfP : ∀ e ∈ (getRec (getProc s p) path).pLed, e.2 ≠ [] := by
    cases hr0 : alookup path (getProc s p).recs with
    | none => simp [getRec, hr0, RecA.empty]
    | some r0 =>
        simp only [getRec, hr0, Option.getD_some]
        exact (hrec r0 hr0).2.1
  simp only [pathLockAcquire] at h
  split at h
  next => exact absurd h (by simp)
  next => exact absurd h (by simp)
  next tl htl =>
  split at h
  next => exact absurd h (by simp)
  next => exact absurd h (by simp)
  next pl hpl =>
  have htlrel : rwRelease tl t = (getRec (getProc s p) path).tLed :=
    rwRelease_rwAcquire hwfT htl
  have hplrel : rwRelease pl t = (getRec (getProc s p) path).pLed :=
    rwRelease_rwAcquire hwfP hpl
  split at h
  case isFalse => exact absurd h (by simp)
  case isTrue hg =>
  split at h
  next f hfd =>
    simp only [Except.ok.injEq, Prod.mk.injEq] at h
    obtain ⟨h1, h2⟩ := h
    subst h1
    obtain ⟨r0, hr0⟩ : ∃ r0, alookup path (getProc s p).recs = some r0 := by
      cases hr0 : alookup path (getProc s p).recs with
      | none =>
          have hre : getRec (getProc s p) path = RecA.empty := by simp [getRec, hr0]
          rw [hre] at hfd
          simp [RecA.empty] at hfd
      | some r0 => exact ⟨r0, rfl⟩
    have hre : getRec (getProc s p) path = r0 := by simp [getRec, hr0]
    obtain ⟨hw1, hw2, hfdiff, hlive⟩ := hrec r0 hr0
    rw [hre] at htlrel hplrel hfd
    have hplne : r0.pLed ≠ [] := by
      intro hh
      rw [hfdiff.mpr hh] at hfd
      cases hfd
    have hplE : ¬(List.isEmpty r0.pLed = true) := fun hh => hplne (List.isEmpty_iff.mp hh)
    simp only [pathLockRelease, getProc_setRec, alookup_aset_self, htlrel, hplrel]
    simp only [if_neg hplE,
      if_neg (fun hc : List.isEmpty r0.tLed = true ∧ List.isEmpty r0.pLed = true => hplE hc.2)]
    rw [← hfd, recA_eta, setRec_setRec, setRec_restore hr0 hpp]
  next hfd =>
    simp only [Except.ok.injEq, Prod.mk.injEq, setRec_fdTable] at h
    obtain ⟨h1, h2⟩ := h
    subst h1
    rw [mkFd_setRec]
    cases hr0 : alookup path (getProc s p).recs with
    | none =>
        have hre : getRec (getProc s p) path = RecA.empty := by simp [getRec, hr0]
        rw [hre] at htlrel hplrel
        simp only [pathLockRelease, getProc_setRec, getProc_mkFd, alookup_aset_self,
          htlrel, hplrel, RecA.empty, List.isEmpty_nil, and_self, if_true]
        rw [dropRec_setRec]
        have hdrop : dropRec (⟨s.procs, (freshFd s, canonKey (getProc s p).cwd path)
            :: s.fdTable⟩ : SysA) p path = ⟨s.procs, (freshFd s, canonKey (getProc s p).cwd path)
            :: s.fdTable⟩ := dropRec_absent hr0 hpp
        rw [hdrop]
        show SysA.mk s.procs (aremove (freshFd s)
          ((freshFd s, canonKey (getProc s p).cwd path) :: s.fdTable)) = s
        rw [aremove_cons_self, aremove_of_absent (freshFd_not_key s)]
    | some r0 =>
        have hre : getRec (getProc s p) path = r0 := by simp [getRec, hr0]
        obtain ⟨hw1, hw2, hfdiff, hlive⟩ := hrec r0 hr0
        rw [hre] at htlrel hplrel hfd
        have hpl0 : r0.pLed = [] := hfdiff.mp hfd
        have htlne : r0.tLed ≠ [] := fun hh => hlive ⟨hh, hpl0⟩
        have htlE : ¬(List.isEmpty r0.tLed = true) := fun hh => htlne (List.isEmpty_iff.mp hh)
        simp only [pathLockRelease, getProc_setRec, getProc_mkFd, alookup_aset_self,
          htlrel, hplrel]
        simp only [hpl0, List.isEmpty_nil, if_true,
          if_neg (fun hc : List.isEmpty r0.tLed = true ∧ True => htlE hc.1)]
        rw [← hfd, ← hpl0, recA_eta, setRec_setRec]
        have hrest : setRec (⟨s.procs, (freshFd s, canonKey (getProc s p).cwd path)
            :: s.fdTable⟩ : SysA) p path r0 = ⟨s.procs, (freshFd s, canonKey (getProc s p).cwd path)
            :: s.fdTable⟩ := setRec_restore hr0 hpp
        rw [hrest]
        show SysA.mk s.procs (aremove (freshFd s)
          ((freshFd s, canonKey (getProc s p).cwd path) :: s.fdTable)) = s
        rw [aremove_cons_self, aremove_of_absent (freshFd_not_key s)]


/-- Spec §4.E and §8 invariant 1, process layer: releasing a successful
`process_level_path_lock` acquisition when its scope exits restores the
system state exactly. -/
theorem processLevelRelease_acquire {s : SysA} {p t : Nat} {path : String}
    {shared blocking reentrant : Bool} {s' : SysA} {fdv : Nat} {pr0 : ProcA}
    (hp : alookup p s.procs = some pr0)
    (hrec : ∀ r0, alookup path (getProc s p).recs = some r0 → RecOk r0)
    (h : processLevelAcquire s p t path shared blocking reentrant = Except.ok (s', fdv)) :
    processLevelRelease s' p t path = s := by
  have hpp : alookup p s.procs = some (getProc s p) := by
    rw [getProc_of_lookup hp]; exact hp
  have hwfP : ∀ e ∈ (getRec (getProc s p) path).pLed, e.2 ≠ [] := by
    cases hr0 : alookup path (getProc s p).recs with
    | none => simp [getRec, hr0, RecA.empty]
    | some r0 =>
        simp only [getRec, hr0, Option.getD_some]
        exact (hrec r0 hr0).2.1
  simp only [processLevelAcquire] at h
  split at h
  next => exact absurd h (by simp)
  next => exact absurd h (by simp)
  next pl hpl =>
  have hplrel : rwRelease pl t = (getRec (getProc s p) path).pLed :=
    rwRelease_rwAcquire hwfP hpl
  split at h
  case isFalse => exact absurd h (by simp)
  case isTrue hg =>
  split at h
  next f hfd =>
    simp only [Except.ok.injEq, Prod.mk.injEq] at h
    obtain ⟨h1, h2⟩ := h
    subst h1
    obtain ⟨r0, hr0⟩ : ∃ r0, alookup path (getProc s p).recs = some r0 := by
      cases hr0 : alookup path (getProc s p).recs with
      | none =>
          have hre : getRec (getProc s p) path = RecA.empty := by simp [getRec, hr0]
          rw [hre] at hfd
          simp [RecA.empty] at hfd
      | some r0 => exact ⟨r0, rfl⟩
    have hre : getRec (getProc s p) path = r0 := by simp [getRec, hr0]
    obtain ⟨hw1, hw2, hfdiff, hlive⟩ := hrec r0 hr0
    rw [hre] at hplrel hfd
    rw [hre]
    have hplne : r0.pLed ≠ [] := by
      intro hh
      rw [hfdiff.mpr hh] at hfd
      cases hfd
    have hplE : ¬(List.isEmpty r0.pLed = true) := fun hh => hplne (List.isEmpty_iff.mp hh)
    simp only [processLevelRelease, getProc_setRec, alookup_aset_self, hplrel]
    simp only [if_neg hplE,
      if_neg (fun hc : List.isEmpty r0.tLed = true ∧ List.isEmpty r0.pLed = true => hplE hc.2)]
    rw [← hfd, recA_eta, setRec_setRec, setRec_restore hr0 hpp]
  next hfd =>
    simp only [Except.ok.injEq, Prod.mk.injEq, setRec_fdTable] at h
    obtain ⟨h1, h2⟩ := h
    subst h1
    rw [mkFd_setRec]
    cases hr0 : alookup path (getProc s p).recs with
    | none =>
        have hre : getRec (getProc s p) path = RecA.empty := by simp [getRec, hr0]
        rw [hre] at hplrel
        rw [hre]
        simp only [processLevelRelease, getProc_setRec, getProc_mkFd, alookup_aset_self,
          hplrel, RecA.empty, List.isEmpty_nil, and_self, if_true]
        rw [dropRec_setRec]
        have hdrop : dropRec (⟨s.procs, (freshFd s, canonKey (getProc s p).cwd path)
            :: s.fdTable⟩ : SysA) p path = ⟨s.procs, (freshFd s, canonKey (getProc s p).cwd path)
            :: s.fdTable⟩ := dropRec_absent hr0 hpp
        rw [hdrop]
        show SysA.mk s.procs (aremove (freshFd s)
          ((freshFd s, canonKey (getProc s p).cwd path) :: s.fdTable)) = s
        rw [aremove_cons_self, aremove_of_absent (freshFd_not_key s)]
    | some r0 =>
        have hre : getRec (getProc s p) path = r0 := by simp [getRec, hr0]
        obtain ⟨hw1, hw2, hfdiff, hlive⟩ := hrec r0 hr0
        rw [hre] at hplrel hfd
        rw [hre]
        have hpl0 : r0.pLed = [] := hfdiff.mp hfd
        have htlne : r0.tLed ≠ [] := fun hh => hlive ⟨hh, hpl0⟩
        have htlE : ¬(List.isEmpty r0.tLed = true) := fun hh => htlne (List.isEmpty_iff.mp hh)
        simp only [processLevelRelease, getProc_setRec, getProc_mkFd, alookup_aset_self,
          hplrel]
        simp only [hpl0, List.isEmpty_nil, if_true,
          if_neg (fun hc : List.isEmpty r0.tLed = true ∧ True => htlE hc.1)]
        rw [← hfd, ← hpl0, recA_eta, setRec_setRec]
        have hrest : setRec (⟨s.procs, (freshFd s, canonKey (getProc s p).cwd path)
            :: s.fdTable⟩ : SysA) p path r0 = ⟨s.procs, (freshFd s, canonKey (getProc s p).cwd path)
            :: s.fdTable⟩ := setRec_restore hr0 hpp
        rw [hrest]
        show SysA.mk s.procs (aremove (freshFd s)
          ((freshFd s, canonKey (getProc s p).cwd path) :: s.fdTable)) = s
        rw [aremove_cons_self, aremove_of_absent (freshFd_not_key s)]

/-! Elimination lemmas describing the state a successful acquisition
builds. -/

theorem rwAcquire_ok_lookup {led : Ledger} {t : Nat} {m : Mode} {re : Bool}
    {led2 : Ledger} (h : rwAcquire led t m re = Except.ok led2) :
    ∃ st, alookup t led2 = some st := by
  rcases rwAcquire_ok_cases h with ⟨hl, rfl⟩ | ⟨st, hl, rfl⟩
  · exact ⟨[m], alookup_append_absent hl [m]⟩
  · exact ⟨m :: st, alookup_aset_self t (m :: st) led⟩

theorem aset_ne_nil {α β : Type} [DecidableEq α] (k : α) (v : β)
    (l : List (α × β)) : aset k v l ≠ [] := by
  cases l with
  | nil => simp [aset]
  | cons a l =>
      simp only [aset]
      split <;> simp

theorem rwAcquire_ok_ne_nil {led : Ledger} {t : Nat} {m : Mode} {re : Bool}
    {led2 : Ledger} (h : rwAcquire led t m re = Except.ok led2) : led2 ≠ [] := by
  rcases rwAcquire_ok_cases h with ⟨hl, rfl⟩ | ⟨st, hl, rfl⟩
  · simp
  · exact aset_ne_nil t (m :: st) led

theorem procMode_ne_none {led : Ledger} (h : led ≠ []) : procMode led ≠ none := by
  cases led with
  | nil => exact absurd rfl h
  | cons a l =>
      simp only [procMode]
      split <;> simp

theorem pathLockAcquire_ok_spec {s : SysA} {p t : Nat} {path : String}
    {shared blocking reentrant : Bool} {s' : SysA} {fdv : Nat}
    (h : pathLockAcquire s p t path shared blocking reentrant = Except.ok (s', fdv)) :
    ∃ tl pl,
      rwAcquire (getRec (getProc s p) path).tLed t (modeOf shared) reentrant
        = Except.ok tl ∧
      rwAcquire (getRec (getProc s p) path).pLed t (modeOf shared) reentrant
        = Except.ok pl ∧
      getRec (getProc s' p) path = ⟨tl, pl, some fdv⟩ ∧
      (((getRec (getProc s p) path).fd = some fdv ∧ s'.fdTable = s.fdTable) ∨
        ((getRec (getProc s p) path).fd = none ∧ fdv = freshFd s ∧
          s'.fdTable = (fdv, canonKey (getProc s p).cwd path) :: s.fdTable)) := by
  simp only [pathLockAcquire] at h
  split at h
  next => exact absurd h (by simp)
  next => exact absurd h (by simp)
  next tl htl =>
  split at h
  next => exact absurd h (by simp)
  next => exact absurd h (by simp)
  next pl hpl =>
  split at h
  case isFalse => exact absurd h (by simp)
  case isTrue hg =>
  refine ⟨tl, pl, htl, hpl, ?_⟩
  split at h
  next f hfd =>
    simp only [Except.ok.injEq, Prod.mk.injEq] at h
    obtain ⟨h1, h2⟩ := h
    subst h1
    subst h2
    exact ⟨by simp [getRec, getProc_setRec, alookup_aset_self],
      Or.inl ⟨hfd, rfl⟩⟩
  next hfd =>
    simp only [Except.ok.injEq, Prod.mk.injEq] at h
    obtain ⟨h1, h2⟩ := h
    subst h1
    subst h2
    refine ⟨?_, Or.inr ⟨hfd, rfl, rfl⟩⟩
    rw [setRec_fdTable, mkFd_setRec]
    simp [getRec, getProc_setRec, getProc_mkFd, alookup_aset_self]

theorem threadLevelAcquire_ok_spec {s : SysA} {p t : Nat} {path : String}
    {shared blocking reentrant : Bool} {s' : SysA}
    (h : threadLevelAcquire s p t path shared blocking reentrant = Except.ok s') :
    ∃ tl,
      rwAcquire (getRec (getProc s p) path).tLed t (modeOf shared) reentrant
        = Except.ok tl ∧
      getRec (getProc s' p) path =
        ⟨tl, (getRec (getProc s p) path).pLed, (getRec (getProc s p) path).fd⟩ := by
  simp only [threadLevelAcquire] at h
  split at h
  next => exact absurd h (by simp)
  next => exact absurd h (by simp)
  next tl htl =>
    simp only [Except.ok.injEq] at h
    subst h
    exact ⟨tl, htl, by simp [getRec, getProc_setRec, alookup_aset_self]⟩

theorem processLevelAcquire_ok_spec {s : SysA} {p t : Nat} {path : String}
    {shared blocking reentrant : Bool} {s' : SysA} {fdv : Nat}
    (h : processLevelAcquire s p t path shared blocking reentrant = Except.ok (s', fdv)) :
    ∃ pl,
      rwAcquire (getRec (getProc s p) path).pLed t (modeOf shared) reentrant
        = Except.ok pl ∧
      getRec (getProc s' p) path = ⟨(getRec (getProc s p) path).tLed, pl, some fdv⟩ := by
  simp only [processLevelAcquire] at h
  split at h
  next => exact absurd h (by simp)
  next => exact absurd h (by simp)
  next pl hpl =>
  split at h
  case isFalse => exact absurd h (by simp)
  case isTrue hg =>
  refine ⟨pl, hpl, ?_⟩
  split at h
  next f hfd =>
    simp only [Except.ok.injEq, Prod.mk.injEq] at h
    obtain ⟨h1, h2⟩ := h
    subst h1
    subst h2
    simp [getRec, getProc_setRec, alookup_aset_self]
  next hfd =>
    simp only [Except.ok.injEq, Prod.mk.injEq] at h
    obtain ⟨h1, h2⟩ := h
    subst h1
    subst h2
    rw [setRec_fdTable, mkFd_setRec]
    simp [getRec, getProc_setRec, getProc_mkFd, alookup_aset_self]

/-! Witness states: two processes at the same working directory, one lock
file. -/

/-- Two idle processes, both with working directory `/tmp`. -/
def wsBase : SysA := ⟨[(0, ⟨"/tmp", []⟩), (1, ⟨"/tmp", []⟩)], []⟩

/-- State after thread 0 of process 0 acquired `lock` exclusively. -/
def wsExcl : SysA :=
  ⟨[(0, ⟨"/tmp", [("lock",
      ⟨[(0, [Mode.exclusive])], [(0, [Mode.exclusive])], some 1⟩)]⟩),
    (1, ⟨"/tmp", []⟩)], [(1, "/tmp/lock")]⟩

/-- State after thread 0 of process 0 acquired `lock` in shared mode. -/
def wsShared : SysA :=
  ⟨[(0, ⟨"/tmp", [("lock",
      ⟨[(0, [Mode.shared])], [(0, [Mode.shared])], some 1⟩)]⟩),
    (1, ⟨"/tmp", []⟩)], [(1, "/tmp/lock")]⟩

/-- C5: for every successful acquisition through the public API there is
exactly one matching release, performed when the acquiring scope exits: the
release restores the pre-acquisition system state exactly, so afterwards
the same path can be acquired again by any thread of any process, exactly
as from the original state. -/
theorem C5_scoped_release {s : SysA} {p t : Nat} {path : String}
    {shared blocking reentrant : Bool} {s' : SysA} {fdv : Nat} {pr0 : ProcA}
    (hp : alookup p s.procs = some pr0)
    (hrec : ∀ r0, alookup path (getProc s p).recs = some r0 → RecOk r0)
    (hacq : pathLockAcquire s p t path shared blocking reentrant
      = Except.ok (s', fdv)) :
    pathLockRelease s' p t path = s ∧
    ∀ p2 t2 sh2 b2 re2,
      pathLockAcquire (pathLockRelease s' p t path) p2 t2 path sh2 b2 re2
        = pathLockAcquire s p2 t2 path sh2 b2 re2 := by
  have hrel := pathLockRelease_acquire hp hrec hacq
  exact ⟨hrel, fun p2 t2 sh2 b2 re2 => by rw [hrel]⟩

/-- Witness for C5 at a concrete input: process 0 acquires the lock
exclusively and the release restores the original state. -/
theorem C5_scoped_release_witness :
    pathLockRelease wsExcl 0 0 "lock" = wsBase ∧
    pathLockAcquire (pathLockRelease wsExcl 0 0 "lock") 1 0 "lock" true true false
      = pathLockAcquire wsBase 1 0 "lock" true true false := by
  have h := @C5_scoped_release wsBase 0 0 "lock" false true false wsExcl 1
    ⟨"/tmp", []⟩ (by decide)
    (fun r0 hr0 => by simp [getProc, alookup, wsBase] at hr0)
    rfl
  exact ⟨h.1, h.2 1 0 true true false⟩

/-- C8: the value yielded by a successful `path_lock` acquisition is the
record's open file descriptor: the descriptor is registered in the kernel
table under the canonical path of the locked file (so reads and writes
through it reach the locked file, with no separate open), and the process
holds the file lock in some mode on it throughout the scope. -/
theorem C8_handle_yields_descriptor {s : SysA} {p t : Nat} {path : String}
    {shared blocking reentrant : Bool} {s' : SysA} {fdv : Nat}
    (hfdcoh : ∀ f, (getRec (getProc s p) path).fd = some f →
      alookup f s.fdTable = some (canonKey (getProc s p).cwd path))
    (h : pathLockAcquire s p t path shared blocking reentrant
      = Except.ok (s', fdv)) :
    (getRec (getProc s' p) path).fd = some fdv ∧
    alookup fdv s'.fdTable = some (canonKey (getProc s p).cwd path) ∧
    procMode (getRec (getProc s' p) path).pLed ≠ none := by
  obtain ⟨tl, pl, htl, hpl, hrec', hor⟩ := pathLockAcquire_ok_spec h
  refine ⟨by rw [hrec'], ?_, ?_⟩
  · rcases hor with ⟨hfd, hft⟩ | ⟨hfd, hfv, hft⟩
    · rw [hft]
      exact hfdcoh fdv hfd
    · rw [hft]
      simp [alookup]
  · rw [hrec']
    exact procMode_ne_none (rwAcquire_ok_ne_nil hpl)

/-- Witness for C8 at a concrete input. -/
theorem C8_handle_yields_descriptor_witness :
    (getRec (getProc wsExcl 0) "lock").fd = some 1 ∧
    alookup 1 wsExcl.fdTable = some (canonKey (getProc wsBase 0).cwd "lock") ∧
    procMode (getRec (getProc wsExcl 0) "lock").pLed ≠ none :=
  @C8_handle_yields_descriptor wsBase 0 0 "lock" false true false wsExcl 1
    (fun f hf => by simp [getRec, getProc, alookup, wsBase, RecA.empty] at hf)
    rfl


/-- State after thread 0 of process 0, holding `lock` shared, reentrantly
acquired it in exclusive mode (the new mode is pushed on its stacks). -/
def wsMixed : SysA :=
  ⟨[(0, ⟨"/tmp", [("lock",
      ⟨[(0, [Mode.exclusive, Mode.shared])],
       [(0, [Mode.exclusive, Mode.shared])], some 1⟩)]⟩),
    (1, ⟨"/tmp", []⟩)], [(1, "/tmp/lock")]⟩

/-! Reacquisition by a thread that already holds. -/

theorem pathLock_reacquire_deadlock {s' : SysA} {p t : Nat} {path : String}
    {st : List Mode}
    (hmem : alookup t (getRec (getProc s' p) path).tLed = some st)
    (sh2 b2 : Bool) :
    pathLockAcquire s' p t path sh2 b2 false
      = Except.error LockErr.recursiveDeadlock := by
  simp [pathLockAcquire, rwAcquire, hmem]

theorem threadLevel_reacquire_deadlock {s' : SysA} {p t : Nat} {path : String}
    {st : List Mode}
    (hmem : alookup t (getRec (getProc s' p) path).tLed = some st)
    (sh2 b2 : Bool) :
    threadLevelAcquire s' p t path sh2 b2 false
      = Except.error LockErr.recursiveDeadlock := by
  simp [threadLevelAcquire, rwAcquire, hmem]

theorem processLevel_reacquire_deadlock {s' : SysA} {p t : Nat} {path : String}
    {st : List Mode}
    (hmem : alookup t (getRec (getProc s' p) path).pLed = some st)
    (sh2 b2 : Bool) :
    processLevelAcquire s' p t path sh2 b2 false
      = Except.error LockErr.recursiveDeadlock := by
  simp [processLevelAcquire, rwAcquire, hmem]

/-- C4: for each of `path_lock`, `thread_level_path_lock` and
`process_level_path_lock`, in either mode, a thread that holds the lock on
a path and reacquires the same path with `reentrant = false` gets
`RecursiveDeadlockError` (the acquisition returns the error and, being
pure, leaves no state change), and the outer holding scope still releases
normally, restoring the pre-acquisition state. -/
theorem C4_non_reentrant_recursive_deadlock {s : SysA} {p t : Nat}
    {path : String} {sh b re : Bool} {pr0 : ProcA}
    (hp : alookup p s.procs = some pr0)
    (hrec : ∀ r0, alookup path (getProc s p).recs = some r0 → RecOk r0) :
    (∀ s' fdv, pathLockAcquire s p t path sh b re = Except.ok (s', fdv) →
      (∀ sh2 b2, pathLockAcquire s' p t path sh2 b2 false
        = Except.error LockErr.recursiveDeadlock) ∧
      pathLockRelease s' p t path = s) ∧
    (∀ s', threadLevelAcquire s p t path sh b re = Except.ok s' →
      (∀ sh2 b2, threadLevelAcquire s' p t path sh2 b2 false
        = Except.error LockErr.recursiveDeadlock) ∧
      threadLevelRelease s' p t path = s) ∧
    (∀ s' fdv, processLevelAcquire s p t path sh b re = Except.ok (s', fdv) →
      (∀ sh2 b2, processLevelAcquire s' p t path sh2 b2 false
        = Except.error LockErr.recursiveDeadlock) ∧
      processLevelRelease s' p t path = s) := by
  refine ⟨fun s' fdv hacq => ⟨fun sh2 b2 => ?_, pathLockRelease_acquire hp hrec hacq⟩,
    fun s' hacq => ⟨fun sh2 b2 => ?_, threadLevelRelease_acquire hp hrec hacq⟩,
    fun s' fdv hacq => ⟨fun sh2 b2 => ?_, processLevelRelease_acquire hp hrec hacq⟩⟩
  · obtain ⟨tl, pl, htl, hpl, hget, hor⟩ := pathLockAcquire_ok_spec hacq
    obtain ⟨st, hst⟩ := rwAcquire_ok_lookup htl
    exact pathLock_reacquire_deadlock (by rw [hget]; exact hst) sh2 b2
  · obtain ⟨tl, htl, hget⟩ := threadLevelAcquire_ok_spec hacq
    obtain ⟨st, hst⟩ := rwAcquire_ok_lookup htl
    exact threadLevel_reacquire_deadlock (by rw [hget]; exact hst) sh2 b2
  · obtain ⟨pl, hpl, hget⟩ := processLevelAcquire_ok_spec hacq
    obtain ⟨st, hst⟩ := rwAcquire_ok_lookup hpl
    exact processLevel_reacquire_deadlock (by rw [hget]; exact hst) sh2 b2

/-- Witness for C4 at a concrete input: a shared holder that reacquires
non-reentrantly gets the error, and its scope still releases back to the
original state. -/
theorem C4_non_reentrant_recursive_deadlock_witness :
    pathLockAcquire wsShared 0 0 "lock" true true false
      = Except.error LockErr.recursiveDeadlock ∧
    pathLockRelease wsShared 0 0 "lock" = wsBase := by
  have h := @C4_non_reentrant_recursive_deadlock wsBase 0 0 "lock" true true false
    ⟨"/tmp", []⟩ (by decide)
    (fun r0 hr0 => by simp [getProc, alookup, wsBase] at hr0)
  have h1 := h.1 wsShared 1 rfl
  exact ⟨h1.1 true true, h1.2⟩


/-- Modelled from the spec (§6, §7): both would-block errors are subtypes
of `AcquiringLockWouldBlockError`; `recursive_deadlock` is not. -/
def LockErr.isWouldBlockErr : LockErr → Bool
  | LockErr.threadWouldBlock => true
  | LockErr.processWouldBlock => true
  | LockErr.recursiveDeadlock => false

/-- C3: a non-blocking acquisition that finds the lock held in an
incompatible mode fails with `AcquiringThreadLevelLockWouldBlockError` when
the incompatible holder is a thread of the same process (the thread-level
compatibility check fails), and with
`AcquiringProcessLevelLockWouldBlockError` when the incompatible holder is
another process (the kernel file-lock check fails); both are would-block
errors.  The acquisition returns only the error, so there is no state
change and no partial acquisition: existing holders keep their ledger
entries untouched. -/
theorem C3_non_blocking_would_block (s : SysA) (p t : Nat) (path : String)
    (sh re : Bool) :
    (alookup t (getRec (getProc s p) path).tLed = none →
      canAcquire (getRec (getProc s p) path).tLed (modeOf sh) = false →
      pathLockAcquire s p t path sh false re
        = Except.error LockErr.threadWouldBlock) ∧
    (alookup t (getRec (getProc s p) path).tLed = none →
      canAcquire (getRec (getProc s p) path).tLed (modeOf sh) = true →
      alookup t (getRec (getProc s p) path).pLed = none →
      canAcquire (getRec (getProc s p) path).pLed (modeOf sh) = true →
      procMode ((getRec (getProc s p) path).pLed ++ [(t, [modeOf sh])])
        ≠ procMode (getRec (getProc s p) path).pLed →
      kernelCompat (otherFileModes s p path (canonKey (getProc s p).cwd path))
        (procMode ((getRec (getProc s p) path).pLed ++ [(t, [modeOf sh])])) = false →
      pathLockAcquire s p t path sh false re
        = Except.error LockErr.processWouldBlock) ∧
    LockErr.isWouldBlockErr LockErr.threadWouldBlock = true ∧
    LockErr.isWouldBlockErr LockErr.processWouldBlock = true := by
  refine ⟨fun hT hTc => ?_, fun hT hTc hP hPc hMM hK => ?_, rfl, rfl⟩
  · simp [pathLockAcquire, rwAcquire, hT, hTc]
  · have hcond : ¬(procMode ((getRec (getProc s p) path).pLed ++ [(t, [modeOf sh])])
        = procMode (getRec (getProc s p) path).pLed ∨
        kernelCompat (otherFileModes s p path (canonKey (getProc s p).cwd path))
          (procMode ((getRec (getProc s p) path).pLed ++ [(t, [modeOf sh])])) = true) := by
      rintro (hc | hc)
      · exact hMM hc
      · rw [hK] at hc
        cases hc
    simp only [pathLockAcquire, rwAcquire, hT, hTc, hP, hPc, if_true]
    rw [if_neg hcond]

/-- Witness for C3 at a concrete input: thread 0 of process 0 holds `lock`
exclusively; thread 1 of the same process fails at the thread level, and
thread 0 of process 1 fails at the process level. -/
theorem C3_non_blocking_would_block_witness :
    pathLockAcquire wsExcl 0 1 "lock" true false false
      = Except.error LockErr.threadWouldBlock ∧
    pathLockAcquire wsExcl 1 0 "lock" true false false
      = Except.error LockErr.processWouldBlock := by
  refine ⟨(C3_non_blocking_would_block wsExcl 0 1 "lock" true false).1
      (by decide) (by decide),
    (C3_non_blocking_would_block wsExcl 1 0 "lock" true false).2.1
      (by decide) (by decide) (by decide) (by decide) (by decide) (by decide)⟩

/-- C2, counterexample: the spec says a reentrant acquisition must request
the mode currently held, and that a reentrant request in the other mode is
not supported; but the repository's own test `test_reentrant_mixed` nests
`path_lock` reentrantly with alternating modes and succeeds.  Concretely: a
thread holding `lock` in shared mode reentrantly acquires it in exclusive
mode and the call succeeds. -/
theorem C2_counterexample_mixed_reentrant_succeeds :
    pathLockAcquire wsBase 0 0 "lock" true true false
      = Except.ok (wsShared, 1) ∧
    pathLockAcquire wsShared 0 0 "lock" false true true
      = Except.ok (wsMixed, 1) :=
  ⟨rfl, rfl⟩

/-- C2, amended: a reentrant reacquisition by a thread that already holds
the lock on the path succeeds in either mode, pushing the requested mode
onto its stacks and incrementing the reentrance depth by one, provided no
other process currently holds the file lock on that path (which is the
case in the single-process nesting the tests exercise; an upgrading
reacquisition can still block on another process's file lock). -/
theorem C2_reentrant_reacquisition {s : SysA} {p t : Nat} {path : String}
    {st stp : List Mode} (sh2 b : Bool)
    (hT : alookup t (getRec (getProc s p) path).tLed = some st)
    (hP : alookup t (getRec (getProc s p) path).pLed = some stp)
    (hoth : otherFileModes s p path (canonKey (getProc s p).cwd path) = []) :
    ∃ s' fdv, pathLockAcquire s p t path sh2 b true = Except.ok (s', fdv) ∧
      alookup t (getRec (getProc s' p) path).tLed = some (modeOf sh2 :: st) ∧
      alookup t (getRec (getProc s' p) path).pLed = some (modeOf sh2 :: stp) := by
  have hkc : kernelCompat (otherFileModes s p path (canonKey (getProc s p).cwd path))
      (procMode (aset t (modeOf sh2 :: stp) (getRec (getProc s p) path).pLed)) = true := by
    rw [hoth]
    cases procMode (aset t (modeOf sh2 :: stp) (getRec (getProc s p) path).pLed) with
    | none => rfl
    | some m => rfl
  simp only [pathLockAcquire, rwAcquire, hT, hP, if_true]
  rw [if_pos (Or.inr hkc)]
  cases hfd : (getRec (getProc s p) path).fd with
  | some f =>
      refine ⟨_, f, rfl, ?_, ?_⟩
      · simp [getRec, getProc_setRec, alookup_aset_self]
      · simp [getRec, getProc_setRec, alookup_aset_self]
  | none =>
      refine ⟨_, freshFd s, rfl, ?_, ?_⟩
      · rw [setRec_fdTable, mkFd_setRec]
        simp [getRec, getProc_setRec, getProc_mkFd, alookup_aset_self]
      · rw [setRec_fdTable, mkFd_setRec]
        simp [getRec, getProc_setRec, getProc_mkFd, alookup_aset_self]

/-- Witness for the amended C2 at a concrete input: the shared holder
reentrantly reacquires in shared mode (the mode-equal case the spec
describes) and its depth becomes 2. -/
theorem C2_reentrant_reacquisition_witness :
    ∃ s' fdv, pathLockAcquire wsShared 0 0 "lock" true true true
      = Except.ok (s', fdv) ∧
      alookup 0 (getRec (getProc s' 0) "lock").tLed
        = some [Mode.shared, Mode.shared] ∧
      alookup 0 (getRec (getProc s' 0) "lock").pLed
        = some [Mode.shared, Mode.shared] :=
  @C2_reentrant_reacquisition wsShared 0 0 "lock" [Mode.shared] [Mode.shared]
    true true (by decide) (by decide) (by decide)


/-! Path canonicalization facts and cross-process contention through the
kernel key. -/

theorem isAbsPath_append (d rest : String) (hd : isAbsPath d = true) :
    isAbsPath (d ++ rest) = true := by
  simp only [isAbsPath, String.data_append, decide_eq_true_eq] at hd ⊢
  cases hdl : d.data with
  | nil => rw [hdl] at hd; simp at hd
  | cons c l =>
      rw [hdl] at hd
      simpa using hd

theorem otherFileModes_mem {s : SysA} {p : Nat} {path key : String}
    {q : Nat} {prq : ProcA} {pa : String} {rq : RecA} {m : Mode}
    (hq : (q, prq) ∈ s.procs) (hr : (pa, rq) ∈ prq.recs)
    (hne : ¬(q = p ∧ pa = path)) (hkey : canonKey prq.cwd pa = key)
    (hm : procMode rq.pLed = some m) :
    m ∈ otherFileModes s p path key := by
  unfold otherFileModes
  rw [List.mem_flatMap]
  refine ⟨(q, prq), hq, ?_⟩
  rw [List.mem_filterMap]
  refine ⟨(pa, rq), hr, ?_⟩
  show (if q = p ∧ pa = path then none
    else if canonKey prq.cwd pa = key then procMode rq.pLed else none) = some m
  rw [if_neg hne, if_pos hkey]
  exact hm

theorem kernelCompat_false_of_exclusive {others : List Mode} (m : Mode)
    (h : Mode.exclusive ∈ others) : kernelCompat others (some m) = false := by
  have hne : ¬(others.all (fun m1 => Mode.compat m m1) = true) := by
    rw [List.all_eq_true]
    intro hall
    have hx := hall Mode.exclusive h
    cases m <;> simp [Mode.compat] at hx
  simp only [kernelCompat]
  cases hh : others.all (fun m1 => Mode.compat m m1) with
  | true => exact absurd hh hne
  | false => rfl

theorem pathLockAcquire_fresh_kernel_blocked {s : SysA} {p t : Nat}
    {path : String} {sh re : Bool}
    (hfresh : alookup path (getProc s p).recs = none)
    (hK : kernelCompat (otherFileModes s p path (canonKey (getProc s p).cwd path))
      (some (modeOf sh)) = false) :
    pathLockAcquire s p t path sh false re
      = Except.error LockErr.processWouldBlock := by
  have hre : getRec (getProc s p) path = RecA.empty := by simp [getRec, hfresh]
  have hacq0 : rwAcquire ([] : Ledger) t (modeOf sh) re
      = Except.ok [(t, [modeOf sh])] := by
    cases re <;> rfl
  have hpm : procMode [(t, [modeOf sh])] = some (modeOf sh) := by
    cases sh <;> rfl
  have hcond : ¬(procMode [(t, [modeOf sh])] = procMode ([] : Ledger) ∨
      kernelCompat (otherFileModes s p path (canonKey (getProc s p).cwd path))
        (procMode [(t, [modeOf sh])]) = true) := by
    rw [hpm]
    rintro (hc | hc)
    · cases hc
    · rw [hK] at hc
      cases hc
  simp only [pathLockAcquire, hre, RecA.empty, hacq0]
  rw [if_neg hcond]

/-- C10: the public lock functions accept a relative path.  The canonical
kernel key of a relative path is the working directory joined with it, an
absolute path canonicalizes to itself under any working directory, and a
process that passes the relative path contends on the very same kernel
lock as one passing the corresponding absolute path: with another process
(same working directory) holding the file lock exclusively under the
relative name, a non-blocking acquisition fails at the process level
whether the requester names the relative or the absolute path. -/
theorem C10_relative_path_same_lock {s : SysA} {p q t : Nat} {d rel : String}
    {prq : ProcA} {rq : RecA} (sh re : Bool)
    (hrel : isAbsPath rel = false) (hd : isAbsPath d = true)
    (hpcwd : (getProc s p).cwd = d)
    (hq : (q, prq) ∈ s.procs) (hqcwd : prq.cwd = d)
    (hqr : (rel, rq) ∈ prq.recs)
    (hqm : procMode rq.pLed = some Mode.exclusive) (hqp : q ≠ p)
    (hfresh1 : alookup rel (getProc s p).recs = none)
    (hfresh2 : alookup (d ++ "/" ++ rel) (getProc s p).recs = none) :
    canonKey d rel = d ++ "/" ++ rel ∧
    (∀ d2, canonKey d2 (d ++ "/" ++ rel) = d ++ "/" ++ rel) ∧
    pathLockAcquire s p t rel sh false re
      = Except.error LockErr.processWouldBlock ∧
    pathLockAcquire s p t (d ++ "/" ++ rel) sh false re
      = Except.error LockErr.processWouldBlock := by
  have habs : isAbsPath (d ++ "/" ++ rel) = true :=
    isAbsPath_append (d ++ "/") rel (isAbsPath_append d "/" hd)
  have hck : canonKey d rel = d ++ "/" ++ rel := by
    simp [canonKey, hrel]
  refine ⟨hck, fun d2 => by simp [canonKey, habs], ?_, ?_⟩
  · refine pathLockAcquire_fresh_kernel_blocked hfresh1 ?_
    refine kernelCompat_false_of_exclusive (modeOf sh) ?_
    refine otherFileModes_mem hq hqr (fun hc => hqp hc.1) ?_ hqm
    rw [hqcwd, hpcwd]
  · refine pathLockAcquire_fresh_kernel_blocked hfresh2 ?_
    refine kernelCompat_false_of_exclusive (modeOf sh) ?_
    refine otherFileModes_mem hq hqr (fun hc => hqp hc.1) ?_ hqm
    rw [hqcwd, hpcwd, hck]
    simp [canonKey, habs]

/-- Witness for C10 at a concrete input: process 0 holds `lock`
exclusively under working directory `/tmp`; process 1 (same directory)
fails non-blocking on the relative and on the absolute spelling alike. -/
theorem C10_relative_path_same_lock_witness :
    canonKey "/tmp" "lock" = "/tmp" ++ "/" ++ "lock" ∧
    (∀ d2, canonKey d2 ("/tmp" ++ "/" ++ "lock") = "/tmp" ++ "/" ++ "lock") ∧
    pathLockAcquire wsExcl 1 0 "lock" true false false
      = Except.error LockErr.processWouldBlock ∧
    pathLockAcquire wsExcl 1 0 ("/tmp" ++ "/" ++ "lock") true false false
      = Except.error LockErr.processWouldBlock :=
  @C10_relative_path_same_lock wsExcl 1 0 0 "/tmp" "lock"
    ⟨"/tmp", [("lock", ⟨[(0, [Mode.exclusive])], [(0, [Mode.exclusive])], some 1⟩)]⟩
    ⟨[(0, [Mode.exclusive])], [(0, [Mode.exclusive])], some 1⟩ true false
    (by decide) (by decide) (by decide) (by decide) (by decide) (by decide)
    (by decide) (by decide) (by decide) (by decide)


/-! Trace layer: scripted threads over the two-layer lock, with an
interleaving small-step semantics.  A thread belongs to a process
(`pid`), has an OS thread identity (`tid`), carries the integer it writes
or enqueues (`idv`), and runs a straight-line program.  The lock state is
one thread-level and one process-level ledger per process, all for the
single contended path; acquiring at the process level performs the kernel
file-lock check against every other process, exactly as in the functional
layer.  A blocking acquisition is a step that is simply not enabled until
the lock becomes compatible. -/

inductive Instr where
  | tAcq (m : Mode)
  | pAcq (m : Mode)
  | pRel
  | tRel
  | barrier (b : Nat)
  | load
  | store
  | put
  | send (q : Nat)
  | recv (q : Nat)
deriving DecidableEq, Repr

structure Th where
  pid : Nat
  tid : Nat
  idv : Nat
  prog : List Instr
  pc : Nat
  reg : List Nat
deriving DecidableEq, Repr

structure TSys where
  threads : List Th
  tLeds : List (Nat × Ledger)
  pLeds : List (Nat × Ledger)
  file : List Nat
  results : List Nat
  toks : List Nat
deriving DecidableEq, Repr

/-- Ledger of one process (empty when the process never acquired). -/
def getLed (l : List (Nat × Ledger)) (p : Nat) : Ledger :=
  (alookup p l).getD []

/-- Whether a thread's program contains the barrier `b` at all (is a party
of it). -/
def hasBarrier (th : Th) (b : Nat) : Bool :=
  th.prog.contains (Instr.barrier b)

/-- Whether a thread has arrived at (or already passed) barrier `b`. -/
def atOrPastBarrier (th : Th) (b : Nat) : Bool :=
  (th.prog.take th.pc).contains (Instr.barrier b)
    || (th.prog.get? th.pc == some (Instr.barrier b))

/-- Modelled on `threading.Barrier`: a party may pass once every party has
arrived. -/
def barrierReady (s : TSys) (b : Nat) : Bool :=
  s.threads.all (fun th => !hasBarrier th b || atOrPastBarrier th b)

/-- Modelled from the spec (§4.A, §4.D): the kernel grants the process's
new file-lock mode when it is compatible with every other process's
current file-lock mode. -/
def kernelStepOk (s : TSys) (p : Nat) (mNew : Option Mode) : Bool :=
  s.pLeds.all (fun e => e.1 == p ||
    match procMode e.2, mNew with
    | none, _ => true
    | _, none => true
    | some m1, some m0 => Mode.compat m0 m1)

/-- Effect of one instruction executed by thread `i` (already looked up as
`th`).  `none` means the instruction is blocked. -/
def stepInstr (s : TSys) (i : Nat) (th : Th) : Instr → Option TSys
  | Instr.tAcq m =>
    match rwAcquire (getLed s.tLeds th.pid) th.tid m false with
    | Except.ok tl => some { s with
        threads := s.threads.set i { th with pc := th.pc + 1 },
        tLeds := aset th.pid tl s.tLeds }
    | Except.error _ => none
  | Instr.pAcq m =>
    match rwAcquire (getLed s.pLeds th.pid) th.tid m false with
    | Except.ok pl =>
        if procMode pl = procMode (getLed s.pLeds th.pid)
            ∨ kernelStepOk s th.pid (procMode pl) = true then
          some { s with
            threads := s.threads.set i { th with pc := th.pc + 1 },
            pLeds := aset th.pid pl s.pLeds }
        else none
    | Except.error _ => none
  | Instr.pRel =>
    match alookup th.tid (getLed s.pLeds th.pid) with
    | some _ => some { s with
        threads := s.threads.set i { th with pc := th.pc + 1 },
        pLeds := aset th.pid (rwRelease (getLed s.pLeds th.pid) th.tid)
          s.pLeds }
    | none => none
  | Instr.tRel =>
    match alookup th.tid (getLed s.tLeds th.pid) with
    | some _ => some { s with
        threads := s.threads.set i { th with pc := th.pc + 1 },
        tLeds := aset th.pid (rwRelease (getLed s.tLeds th.pid) th.tid)
          s.tLeds }
    | none => none
  | Instr.barrier b =>
    if barrierReady s b then
      some { s with threads := s.threads.set i { th with pc := th.pc + 1 } }
    else none
  | Instr.load =>
    some { s with
      threads := s.threads.set i { th with pc := th.pc + 1, reg := s.file } }
  | Instr.store =>
    some { s with
      threads := s.threads.set i { th with pc := th.pc + 1 },
      file := th.reg ++ [th.idv] }
  | Instr.put =>
    some { s with
      threads := s.threads.set i { th with pc := th.pc + 1 },
      results := s.results ++ [th.idv] }
  | Instr.send q =>
    match s.toks.get? q with
    | some c => some { s with
        threads := s.threads.set i { th with pc := th.pc + 1 },
        toks := s.toks.set q (c + 1) }
    | none => none
  | Instr.recv q =>
    match s.toks.get? q with
    | some (c + 1) => some { s with
        threads := s.threads.set i { th with pc := th.pc + 1 },
        toks := s.toks.set q c }
    | _ => none

/-- One interleaving step: thread `i` executes its next instruction if that
instruction is enabled.  `none` means thread `i` is finished or blocked. -/
def step (s : TSys) (i : Nat) : Option TSys :=
  match s.threads.get? i with
  | none => none
  | some th =>
      match th.prog.get? th.pc with
      | none => none
      | some ins => stepInstr s i th ins

/-- Run a schedule (list of thread indices); `none` when some scheduled
step is not enabled. -/
def run (s : TSys) : List Nat → Option TSys
  | [] => some s
  | i :: acts =>
      match step s i with
      | some s2 => run s2 acts
      | none => none

/-- Every thread has executed its whole program. -/
def allDone (s : TSys) : Bool :=
  s.threads.all (fun th => th.prog.length ≤ th.pc)

theorem run_append (s : TSys) (acts1 acts2 : List Nat) :
    run s (acts1 ++ acts2) = (run s acts1).bind (fun s2 => run s2 acts2) := by
  induction acts1 generalizing s with
  | nil => rfl
  | cons i acts1 ih =>
      simp only [List.cons_append, run]
      cases step s i with
      | none => rfl
      | some s2 => exact ih s2


/-! List lemmas for positional updates and association lists, used by the
trace invariants. -/

theorem get?_set_self {α : Type} {l : List α} {i : Nat} {a : α} (b : α)
    (h : l.get? i = some a) : (l.set i b).get? i = some b := by
  induction l generalizing i with
  | nil => simp [List.get?] at h
  | cons x l ih =>
      cases i with
      | zero => rfl
      | succ j => exact ih h

theorem get?_set_ne {α : Type} {l : List α} {i j : Nat} (hne : i ≠ j) (b : α) :
    (l.set i b).get? j = l.get? j := by
  induction l generalizing i j with
  | nil => simp [List.set]
  | cons x l ih =>
      cases i with
      | zero =>
          cases j with
          | zero => exact absurd rfl hne
          | succ j2 => rfl
      | succ i2 =>
          cases j with
          | zero => rfl
          | succ j2 => exact @ih i2 j2 fun hh => hne (by rw [hh])

theorem mem_set {α : Type} {l : List α} {i : Nat} {b x : α}
    (h : x ∈ l.set i b) : x ∈ l ∨ x = b := by
  induction l generalizing i with
  | nil => simp [List.set] at h
  | cons y l ih =>
      cases i with
      | zero =>
          rcases List.mem_cons.mp h with rfl | hx
          · exact Or.inr rfl
          · exact Or.inl (List.mem_cons_of_mem y hx)
      | succ j =>
          rcases List.mem_cons.mp h with rfl | hx
          · exact Or.inl (List.mem_cons_self x l)
          · rcases ih hx with hx | hx
            · exact Or.inl (List.mem_cons_of_mem y hx)
            · exact Or.inr hx

theorem mem_set_self {α : Type} {l : List α} {i : Nat} {a : α} (b : α)
    (h : l.get? i = some a) : b ∈ l.set i b := by
  induction l generalizing i with
  | nil => simp [List.get?] at h
  | cons x l ih =>
      cases i with
      | zero => exact List.mem_cons_self b l
      | succ j => exact List.mem_cons_of_mem x (ih h)

theorem mem_set_of_ne {α : Type} {l : List α} {i : Nat} {a b x : α}
    (h : l.get? i = some a) (hx : x ∈ l) (hxa : x ≠ a) : x ∈ l.set i b := by
  induction l generalizing i with
  | nil => cases hx
  | cons y l ih =>
      cases i with
      | zero =>
          simp only [List.get?] at h
          cases h
          rcases List.mem_cons.mp hx with rfl | hx
          · exact absurd rfl hxa
          · exact List.mem_cons_of_mem b hx
      | succ j =>
          rcases List.mem_cons.mp hx with rfl | hx
          · exact List.mem_cons_self x _
          · exact List.mem_cons_of_mem y (ih h hx)

theorem map_set_eq {α β : Type} {l : List α} {i : Nat} {a b : α}
    {f : α → β} (h : l.get? i = some a) (hf : f b = f a) :
    (l.set i b).map f = l.map f := by
  induction l generalizing i with
  | nil => rfl
  | cons x l ih =>
      cases i with
      | zero =>
          simp only [List.get?] at h
          cases h
          simp [List.set, hf]
      | succ j =>
          simp only [List.set, List.map_cons]
          rw [ih h]

theorem filterMap_set_eq {α β : Type} {l : List α} {i : Nat} {a b : α}
    {f : α → Option β} (h : l.get? i = some a) (hf : f b = f a) :
    (l.set i b).filterMap f = l.filterMap f := by
  induction l generalizing i with
  | nil => rfl
  | cons x l ih =>
      cases i with
      | zero =>
          simp only [List.get?] at h
          cases h
          simp only [List.set, List.filterMap_cons, hf]
      | succ j =>
          simp only [List.set, List.filterMap_cons]
          cases f x with
          | none => exact ih h
          | some v => rw [ih h]

theorem filterMap_set_perm {α β : Type} {l : List α} {i : Nat} {a b : α}
    {f : α → Option β} {v : β} (h : l.get? i = some a) (ha : f a = none)
    (hb : f b = some v) :
    ((l.set i b).filterMap f).Perm (v :: l.filterMap f) := by
  induction l generalizing i with
  | nil => simp [List.get?] at h
  | cons x l ih =>
      cases i with
      | zero =>
          simp only [List.get?] at h
          cases h
          simp only [List.set, List.filterMap_cons, ha, hb]
          exact List.Perm.refl _
      | succ j =>
          simp only [List.set, List.filterMap_cons]
          cases hx : f x with
          | none => exact ih h
          | some w =>
              refine (List.Perm.cons w (ih h)).trans ?_
              exact List.Perm.swap v w _

theorem alookup_aremove_self {α β : Type} [DecidableEq α] (k : α)
    (l : List (α × β)) : alookup k (aremove k l) = none := by
  induction l with
  | nil => rfl
  | cons a l ih =>
      by_cases hk : a.1 = k
      · simp only [aremove]
        rw [if_pos hk]
        exact ih
      · simp only [aremove]
        rw [if_neg hk, alookup_cons, if_neg hk]
        exact ih

theorem alookup_aremove_ne {α β : Type} [DecidableEq α] {k k2 : α}
    (hne : k2 ≠ k) (l : List (α × β)) :
    alookup k2 (aremove k l) = alookup k2 l := by
  induction l with
  | nil => rfl
  | cons a l ih =>
      by_cases hk : a.1 = k
      · have hk2 : ¬a.1 = k2 := by rw [hk]; exact fun hh => hne hh.symm
        simp only [aremove]
        rw [if_pos hk, ih, alookup_cons, if_neg hk2]
      · simp only [aremove]
        rw [if_neg hk, alookup_cons, alookup_cons]
        by_cases hk2 : a.1 = k2
        · rw [if_pos hk2, if_pos hk2]
        · rw [if_neg hk2, if_neg hk2, ih]

theorem alookup_append_ne {α β : Type} [DecidableEq α] {t t2 : α}
    (hne : t2 ≠ t) (l : List (α × β)) (v : β) :
    alookup t2 (l ++ [(t, v)]) = alookup t2 l := by
  induction l with
  | nil =>
      show alookup t2 ((t, v) :: []) = alookup t2 []
      rw [alookup_cons, if_neg (fun hh => hne hh.symm)]
  | cons a l ih =>
      by_cases hk : a.1 = t2
      · simp [alookup_cons, hk]
      · simp [alookup_cons, hk, ih]

theorem mem_aset {α β : Type} [DecidableEq α] {k : α} {v : β}
    {l : List (α × β)} {x : α × β} (h : x ∈ aset k v l) :
    x = (k, v) ∨ x ∈ l := by
  induction l with
  | nil => simpa [aset] using h
  | cons a l ih =>
      by_cases hk : a.1 = k
      · simp only [aset, hk, if_true] at h
        rcases List.mem_cons.mp h with rfl | hx
        · exact Or.inl rfl
        · exact Or.inr (List.mem_cons_of_mem a hx)
      · simp only [aset, hk, if_false] at h
        rcases List.mem_cons.mp h with rfl | hx
        · exact Or.inr (List.mem_cons_self x l)
        · rcases ih hx with hx | hx
          · exact Or.inl hx
          · exact Or.inr (List.mem_cons_of_mem a hx)

theorem keys_nodup_aset {α β : Type} [DecidableEq α] {k : α} {v : β}
    {l : List (α × β)} (h : (l.map Prod.fst).Nodup) :
    ((aset k v l).map Prod.fst).Nodup := by
  induction l with
  | nil => simp [aset]
  | cons a l ih =>
      simp only [List.map_cons, List.nodup_cons] at h
      by_cases hk : a.1 = k
      · simp only [aset, hk, if_true, List.map_cons, List.nodup_cons]
        exact ⟨by rw [← hk]; exact h.1, h.2⟩
      · simp only [aset, hk, if_false, List.map_cons, List.nodup_cons]
        refine ⟨?_, ih h.2⟩
        intro hmem
        have : ∀ x ∈ (aset k v l).map Prod.fst, x ∈ l.map Prod.fst ∨ x = k := by
          intro x hx
          rw [List.mem_map] at hx
          obtain ⟨e, he, rfl⟩ := hx
          rcases mem_aset he with rfl | he2
          · exact Or.inr rfl
          · exact Or.inl (List.mem_map_of_mem Prod.fst he2)
        rcases this a.1 hmem with hh | hh
        · exact h.1 hh
        · exact hk hh

theorem getLed_aset_self (p : Nat) (led : Ledger) (L : List (Nat × Ledger)) :
    getLed (aset p led L) p = led := by
  simp [getLed, alookup_aset_self]

theorem getLed_aset_ne {p q : Nat} (hne : q ≠ p) (led : Ledger)
    (L : List (Nat × Ledger)) : getLed (aset p led L) q = getLed L q := by
  simp [getLed, alookup_aset_ne (fun hh => hne hh.symm)]

theorem mem_of_getLed_ne_nil {L : List (Nat × Ledger)} {p : Nat}
    (h : getLed L p ≠ []) : (p, getLed L p) ∈ L := by
  unfold getLed at h ⊢
  cases hl : alookup p L with
  | none => rw [hl] at h; simp at h
  | some led =>
      simpa using alookup_mem hl

theorem eq_of_mem_length_le_one {α : Type} {l : List α} {a b : α}
    (hlen : l.length ≤ 1) (ha : a ∈ l) (hb : b ∈ l) : a = b := by
  cases l with
  | nil => cases ha
  | cons x l =>
      cases l with
      | nil =>
          rcases List.mem_cons.mp ha with rfl | ha2
          · rcases List.mem_cons.mp hb with rfl | hb2
            · rfl
            · cases hb2
          · cases ha2
      | cons y l => simp at hlen


/-! Read-modify-write scenario (claim C1, spec §8.5,
`test_many_exclusive_threads_and_processes_rw`): any number of threads
spread over any number of processes, each acquiring the composite lock
exclusively, reading the file, appending its id and writing back. -/

/-- Program of one read-modify-write worker (`exclusive_thread_write`):
acquire `path_lock` exclusively (thread level, then process level), read
the file, write it back with the worker's id appended, release in reverse
order. -/
def rmwProg : List Instr :=
  [Instr.tAcq Mode.exclusive, Instr.pAcq Mode.exclusive, Instr.load,
   Instr.store, Instr.pRel, Instr.tRel]

/-- Initial system: one thread per entry of `specs` (process id, thread
id, the id it appends), empty file, no locks held. -/
def initRMW (specs : List (Nat × Nat × Nat)) : TSys :=
  ⟨specs.map (fun x => ⟨x.1, x.2.1, x.2.2, rmwProg, 0, []⟩), [], [], [], [], []⟩

/-- The thread is inside its exclusive critical section: past the
successful process-level acquisition, not yet past the process-level
release. -/
def inCS (th : Th) : Prop := 2 ≤ th.pc ∧ th.pc ≤ 4

theorem rmwProg_get {pc : Nat} {ins : Instr} (h : rmwProg.get? pc = some ins) :
    (pc = 0 ∧ ins = Instr.tAcq Mode.exclusive) ∨
    (pc = 1 ∧ ins = Instr.pAcq Mode.exclusive) ∨
    (pc = 2 ∧ ins = Instr.load) ∨
    (pc = 3 ∧ ins = Instr.store) ∨
    (pc = 4 ∧ ins = Instr.pRel) ∨
    (pc = 5 ∧ ins = Instr.tRel) := by
  match pc with
  | 0 => injection h with h; exact Or.inl ⟨rfl, h.symm⟩
  | 1 => injection h with h; exact Or.inr (Or.inl ⟨rfl, h.symm⟩)
  | 2 => injection h with h; exact Or.inr (Or.inr (Or.inl ⟨rfl, h.symm⟩))
  | 3 => injection h with h; exact Or.inr (Or.inr (Or.inr (Or.inl ⟨rfl, h.symm⟩)))
  | 4 =>
      injection h with h
      exact Or.inr (Or.inr (Or.inr (Or.inr (Or.inl ⟨rfl, h.symm⟩))))
  | 5 =>
      injection h with h
      exact Or.inr (Or.inr (Or.inr (Or.inr (Or.inr ⟨rfl, h.symm⟩))))
  | n + 6 => simp [rmwProg] at h

theorem nodup_map_get_ne {α β : Type} {l : List α} {f : α → β}
    (h : (l.map f).Nodup) {i j : Nat} {a b : α} (hi : l.get? i = some a)
    (hj : l.get? j = some b) (hij : i ≠ j) : f a ≠ f b := by
  induction l generalizing i j with
  | nil => simp [List.get?] at hi
  | cons x l ih =>
      simp only [List.map_cons, List.nodup_cons] at h
      cases i with
      | zero =>
          cases hi
          cases j with
          | zero => exact absurd rfl hij
          | succ j2 =>
              intro hfeq
              have hbmem : b ∈ l := List.get?_mem hj
              exact h.1 (hfeq ▸ List.mem_map_of_mem f hbmem)
      | succ i2 =>
          cases j with
          | zero =>
              cases hj
              intro hfeq
              have hamem : a ∈ l := List.get?_mem hi
              refine h.1 ?_
              rw [← hfeq]
              exact List.mem_map_of_mem f hamem
          | succ j2 => exact ih h.2 hi hj (fun hh => hij (by rw [hh]))

theorem mem_aremove {α β : Type} [DecidableEq α] {k : α} {l : List (α × β)}
    {x : α × β} (h : x ∈ aremove k l) : x ∈ l ∧ x.1 ≠ k := by
  induction l with
  | nil => cases h
  | cons a l ih =>
      by_cases hk : a.1 = k
      · simp only [aremove, if_pos hk] at h
        obtain ⟨h1, h2⟩ := ih h
        exact ⟨List.mem_cons_of_mem a h1, h2⟩
      · simp only [aremove, if_neg hk] at h
        rcases List.mem_cons.mp h with rfl | h2
        · exact ⟨List.mem_cons_self x l, hk⟩
        · obtain ⟨h1, h2⟩ := ih h2
          exact ⟨List.mem_cons_of_mem a h1, h2⟩

theorem mem_aset_keys {α β : Type} [DecidableEq α] {k : α} {v : β}
    {l : List (α × β)} {x : α × β} (hnd : (l.map Prod.fst).Nodup)
    (h : x ∈ aset k v l) : x = (k, v) ∨ (x ∈ l ∧ x.1 ≠ k) := by
  induction l with
  | nil =>
      simp only [aset] at h
      rcases List.mem_cons.mp h with rfl | h2
      · exact Or.inl rfl
      · cases h2
  | cons a l ih =>
      simp only [List.map_cons, List.nodup_cons] at hnd
      by_cases hk : a.1 = k
      · simp only [aset, if_pos hk] at h
        rcases List.mem_cons.mp h with rfl | h2
        · exact Or.inl rfl
        · refine Or.inr ⟨List.mem_cons_of_mem a h2, ?_⟩
          intro hxk
          refine hnd.1 ?_
          rw [hk, ← hxk]
          exact List.mem_map_of_mem Prod.fst h2
      · simp only [aset, if_neg hk] at h
        rcases List.mem_cons.mp h with rfl | h2
        · exact Or.inr ⟨List.mem_cons_self x l, hk⟩
        · rcases ih hnd.2 h2 with h3 | h3
          · exact Or.inl h3
          · exact Or.inr ⟨List.mem_cons_of_mem a h3.1, h3.2⟩

theorem procMode_eq_none {led : Ledger} (h : procMode led = none) :
    led = [] := by
  cases led with
  | nil => rfl
  | cons a l =>
      simp only [procMode] at h
      split at h <;> cases h

theorem alookup_ne_nil {α β : Type} [DecidableEq α] {k : α}
    {l : List (α × β)} {v : β} (h : alookup k l = some v) : l ≠ [] := by
  intro hl
  rw [hl] at h
  cases h


/-- Inductive invariant of the read-modify-write system.  Only the
process-level ledgers matter for exclusion; the thread-level ledgers are
part of the faithful model but no safety clause needs them. -/
structure RmwInv (specs : List (Nat × Nat × Nat)) (s : TSys) : Prop where
  stat : s.threads.map (fun th => (th.pid, th.tid, th.idv, th.prog))
    = specs.map (fun x => (x.1, x.2.1, x.2.2, rmwProg))
  sync : ∀ j th, s.threads.get? j = some th →
    alookup th.tid (getLed s.pLeds th.pid)
      = if 2 ≤ th.pc ∧ th.pc ≤ 4 then some [Mode.exclusive] else none
  strays : ∀ e ∈ s.pLeds, ∀ en ∈ e.2, en.2 = [Mode.exclusive] ∧
    ∃ j th, s.threads.get? j = some th ∧ th.pid = e.1 ∧ th.tid = en.1 ∧
      2 ≤ th.pc ∧ th.pc ≤ 4
  uniq : ∀ e1 ∈ s.pLeds, ∀ en1 ∈ e1.2, ∀ e2 ∈ s.pLeds, ∀ en2 ∈ e2.2,
    e1.1 = e2.1 ∧ en1.1 = en2.1
  keys : (s.pLeds.map Prod.fst).Nodup
  fileP : s.file.Perm (s.threads.filterMap
    (fun th => if 4 ≤ th.pc then some th.idv else none))
  regInv : ∀ j th, s.threads.get? j = some th → th.pc = 3 → th.reg = s.file

theorem rmw_ids_eq {specs : List (Nat × Nat × Nat)} {s : TSys}
    (hInv : RmwInv specs s) :
    s.threads.map (fun th => (th.pid, th.tid))
      = specs.map (fun x => (x.1, x.2.1)) := by
  have h := congrArg
    (List.map (fun z : Nat × Nat × Nat × List Instr => (z.1, z.2.1))) hInv.stat
  rw [List.map_map, List.map_map] at h
  exact h

/-- Mutual exclusion, derived from the invariant: two distinct threads are
never both inside the exclusive critical section. -/
theorem rmw_mutex {specs : List (Nat × Nat × Nat)} {s : TSys}
    (hdist : (specs.map (fun x => (x.1, x.2.1))).Nodup)
    (hInv : RmwInv specs s) :
    ∀ i j thi thj, s.threads.get? i = some thi →
      s.threads.get? j = some thj → i ≠ j → inCS thi → inCS thj → False := by
  intro i j thi thj hi hj hij hci hcj
  have hci2 : 2 ≤ thi.pc ∧ thi.pc ≤ 4 := hci
  have hcj2 : 2 ≤ thj.pc ∧ thj.pc ≤ 4 := hcj
  have hsi := hInv.sync i thi hi
  have hsj := hInv.sync j thj hj
  rw [if_pos hci2] at hsi
  rw [if_pos hcj2] at hsj
  have hni : getLed s.pLeds thi.pid ≠ [] := alookup_ne_nil hsi
  have hnj : getLed s.pLeds thj.pid ≠ [] := alookup_ne_nil hsj
  have hmi := mem_of_getLed_ne_nil hni
  have hmj := mem_of_getLed_ne_nil hnj
  have hei := alookup_mem hsi
  have hej := alookup_mem hsj
  have huq := hInv.uniq _ hmi _ hei _ hmj _ hej
  have hids : s.threads.map (fun th => (th.pid, th.tid))
      = specs.map (fun x => (x.1, x.2.1)) := rmw_ids_eq hInv
  have hnd : (s.threads.map (fun th => (th.pid, th.tid))).Nodup := by
    rw [hids]; exact hdist
  have hne := nodup_map_get_ne hnd hi hj hij
  have h1 : thi.pid = thj.pid := huq.1
  have h2 : thi.tid = thj.tid := huq.2
  exact hne (by
    show (thi.pid, thi.tid) = (thj.pid, thj.tid)
    rw [h1, h2])

theorem rmwInv_init (specs : List (Nat × Nat × Nat)) :
    RmwInv specs (initRMW specs) := by
  refine ⟨?_, ?_, ?_, ?_, ?_, ?_, ?_⟩
  · simp only [initRMW, List.map_map]
    rfl
  · intro j th hj
    have hpc : th.pc = 0 := by
      simp only [initRMW] at hj
      rw [List.get?_map] at hj
      cases hx : specs.get? j with
      | none => rw [hx] at hj; cases hj
      | some x =>
          rw [hx] at hj
          injection hj with hj
          rw [← hj]
    rw [hpc]
    simp [getLed, alookup]
  · intro e he
    simp only [initRMW] at he
    cases he
  · intro e1 he1
    simp only [initRMW] at he1
    cases he1
  · simp [initRMW]
  · simp only [initRMW]
    have : List.filterMap
        (fun th => if 4 ≤ th.pc then some th.idv else none)
        (specs.map (fun x => (⟨x.1, x.2.1, x.2.2, rmwProg, 0, []⟩ : Th)))
        = [] := by
      induction specs with
      | nil => rfl
      | cons x l ih => simpa [List.filterMap_cons] using ih
    rw [this]
  · intro j th hj hpc
    simp only [initRMW] at hj
    rw [List.get?_map] at hj
    cases hx : specs.get? j with
    | none => rw [hx] at hj; cases hj
    | some x =>
        rw [hx] at hj
        injection hj with hj
        rw [← hj] at hpc
        cases hpc


theorem alookup_eq_none_not_mem {α β : Type} [DecidableEq α] {k : α}
    {l : List (α × β)} (h : alookup k l = none) {x : α × β} (hx : x ∈ l) :
    x.1 ≠ k := by
  induction l with
  | nil => cases hx
  | cons a l ih =>
      rw [alookup_cons] at h
      by_cases hk : a.1 = k
      · rw [if_pos hk] at h
        cases h
      · rw [if_neg hk] at h
        rcases List.mem_cons.mp hx with rfl | hx2
        · exact hk
        · exact ih h hx2

theorem rwAcquire_false_ok {led : Ledger} {t : Nat} {m : Mode} {led2 : Ledger}
    (h : rwAcquire led t m false = Except.ok led2) :
    alookup t led = none ∧ canAcquire led m = true ∧ led2 = led ++ [(t, [m])] := by
  unfold rwAcquire at h
  cases hl : alookup t led with
  | some st => rw [hl] at h; simp at h
  | none =>
      rw [hl] at h
      by_cases hc : canAcquire led m = true
      · rw [if_pos hc] at h
        injection h with h
        exact ⟨rfl, hc, h.symm⟩
      · rw [if_neg hc] at h
        cases h

theorem eq_of_mem_keys_nodup {α β : Type} {l : List (α × β)}
    (h : (l.map Prod.fst).Nodup) {e1 e2 : α × β} (h1 : e1 ∈ l) (h2 : e2 ∈ l)
    (hk : e1.1 = e2.1) : e1 = e2 := by
  induction l with
  | nil => cases h1
  | cons x l ih =>
      simp only [List.map_cons, List.nodup_cons] at h
      rcases List.mem_cons.mp h1 with rfl | h1b
      · rcases List.mem_cons.mp h2 with rfl | h2b
        · rfl
        · exfalso
          refine h.1 ?_
          rw [hk]
          exact List.mem_map_of_mem Prod.fst h2b
      · rcases List.mem_cons.mp h2 with rfl | h2b
        · exfalso
          refine h.1 ?_
          rw [← hk]
          exact List.mem_map_of_mem Prod.fst h1b
        · exact ih h.2 h1b h2b

theorem rmwInv_step {specs : List (Nat × Nat × Nat)} {s s' : TSys} {i : Nat}
    (hdist : (specs.map (fun x => (x.1, x.2.1))).Nodup)
    (hInv : RmwInv specs s) (h : step s i = some s') : RmwInv specs s' := by
  unfold step at h
  split at h
  next => cases h
  next th hth =>
  split at h
  next => cases h
  next ins hins =>
  have hprog : th.prog = rmwProg := by
    have hmem : (th.pid, th.tid, th.idv, th.prog) ∈
        specs.map (fun x => (x.1, x.2.1, x.2.2, rmwProg)) := by
      rw [← hInv.stat]
      exact List.mem_map_of_mem _ (List.get?_mem hth)
    rw [List.mem_map] at hmem
    obtain ⟨x, hx, he⟩ := hmem
    have hp := congrArg (fun z : Nat × Nat × Nat × List Instr => z.2.2.2) he
    exact hp.symm
  rw [hprog] at hins
  have hnd : (s.threads.map (fun th2 => (th2.pid, th2.tid))).Nodup := by
    rw [rmw_ids_eq hInv]; exact hdist
  have hstat1 : ∀ pc2 : Nat,
      (s.threads.set i { th with pc := pc2 }).map
        (fun th2 => (th2.pid, th2.tid, th2.idv, th2.prog))
      = specs.map (fun x => (x.1, x.2.1, x.2.2, rmwProg)) := by
    intro pc2
    rw [@map_set_eq Th (Nat × Nat × Nat × List Instr) s.threads i th
      ({ th with pc := pc2 }) (fun th2 => (th2.pid, th2.tid, th2.idv, th2.prog))
      hth rfl, hInv.stat]
  have hstat2 : ∀ pc2 r2,
      (s.threads.set i { th with pc := pc2, reg := r2 }).map
        (fun th2 => (th2.pid, th2.tid, th2.idv, th2.prog))
      = specs.map (fun x => (x.1, x.2.1, x.2.2, rmwProg)) := by
    intro pc2 r2
    rw [@map_set_eq Th (Nat × Nat × Nat × List Instr) s.threads i th
      ({ th with pc := pc2, reg := r2 })
      (fun th2 => (th2.pid, th2.tid, th2.idv, th2.prog)) hth rfl, hInv.stat]
  rcases rmwProg_get hins with ⟨hpc, rfl⟩ | ⟨hpc, rfl⟩ | ⟨hpc, rfl⟩
    | ⟨hpc, rfl⟩ | ⟨hpc, rfl⟩ | ⟨hpc, rfl⟩
  · -- tAcq: pc 0 → 1, thread-level ledger only
    simp only [stepInstr] at h
    split at h
    next tl htl =>
      injection h with h
      subst h
      refine ⟨hstat1 _, ?_, ?_, hInv.uniq, hInv.keys, ?_, ?_⟩
      · intro j th2 hj
        by_cases hji : j = i
        · rw [hji, get?_set_self _ hth] at hj
          injection hj with hj
          subst hj
          show alookup th.tid (getLed s.pLeds th.pid)
            = if 2 ≤ th.pc + 1 ∧ th.pc + 1 ≤ 4 then some [Mode.exclusive] else none
          rw [hInv.sync i th hth, hpc]
          rfl
        · rw [get?_set_ne (fun hh => hji hh.symm) _] at hj
          exact hInv.sync j th2 hj
      · intro e he en hen
        obtain ⟨hex, j2, th2, hj2, hpe, hte, hlo, hhi⟩ := hInv.strays e he en hen
        refine ⟨hex, j2, th2, ?_, hpe, hte, hlo, hhi⟩
        have hj2i : j2 ≠ i := by
          intro hh
          rw [hh, hth] at hj2
          injection hj2 with hj2
          rw [← hj2, hpc] at hlo
          omega
        rw [get?_set_ne (fun hh => hj2i hh.symm) _]
        exact hj2
      · show s.file.Perm ((s.threads.set i _).filterMap _)
        rw [@filterMap_set_eq Th Nat s.threads i th ({ th with pc := th.pc + 1 })
          (fun th2 => if 4 ≤ th2.pc then some th2.idv else none) hth
          (by show (if 4 ≤ th.pc + 1 then some th.idv else none)
                = (if 4 ≤ th.pc then some th.idv else none)
              rw [hpc]
              simp)]
        exact hInv.fileP
      · intro j th2 hj hpc3
        by_cases hji : j = i
        · rw [hji, get?_set_self _ hth] at hj
          injection hj with hj
          subst hj
          rw [show ({ th with pc := th.pc + 1 } : Th).pc = th.pc + 1 from rfl, hpc] at hpc3
          cases hpc3
        · rw [get?_set_ne (fun hh => hji hh.symm) _] at hj
          exact hInv.regInv j th2 hj hpc3
    next e htl => cases h
  · -- pAcq: pc 1 → 2, process-level acquisition plus kernel transition
    simp only [stepInstr] at h
    split at h
    next pl hpl =>
      split at h
      next hg =>
        injection h with h
        subst h
        obtain ⟨hlk, hcan, hpleq⟩ := rwAcquire_false_ok hpl
        have hempty : getLed s.pLeds th.pid = [] := by
          cases hld : getLed s.pLeds th.pid with
          | nil => rfl
          | cons e0 led2 =>
              exfalso
              have hmemled : (th.pid, getLed s.pLeds th.pid) ∈ s.pLeds :=
                mem_of_getLed_ne_nil (by rw [hld]; simp)
              have he0 : e0 ∈ getLed s.pLeds th.pid := by
                rw [hld]
                exact List.mem_cons_self e0 led2
              have hex := (hInv.strays _ hmemled e0 he0).1
              unfold canAcquire at hcan
              rw [List.all_eq_true] at hcan
              have hall := hcan e0 he0
              rw [hex] at hall
              simp [headCompat, Mode.compat] at hall
        have hpleq2 : pl = [(th.tid, [Mode.exclusive])] := by
          rw [hpleq, hempty]
          rfl
        have hpmode : procMode pl = some Mode.exclusive := by
          rw [hpleq2]
          rfl
        have hker : kernelStepOk s th.pid (procMode pl) = true := by
          rcases hg with hg | hg
          · exfalso
            rw [hpmode, hempty] at hg
            simp [procMode] at hg
          · exact hg
        have hnohold : ∀ e ∈ s.pLeds, e.2 = [] := by
          intro e he
          by_cases hep : e.1 = th.pid
          · cases hld : alookup th.pid s.pLeds with
            | none => exact absurd hep (alookup_eq_none_not_mem hld he)
            | some led2 =>
                have hl2 : led2 = [] := by
                  have h2 := hempty
                  unfold getLed at h2
                  rw [hld] at h2
                  exact h2
                have he2 := eq_of_mem_keys_nodup hInv.keys he (alookup_mem hld) hep
                rw [he2]
                exact hl2
          · unfold kernelStepOk at hker
            rw [List.all_eq_true] at hker
            have hall := hker e he
            cases hpm : procMode e.2 with
            | none => exact procMode_eq_none hpm
            | some m1 =>
                exfalso
                simp only [hpmode, hpm] at hall
                rw [Bool.or_eq_true] at hall
                rcases hall with hall | hall
                · exact hep (beq_iff_eq.mp hall)
                · cases m1 <;> simp [Mode.compat] at hall
        rw [hpleq2]
        refine ⟨hstat1 _, ?_, ?_, ?_, keys_nodup_aset hInv.keys, ?_, ?_⟩
        · intro j th2 hj
          by_cases hji : j = i
          · rw [hji, get?_set_self _ hth] at hj
            injection hj with hj
            subst hj
            show alookup th.tid (getLed (aset th.pid [(th.tid, [Mode.exclusive])]
                s.pLeds) th.pid)
              = if 2 ≤ th.pc + 1 ∧ th.pc + 1 ≤ 4 then some [Mode.exclusive] else none
            rw [getLed_aset_self, alookup_cons, if_pos rfl, hpc]
            rfl
          · rw [get?_set_ne (fun hh => hji hh.symm) _] at hj
            have hold := hInv.sync j th2 hj
            by_cases hp2 : th2.pid = th.pid
            · have ht2 : th2.tid ≠ th.tid := by
                intro hh
                have hne := nodup_map_get_ne hnd hj hth hji
                exact hne (by
                  show (th2.pid, th2.tid) = (th.pid, th.tid)
                  rw [hp2, hh])
              have hld2 : getLed s.pLeds th2.pid = [] := by
                cases hl2 : alookup th2.pid s.pLeds with
                | none =>
                    unfold getLed
                    rw [hl2]
                    rfl
                | some led2 =>
                    have h2 := hnohold _ (alookup_mem hl2)
                    unfold getLed
                    rw [hl2]
                    exact h2
              rw [hld2] at hold
              rw [hp2, getLed_aset_self, alookup_cons,
                if_neg (fun hh : th.tid = th2.tid => ht2 hh.symm)]
              exact hold
            · rw [getLed_aset_ne hp2]
              exact hold
        · intro e he en hen
          rcases mem_aset_keys hInv.keys he with rfl | ⟨heold, hene⟩
          · have hen2 : en = (th.tid, [Mode.exclusive]) := by
              rcases List.mem_cons.mp hen with rfl | h2
              · rfl
              · cases h2
            rw [hen2]
            refine ⟨rfl, i, _, get?_set_self _ hth, rfl, rfl, ?_, ?_⟩
            · show 2 ≤ th.pc + 1
              omega
            · show th.pc + 1 ≤ 4
              omega
          · rw [hnohold e heold] at hen
            cases hen
        · intro e1 he1 en1 hen1 e2 he2 en2 hen2
          rcases mem_aset_keys hInv.keys he1 with rfl | ⟨he1o, he1n⟩
          · rcases mem_aset_keys hInv.keys he2 with rfl | ⟨he2o, he2n⟩
            · have hen1e : en1 = (th.tid, [Mode.exclusive]) := by
                rcases List.mem_cons.mp hen1 with rfl | h2
                · rfl
                · cases h2
              have hen2e : en2 = (th.tid, [Mode.exclusive]) := by
                rcases List.mem_cons.mp hen2 with rfl | h2
                · rfl
                · cases h2
              rw [hen1e, hen2e]
              exact ⟨rfl, rfl⟩
            · rw [hnohold e2 he2o] at hen2
              cases hen2
          · rw [hnohold e1 he1o] at hen1
            cases hen1
        · show s.file.Perm ((s.threads.set i _).filterMap _)
          rw [@filterMap_set_eq Th Nat s.threads i th ({ th with pc := th.pc + 1 })
            (fun th2 => if 4 ≤ th2.pc then some th2.idv else none) hth
            (by show (if 4 ≤ th.pc + 1 then some th.idv else none)
                  = (if 4 ≤ th.pc then some th.idv else none)
                rw [hpc]
                simp)]
          exact hInv.fileP
        · intro j th2 hj hpc3
          by_cases hji : j = i
          · rw [hji, get?_set_self _ hth] at hj
            injection hj with hj
            subst hj
            rw [show ({ th with pc := th.pc + 1 } : Th).pc = th.pc + 1 from rfl,
              hpc] at hpc3
            cases hpc3
          · rw [get?_set_ne (fun hh => hji hh.symm) _] at hj
            exact hInv.regInv j th2 hj hpc3
      next hg => cases h
    next e hpl => cases h
  · -- load: pc 2 → 3, register := file
    simp only [stepInstr] at h
    injection h with h
    subst h
    refine ⟨hstat2 _ _, ?_, ?_, hInv.uniq, hInv.keys, ?_, ?_⟩
    · intro j th2 hj
      by_cases hji : j = i
      · rw [hji, get?_set_self _ hth] at hj
        injection hj with hj
        subst hj
        show alookup th.tid (getLed s.pLeds th.pid)
          = if 2 ≤ th.pc + 1 ∧ th.pc + 1 ≤ 4 then some [Mode.exclusive] else none
        rw [hInv.sync i th hth, hpc]
        rfl
      · rw [get?_set_ne (fun hh => hji hh.symm) _] at hj
        exact hInv.sync j th2 hj
    · intro e he en hen
      obtain ⟨hex, j2, th2, hj2, hpe, hte, hlo, hhi⟩ := hInv.strays e he en hen
      by_cases hj2i : j2 = i
      · rw [hj2i, hth] at hj2
        injection hj2 with hj2
        subst hj2
        refine ⟨hex, i, _, get?_set_self _ hth, hpe, hte, ?_, ?_⟩
        · show 2 ≤ th.pc + 1
          omega
        · show th.pc + 1 ≤ 4
          omega
      · refine ⟨hex, j2, th2, ?_, hpe, hte, hlo, hhi⟩
        rw [get?_set_ne (fun hh => hj2i hh.symm) _]
        exact hj2
    · show s.file.Perm ((s.threads.set i _).filterMap _)
      rw [@filterMap_set_eq Th Nat s.threads i th
        ({ th with pc := th.pc + 1, reg := s.file })
        (fun th2 => if 4 ≤ th2.pc then some th2.idv else none) hth
        (by show (if 4 ≤ th.pc + 1 then some th.idv else none)
              = (if 4 ≤ th.pc then some th.idv else none)
            rw [hpc]
            simp)]
      exact hInv.fileP
    · intro j th2 hj hpc3
      by_cases hji : j = i
      · rw [hji, get?_set_self _ hth] at hj
        injection hj with hj
        subst hj
        rfl
      · rw [get?_set_ne (fun hh => hji hh.symm) _] at hj
        exact hInv.regInv j th2 hj hpc3
  · -- store: pc 3 → 4, file := reg ++ [idv]
    simp only [stepInstr] at h
    injection h with h
    subst h
    have hreg : th.reg = s.file := hInv.regInv i th hth hpc
    refine ⟨hstat1 _, ?_, ?_, hInv.uniq, hInv.keys, ?_, ?_⟩
    · intro j th2 hj
      by_cases hji : j = i
      · rw [hji, get?_set_self _ hth] at hj
        injection hj with hj
        subst hj
        show alookup th.tid (getLed s.pLeds th.pid)
          = if 2 ≤ th.pc + 1 ∧ th.pc + 1 ≤ 4 then some [Mode.exclusive] else none
        rw [hInv.sync i th hth, hpc]
        rfl
      · rw [get?_set_ne (fun hh => hji hh.symm) _] at hj
        exact hInv.sync j th2 hj
    · intro e he en hen
      obtain ⟨hex, j2, th2, hj2, hpe, hte, hlo, hhi⟩ := hInv.strays e he en hen
      by_cases hj2i : j2 = i
      · rw [hj2i, hth] at hj2
        injection hj2 with hj2
        subst hj2
        refine ⟨hex, i, _, get?_set_self _ hth, hpe, hte, ?_, ?_⟩
        · show 2 ≤ th.pc + 1
          omega
        · show th.pc + 1 ≤ 4
          omega
      · refine ⟨hex, j2, th2, ?_, hpe, hte, hlo, hhi⟩
        rw [get?_set_ne (fun hh => hj2i hh.symm) _]
        exact hj2
    · show (th.reg ++ [th.idv]).Perm ((s.threads.set i _).filterMap _)
      have hwp := @filterMap_set_perm Th Nat s.threads i th
        ({ th with pc := th.pc + 1 })
        (fun th2 => if 4 ≤ th2.pc then some th2.idv else none) th.idv hth
        (by show (if 4 ≤ th.pc then some th.idv else none) = none
            rw [hpc]
            simp)
        (by show (if 4 ≤ th.pc + 1 then some th.idv else none) = some th.idv
            rw [hpc]
            simp)
      refine List.Perm.trans ?_ hwp.symm
      rw [hreg]
      refine List.Perm.trans (List.perm_append_singleton th.idv s.file) ?_
      exact List.Perm.cons th.idv hInv.fileP
    · intro j th2 hj hpc3
      by_cases hji : j = i
      · rw [hji, get?_set_self _ hth] at hj
        injection hj with hj
        subst hj
        rw [show ({ th with pc := th.pc + 1 } : Th).pc = th.pc + 1 from rfl,
          hpc] at hpc3
        cases hpc3
      · rw [get?_set_ne (fun hh => hji hh.symm) _] at hj
        exfalso
        exact rmw_mutex hdist hInv i j th th2 hth hj (fun hh => hji hh.symm)
          ⟨by omega, by omega⟩ ⟨by omega, by omega⟩
  · -- pRel: pc 4 → 5, release the process-level lock
    simp only [stepInstr] at h
    split at h
    next st hst =>
      injection h with h
      subst h
      have hsynci := hInv.sync i th hth
      rw [if_pos (show 2 ≤ th.pc ∧ th.pc ≤ 4 by omega)] at hsynci
      have hrel : rwRelease (getLed s.pLeds th.pid) th.tid
          = aremove th.tid (getLed s.pLeds th.pid) := by
        unfold rwRelease
        rw [hsynci]
      have hledne : getLed s.pLeds th.pid ≠ [] := alookup_ne_nil hsynci
      have hmemled := mem_of_getLed_ne_nil hledne
      rw [hrel]
      refine ⟨hstat1 _, ?_, ?_, ?_, keys_nodup_aset hInv.keys, ?_, ?_⟩
      · intro j th2 hj
        by_cases hji : j = i
        · rw [hji, get?_set_self _ hth] at hj
          injection hj with hj
          subst hj
          show alookup th.tid (getLed (aset th.pid
              (aremove th.tid (getLed s.pLeds th.pid)) s.pLeds) th.pid)
            = if 2 ≤ th.pc + 1 ∧ th.pc + 1 ≤ 4 then some [Mode.exclusive] else none
          rw [getLed_aset_self, alookup_aremove_self, hpc]
          rfl
        · rw [get?_set_ne (fun hh => hji hh.symm) _] at hj
          have hold := hInv.sync j th2 hj
          by_cases hp2 : th2.pid = th.pid
          · have ht2 : th2.tid ≠ th.tid := by
              intro hh
              have hne := nodup_map_get_ne hnd hj hth hji
              exact hne (by
                show (th2.pid, th2.tid) = (th.pid, th.tid)
                rw [hp2, hh])
            rw [hp2, getLed_aset_self, alookup_aremove_ne ht2]
            rw [hp2] at hold
            exact hold
          · rw [getLed_aset_ne hp2]
            exact hold
      · intro e he en hen
        rcases mem_aset_keys hInv.keys he with rfl | ⟨heold, hene⟩
        · obtain ⟨heno, hent⟩ := mem_aremove hen
          obtain ⟨hex, j2, th2, hj2, hpe, hte, hlo, hhi⟩ :=
            hInv.strays _ hmemled en heno
          have hj2i : j2 ≠ i := by
            intro hh
            rw [hh, hth] at hj2
            injection hj2 with hj2
            rw [← hj2] at hte
            exact hent hte.symm
          refine ⟨hex, j2, th2, ?_, hpe, hte, hlo, hhi⟩
          rw [get?_set_ne (fun hh => hj2i hh.symm) _]
          exact hj2
        · obtain ⟨hex, j2, th2, hj2, hpe, hte, hlo, hhi⟩ :=
            hInv.strays e heold en hen
          have hj2i : j2 ≠ i := by
            intro hh
            rw [hh, hth] at hj2
            injection hj2 with hj2
            rw [← hj2] at hpe
            exact hene hpe.symm
          refine ⟨hex, j2, th2, ?_, hpe, hte, hlo, hhi⟩
          rw [get?_set_ne (fun hh => hj2i hh.symm) _]
          exact hj2
      · intro e1 he1 en1 hen1 e2 he2 en2 hen2
        rcases mem_aset_keys hInv.keys he1 with rfl | ⟨he1o, he1n⟩
        · obtain ⟨hen1o, _⟩ := mem_aremove hen1
          rcases mem_aset_keys hInv.keys he2 with rfl | ⟨he2o, he2n⟩
          · obtain ⟨hen2o, _⟩ := mem_aremove hen2
            exact ⟨rfl, (hInv.uniq _ hmemled en1 hen1o _ hmemled en2 hen2o).2⟩
          · exact hInv.uniq _ hmemled en1 hen1o e2 he2o en2 hen2
        · rcases mem_aset_keys hInv.keys he2 with rfl | ⟨he2o, he2n⟩
          · obtain ⟨hen2o, _⟩ := mem_aremove hen2
            exact hInv.uniq e1 he1o en1 hen1 _ hmemled en2 hen2o
          · exact hInv.uniq e1 he1o en1 hen1 e2 he2o en2 hen2
      · show s.file.Perm ((s.threads.set i _).filterMap _)
        rw [@filterMap_set_eq Th Nat s.threads i th ({ th with pc := th.pc + 1 })
          (fun th2 => if 4 ≤ th2.pc then some th2.idv else none) hth
          (by show (if 4 ≤ th.pc + 1 then some th.idv else none)
                = (if 4 ≤ th.pc then some th.idv else none)
              rw [hpc]
              simp)]
        exact hInv.fileP
      · intro j th2 hj hpc3
        by_cases hji : j = i
        · rw [hji, get?_set_self _ hth] at hj
          injection hj with hj
          subst hj
          rw [show ({ th with pc := th.pc + 1 } : Th).pc = th.pc + 1 from rfl,
            hpc] at hpc3
          cases hpc3
        · rw [get?_set_ne (fun hh => hji hh.symm) _] at hj
          exact hInv.regInv j th2 hj hpc3
    next hst => cases h
  · -- tRel: pc 5 → 6
    simp only [stepInstr] at h
    split at h
    next st hst =>
      injection h with h
      subst h
      refine ⟨hstat1 _, ?_, ?_, hInv.uniq, hInv.keys, ?_, ?_⟩
      · intro j th2 hj
        by_cases hji : j = i
        · rw [hji, get?_set_self _ hth] at hj
          injection hj with hj
          subst hj
          show alookup th.tid (getLed s.pLeds th.pid)
            = if 2 ≤ th.pc + 1 ∧ th.pc + 1 ≤ 4 then some [Mode.exclusive] else none
          rw [hInv.sync i th hth, hpc]
          rfl
        · rw [get?_set_ne (fun hh => hji hh.symm) _] at hj
          exact hInv.sync j th2 hj
      · intro e he en hen
        obtain ⟨hex, j2, th2, hj2, hpe, hte, hlo, hhi⟩ := hInv.strays e he en hen
        refine ⟨hex, j2, th2, ?_, hpe, hte, hlo, hhi⟩
        have hj2i : j2 ≠ i := by
          intro hh
          rw [hh, hth] at hj2
          injection hj2 with hj2
          rw [← hj2, hpc] at hhi
          omega
        rw [get?_set_ne (fun hh => hj2i hh.symm) _]
        exact hj2
      · show s.file.Perm ((s.threads.set i _).filterMap _)
        rw [@filterMap_set_eq Th Nat s.threads i th ({ th with pc := th.pc + 1 })
          (fun th2 => if 4 ≤ th2.pc then some th2.idv else none) hth
          (by show (if 4 ≤ th.pc + 1 then some th.idv else none)
                = (if 4 ≤ th.pc then some th.idv else none)
              rw [hpc]
              simp)]
        exact hInv.fileP
      · intro j th2 hj hpc3
        by_cases hji : j = i
        · rw [hji, get?_set_self _ hth] at hj
          injection hj with hj
          subst hj
          rw [show ({ th with pc := th.pc + 1 } : Th).pc = th.pc + 1 from rfl, hpc] at hpc3
          cases hpc3
        · rw [get?_set_ne (fun hh => hji hh.symm) _] at hj
          exact hInv.regInv j th2 hj hpc3
    next hst => cases h

theorem rmwInv_run {specs : List (Nat × Nat × Nat)} {s s' : TSys}
    (hdist : (specs.map (fun x => (x.1, x.2.1))).Nodup)
    (hInv : RmwInv specs s) {acts : List Nat} (h : run s acts = some s') :
    RmwInv specs s' := by
  induction acts generalizing s with
  | nil =>
      simp only [run] at h
      injection h with h
      rw [← h]
      exact hInv
  | cons i acts ih =>
      simp only [run] at h
      cases hs : step s i with
      | none => rw [hs] at h; cases h
      | some s2 =>
          rw [hs] at h
          exact ih (rmwInv_step hdist hInv hs) h

theorem filterMap_high_pc {l : List Th} (h : ∀ th ∈ l, 4 ≤ th.pc) :
    l.filterMap (fun th => if 4 ≤ th.pc then some th.idv else none)
      = l.map (fun th => th.idv) := by
  induction l with
  | nil => rfl
  | cons x l ih =>
      have hx : (if 4 ≤ x.pc then some x.idv else none) = some x.idv :=
        if_pos (h x (List.mem_cons_self x l))
      simp only [List.filterMap_cons, hx, List.map_cons]
      rw [ih (fun th hth => h th (List.mem_cons_of_mem x hth))]

/-- The read-modify-write scenario of the claim, at any scale: thread
identities given by `specs`. -/
def c1Specs : List (Nat × Nat × Nat) := [(0, 0, 10), (0, 1, 11), (1, 0, 12)]

/-- A schedule that runs the three witness threads to completion one after
the other. -/
def c1Acts : List Nat :=
  [0, 0, 0, 0, 0, 0, 1, 1, 1, 1, 1, 1, 2, 2, 2, 2, 2, 2]

/-- The state the witness schedule reaches. -/
def c1Final : TSys := (run (initRMW c1Specs) c1Acts).getD (initRMW c1Specs)

/-- **C1.**  Exclusive critical sections under `path_lock` never overlap:
in every state reachable from the initial read-modify-write system (threads
of possibly several processes, each acquiring the path exclusively, reading
the shared file, appending its own id and writing it back), no two distinct
threads are inside their critical sections at once; and whenever a run
completes, the file holds a permutation of all the ids. -/
theorem C1_exclusive_mutual_exclusion
    (specs : List (Nat × Nat × Nat)) (acts : List Nat) (s' : TSys)
    (hdist : (specs.map (fun x => (x.1, x.2.1))).Nodup)
    (hrun : run (initRMW specs) acts = some s') :
    (∀ i j thi thj, s'.threads.get? i = some thi →
        s'.threads.get? j = some thj → i ≠ j → inCS thi → inCS thj → False)
    ∧ (allDone s' = true → s'.file.Perm (specs.map (fun x => x.2.2))) := by
  have hInv := rmwInv_run hdist (rmwInv_init specs) hrun
  refine ⟨rmw_mutex hdist hInv, ?_⟩
  intro hdone
  have hall : ∀ th ∈ s'.threads, 4 ≤ th.pc := by
    intro th hmem
    have hprog : th.prog = rmwProg := by
      have hm2 : (th.pid, th.tid, th.idv, th.prog) ∈
          specs.map (fun x => (x.1, x.2.1, x.2.2, rmwProg)) := by
        rw [← hInv.stat]
        exact List.mem_map_of_mem _ hmem
      rw [List.mem_map] at hm2
      obtain ⟨x, hx, he⟩ := hm2
      exact (congrArg (fun z : Nat × Nat × Nat × List Instr => z.2.2.2) he).symm
    unfold allDone at hdone
    rw [List.all_eq_true] at hdone
    have hle := of_decide_eq_true (hdone th hmem)
    rw [hprog, show rmwProg.length = 6 from rfl] at hle
    omega
  have hidv : s'.threads.map (fun th => th.idv) = specs.map (fun x => x.2.2) := by
    have h2 := congrArg
      (List.map (fun z : Nat × Nat × Nat × List Instr => z.2.2.1)) hInv.stat
    rw [List.map_map, List.map_map] at h2
    exact h2
  rw [← hidv, ← filterMap_high_pc hall]
  exact hInv.fileP

theorem C1_exclusive_mutual_exclusion_witness :
    (c1Specs.map (fun x => (x.1, x.2.1))).Nodup
    ∧ run (initRMW c1Specs) c1Acts = some c1Final
    ∧ allDone c1Final = true
    ∧ c1Final.file.Perm (c1Specs.map (fun x => x.2.2)) := by
  refine ⟨by decide, by rfl, by rfl, ?_⟩
  exact (C1_exclusive_mutual_exclusion c1Specs c1Acts c1Final
    (by decide) (by rfl)).2 (by rfl)

/-- Modelled from the spec (§8.6): process B's thread, which takes the lock
shared, then lets every thread of process A start (`is_locked`, barrier 0),
and releases only after every shared thread of process A is inside its
critical section (`is_done`, barrier 1). -/
def c9ProgB : List Instr :=
  [Instr.tAcq Mode.shared, Instr.pAcq Mode.shared, Instr.barrier 0,
   Instr.barrier 1, Instr.pRel, Instr.tRel]

/-- Modelled from the spec (§8.6): a shared thread of process A; it waits
for `is_locked`, acquires shared, reports through `is_done`, then
releases. -/
def c9ProgShared : List Instr :=
  [Instr.barrier 0, Instr.tAcq Mode.shared, Instr.pAcq Mode.shared,
   Instr.barrier 1, Instr.pRel, Instr.tRel]

/-- Modelled from the spec (§8.6): an exclusive thread of process A; it
waits for `is_locked`, acquires exclusive (thread level first, then
process level, the spec's fixed order), then releases. -/
def c9ProgExclusive : List Instr :=
  [Instr.barrier 0, Instr.tAcq Mode.exclusive, Instr.pAcq Mode.exclusive,
   Instr.pRel, Instr.tRel]

/-- The §8.6 scenario at size `n_shared = n_exclusive = 1`: process B is
pid 0, process A is pid 1 with one shared and one exclusive thread. -/
def c9Init : TSys :=
  ⟨[⟨0, 0, 0, c9ProgB, 0, []⟩, ⟨1, 0, 1, c9ProgShared, 0, []⟩,
    ⟨1, 1, 2, c9ProgExclusive, 0, []⟩], [], [], [], [], []⟩

/-- The schedule in which process A's exclusive thread wins the race for
the thread-level lock before A's shared thread gets it. -/
def c9BadSched : List Nat := [0, 0, 0, 1, 2, 2]

/-- The state the losing schedule reaches. -/
def c9Stuck : TSys := (run c9Init c9BadSched).getD c9Init

/-- **C9, counterexample.**  In the spec's own fixed acquisition order the
§8.6 scenario can deadlock: after B holds shared and A's exclusive thread
takes the thread-level lock first, the run reaches a state in which no
thread can take a step — A's exclusive thread is blocked at the kernel by
B's shared file lock, A's shared thread is blocked at the thread level by
A's exclusive thread, and B is waiting at `is_done` for A's shared thread
— while the programs are not finished.  "No deadlock occurs" therefore
fails for this interleaving. -/
theorem C9_counterexample_fixed_order_deadlock :
    run c9Init c9BadSched = some c9Stuck
    ∧ (∀ i, step c9Stuck i = none)
    ∧ allDone c9Stuck = false := by
  refine ⟨rfl, ?_, rfl⟩
  intro i
  match i with
  | 0 => rfl
  | 1 => rfl
  | 2 => rfl
  | (n + 3) => rfl

/-- The §8.6 scenario at the test's size `(n_shared, n_exclusive)`:
process B is pid 0; process A is pid 1 with `ns` shared threads
(tids `0..ns-1`) and `ne` exclusive threads (tids `ns..ns+ne-1`). -/
def c9InitN (ns ne : Nat) : TSys :=
  ⟨⟨0, 0, 0, c9ProgB, 0, []⟩ ::
    ((List.range ns).map (fun i => ⟨1, i, 1 + i, c9ProgShared, 0, []⟩)
      ++ (List.range ne).map
        (fun k => ⟨1, ns + k, 1 + ns + k, c9ProgExclusive, 0, []⟩)),
   [], [], [], [], []⟩

/-- A schedule in which A's first exclusive thread wins the race for the
thread-level lock before any of A's shared threads gets it. -/
def c9BadSchedN (ns ne : Nat) : List Nat :=
  [0, 0, 0, 1 + ns, 1 + ns]
    ++ (List.range ns).map (fun i => 1 + i)
    ++ (List.range (ne - 1)).map (fun k => 1 + ns + (k + 1))

/-- A schedule in which every shared thread of A completes its
acquisition before any exclusive thread takes the thread-level lock. -/
def c9GoodSchedN (ns ne : Nat) : List Nat :=
  [0, 0, 0]
    ++ (List.range ns).bind (fun i => [1 + i, 1 + i, 1 + i])
    ++ (List.range ne).map (fun k => 1 + ns + k)
    ++ [0]
    ++ (List.range ns).map (fun i => 1 + i)
    ++ [0, 0]
    ++ (List.range ns).bind (fun i => [1 + i, 1 + i])
    ++ (List.range ne).bind
      (fun k => [1 + ns + k, 1 + ns + k, 1 + ns + k, 1 + ns + k])

/-- The state the losing schedule reaches at size `(ns, ne)`. -/
def c9StuckN (ns ne : Nat) : TSys :=
  (run (c9InitN ns ne) (c9BadSchedN ns ne)).getD (c9InitN ns ne)

/-- The state the completing schedule reaches at size `(ns, ne)`. -/
def c9DoneN (ns ne : Nat) : TSys :=
  (run (c9InitN ns ne) (c9GoodSchedN ns ne)).getD (c9InitN ns ne)

/-- **C9, amended.**  At every size of the §8.6 scenario that the test
exercises (`n_shared` and `n_exclusive` each 1 or 5), deadlock-freedom
fails — there is an interleaving, the one in which an exclusive thread of
process A wins the race for the thread-level lock, that reaches a state
where no thread can take a step while the programs are unfinished — and
there is also an interleaving, the shared-threads-first one the test's
`is_done` barrier forces, under which every acquisition succeeds and
every thread runs to completion. -/
theorem C9_scenario_completes_when_shared_acquires_first :
    ∀ ns ne : Nat, (ns = 1 ∨ ns = 5) → (ne = 1 ∨ ne = 5) →
      (∃ acts s', run (c9InitN ns ne) acts = some s'
        ∧ (∀ i, step s' i = none) ∧ allDone s' = false)
      ∧ (∃ acts s', run (c9InitN ns ne) acts = some s'
        ∧ allDone s' = true) := by
  intro ns ne hns hne
  rcases hns with rfl | rfl <;> rcases hne with rfl | rfl
  · refine ⟨⟨c9BadSchedN 1 1, c9StuckN 1 1, rfl, ?_, rfl⟩,
      ⟨c9GoodSchedN 1 1, c9DoneN 1 1, rfl, rfl⟩⟩
    intro i
    match i with
    | 0 => rfl
    | 1 => rfl
    | 2 => rfl
    | (n + 3) => rfl
  · refine ⟨⟨c9BadSchedN 1 5, c9StuckN 1 5, rfl, ?_, rfl⟩,
      ⟨c9GoodSchedN 1 5, c9DoneN 1 5, rfl, rfl⟩⟩
    intro i
    match i with
    | 0 => rfl
    | 1 => rfl
    | 2 => rfl
    | 3 => rfl
    | 4 => rfl
    | 5 => rfl
    | 6 => rfl
    | (n + 7) => rfl
  · refine ⟨⟨c9BadSchedN 5 1, c9StuckN 5 1, rfl, ?_, rfl⟩,
      ⟨c9GoodSchedN 5 1, c9DoneN 5 1, rfl, rfl⟩⟩
    intro i
    match i with
    | 0 => rfl
    | 1 => rfl
    | 2 => rfl
    | 3 => rfl
    | 4 => rfl
    | 5 => rfl
    | 6 => rfl
    | (n + 7) => rfl
  · refine ⟨⟨c9BadSchedN 5 5, c9StuckN 5 5, rfl, ?_, rfl⟩,
      ⟨c9GoodSchedN 5 5, c9DoneN 5 5, rfl, rfl⟩⟩
    intro i
    match i with
    | 0 => rfl
    | 1 => rfl
    | 2 => rfl
    | 3 => rfl
    | 4 => rfl
    | 5 => rfl
    | 6 => rfl
    | 7 => rfl
    | 8 => rfl
    | 9 => rfl
    | 10 => rfl
    | (n + 11) => rfl

theorem C9_scenario_completes_witness :
    ((5 : Nat) = 1 ∨ (5 : Nat) = 5)
    ∧ ((∃ acts s', run (c9InitN 5 5) acts = some s'
        ∧ (∀ i, step s' i = none) ∧ allDone s' = false)
      ∧ (∃ acts s', run (c9InitN 5 5) acts = some s'
        ∧ allDone s' = true)) :=
  ⟨Or.inr rfl, C9_scenario_completes_when_shared_acquires_first 5 5
    (Or.inr rfl) (Or.inr rfl)⟩

theorem alookup_rwRelease_ne {led : Ledger} {t k : Nat} (h : k ≠ t) :
    alookup k (rwRelease led t) = alookup k led := by
  unfold rwRelease
  cases hl : alookup t led with
  | none => rfl
  | some st =>
      cases st with
      | nil => exact alookup_aremove_ne h led
      | cons m st2 =>
          cases st2 with
          | nil => exact alookup_aremove_ne h led
          | cons m2 st3 => exact alookup_aset_ne (fun hh => h hh.symm) _ led

/-- Modelled from the spec (§8.1): a shared worker of the
many-shared-one-exclusive scenario: acquire shared (thread level then
process level), rendezvous with every other worker (`are_locked`,
barrier 0), enqueue its id, release. -/
def c6ShProg : List Instr :=
  [Instr.tAcq Mode.shared, Instr.pAcq Mode.shared, Instr.barrier 0,
   Instr.put, Instr.pRel, Instr.tRel]

/-- Modelled from the spec (§8.1): the exclusive worker: it requests the
lock only after every shared worker holds (`are_locked`, barrier 0), then
enqueues its id 0 and releases. -/
def c6ExProg : List Instr :=
  [Instr.barrier 0, Instr.tAcq Mode.exclusive, Instr.pAcq Mode.exclusive,
   Instr.put, Instr.pRel, Instr.tRel]

/-- The §8.1 scenario: one exclusive worker (id 0) and `n` shared workers
(ids 1..n), all threads of one process. -/
def initC6 (n : Nat) : TSys :=
  ⟨⟨0, 0, 0, c6ExProg, 0, []⟩ ::
    (List.range n).map (fun i => ⟨0, i + 1, i + 1, c6ShProg, 0, []⟩),
   [], [], [], [], []⟩

theorem c6ExProg_get {pc : Nat} {ins : Instr} (h : c6ExProg.get? pc = some ins) :
    (pc = 0 ∧ ins = Instr.barrier 0) ∨
    (pc = 1 ∧ ins = Instr.tAcq Mode.exclusive) ∨
    (pc = 2 ∧ ins = Instr.pAcq Mode.exclusive) ∨
    (pc = 3 ∧ ins = Instr.put) ∨
    (pc = 4 ∧ ins = Instr.pRel) ∨
    (pc = 5 ∧ ins = Instr.tRel) := by
  match pc with
  | 0 => injection h with h; exact Or.inl ⟨rfl, h.symm⟩
  | 1 => injection h with h; exact Or.inr (Or.inl ⟨rfl, h.symm⟩)
  | 2 => injection h with h; exact Or.inr (Or.inr (Or.inl ⟨rfl, h.symm⟩))
  | 3 => injection h with h; exact Or.inr (Or.inr (Or.inr (Or.inl ⟨rfl, h.symm⟩)))
  | 4 =>
      injection h with h
      exact Or.inr (Or.inr (Or.inr (Or.inr (Or.inl ⟨rfl, h.symm⟩))))
  | 5 =>
      injection h with h
      exact Or.inr (Or.inr (Or.inr (Or.inr (Or.inr ⟨rfl, h.symm⟩))))
  | n + 6 => cases h

theorem c6ShProg_get {pc : Nat} {ins : Instr} (h : c6ShProg.get? pc = some ins) :
    (pc = 0 ∧ ins = Instr.tAcq Mode.shared) ∨
    (pc = 1 ∧ ins = Instr.pAcq Mode.shared) ∨
    (pc = 2 ∧ ins = Instr.barrier 0) ∨
    (pc = 3 ∧ ins = Instr.put) ∨
    (pc = 4 ∧ ins = Instr.pRel) ∨
    (pc = 5 ∧ ins = Instr.tRel) := by
  match pc with
  | 0 => injection h with h; exact Or.inl ⟨rfl, h.symm⟩
  | 1 => injection h with h; exact Or.inr (Or.inl ⟨rfl, h.symm⟩)
  | 2 => injection h with h; exact Or.inr (Or.inr (Or.inl ⟨rfl, h.symm⟩))
  | 3 => injection h with h; exact Or.inr (Or.inr (Or.inr (Or.inl ⟨rfl, h.symm⟩)))
  | 4 =>
      injection h with h
      exact Or.inr (Or.inr (Or.inr (Or.inr (Or.inl ⟨rfl, h.symm⟩))))
  | 5 =>
      injection h with h
      exact Or.inr (Or.inr (Or.inr (Or.inr (Or.inr ⟨rfl, h.symm⟩))))
  | n + 6 => cases h

theorem c6Sh_arrived {th : Th} (hprog : th.prog = c6ShProg)
    (h : atOrPastBarrier th 0 = true) : 2 ≤ th.pc := by
  by_cases h2 : 2 ≤ th.pc
  · exact h2
  · exfalso
    unfold atOrPastBarrier at h
    rw [hprog] at h
    have h0 : th.pc = 0 ∨ th.pc = 1 := by omega
    rcases h0 with h0 | h0 <;> rw [h0] at h <;> exact absurd h (by decide)

theorem c6_ready_sh {s : TSys} (hr : barrierReady s 0 = true)
    {j : Nat} {th : Th} (hj : s.threads.get? (j + 1) = some th)
    (hprog : th.prog = c6ShProg) : 2 ≤ th.pc := by
  unfold barrierReady at hr
  rw [List.all_eq_true] at hr
  have h2 := hr th (List.get?_mem hj)
  rw [Bool.or_eq_true] at h2
  rcases h2 with h2 | h2
  · exfalso
    unfold hasBarrier at h2
    rw [hprog] at h2
    exact absurd h2 (by decide)
  · exact c6Sh_arrived hprog h2

/-- Inductive invariant of the many-shared-one-exclusive scenario.  The
exclusive worker sits at thread position 0, the shared workers at
positions `j + 1`. -/
structure C6Inv (n : Nat) (s : TSys) : Prop where
  stat : s.threads.map (fun th => (th.pid, th.tid, th.idv, th.prog))
    = (0, 0, 0, c6ExProg)
      :: (List.range n).map (fun i => (0, i + 1, i + 1, c6ShProg))
  shSync : ∀ j th, s.threads.get? (j + 1) = some th →
    alookup th.tid (getLed s.pLeds 0)
      = if 2 ≤ th.pc ∧ th.pc ≤ 4 then some [Mode.shared] else none
  barA : ∀ th, s.threads.get? 0 = some th → 1 ≤ th.pc →
    ∀ j th2, s.threads.get? (j + 1) = some th2 → 2 ≤ th2.pc
  barS : ∀ j th, s.threads.get? (j + 1) = some th → 3 ≤ th.pc →
    ∀ j2 th2, s.threads.get? (j2 + 1) = some th2 → 2 ≤ th2.pc
  excl : ∀ th, s.threads.get? 0 = some th → 3 ≤ th.pc →
    ∀ j th2, s.threads.get? (j + 1) = some th2 → 5 ≤ th2.pc
  resP : s.results.Perm (s.threads.filterMap
    (fun th => if 4 ≤ th.pc then some th.idv else none))
  lastZ : ∀ th, s.threads.get? 0 = some th → 4 ≤ th.pc →
    s.results.getLast? = some 0

theorem c6_stat_ex {n : Nat} {s : TSys}
    (hstat : s.threads.map (fun th => (th.pid, th.tid, th.idv, th.prog))
      = (0, 0, 0, c6ExProg)
        :: (List.range n).map (fun i => (0, i + 1, i + 1, c6ShProg)))
    {th : Th} (h : s.threads.get? 0 = some th) :
    th.pid = 0 ∧ th.tid = 0 ∧ th.idv = 0 ∧ th.prog = c6ExProg := by
  have h2 := congrArg (fun l => l.get? 0) hstat
  simp only [List.get?_map, h, List.get?] at h2
  injection h2 with h2
  exact ⟨congrArg (fun z : Nat × Nat × Nat × List Instr => z.1) h2,
    congrArg (fun z : Nat × Nat × Nat × List Instr => z.2.1) h2,
    congrArg (fun z : Nat × Nat × Nat × List Instr => z.2.2.1) h2,
    congrArg (fun z : Nat × Nat × Nat × List Instr => z.2.2.2) h2⟩

theorem c6_stat_sh {n : Nat} {s : TSys}
    (hstat : s.threads.map (fun th => (th.pid, th.tid, th.idv, th.prog))
      = (0, 0, 0, c6ExProg)
        :: (List.range n).map (fun i => (0, i + 1, i + 1, c6ShProg)))
    {j : Nat} {th : Th} (h : s.threads.get? (j + 1) = some th) :
    j < n ∧ th.pid = 0 ∧ th.tid = j + 1 ∧ th.idv = j + 1
      ∧ th.prog = c6ShProg := by
  have hlen := congrArg List.length hstat
  rw [List.length_map, List.length_cons, List.length_map,
    List.length_range] at hlen
  have hjn : j < n := by
    have hlt := (List.get?_eq_some.mp h).1
    omega
  have h2 := congrArg (fun l => l.get? (j + 1)) hstat
  simp only [List.get?_map, h, List.get?, Option.map_some'] at h2
  rw [List.get?_range hjn] at h2
  simp only [Option.map_some'] at h2
  injection h2 with h2
  exact ⟨hjn,
    congrArg (fun z : Nat × Nat × Nat × List Instr => z.1) h2,
    congrArg (fun z : Nat × Nat × Nat × List Instr => z.2.1) h2,
    congrArg (fun z : Nat × Nat × Nat × List Instr => z.2.2.1) h2,
    congrArg (fun z : Nat × Nat × Nat × List Instr => z.2.2.2) h2⟩

theorem c6Inv_init (n : Nat) : C6Inv n (initC6 n) := by
  have hpc0 : ∀ th ∈ (initC6 n).threads, th.pc = 0 := by
    intro th hth
    rcases List.mem_cons.mp hth with rfl | hth2
    · rfl
    · rw [List.mem_map] at hth2
      obtain ⟨i, hi, rfl⟩ := hth2
      rfl
  refine ⟨?_, ?_, ?_, ?_, ?_, ?_, ?_⟩
  · simp only [initC6, List.map_cons, List.map_map]
    rfl
  · intro j th hj
    have hpc := hpc0 th (List.get?_mem hj)
    rw [hpc]
    simp [getLed, alookup]
  · intro th hth h1 j th2 hj
    rw [hpc0 th (List.get?_mem hth)] at h1
    omega
  · intro j th hj h3 j2 th2 hj2
    rw [hpc0 th (List.get?_mem hj)] at h3
    omega
  · intro th hth h3 j th2 hj
    rw [hpc0 th (List.get?_mem hth)] at h3
    omega
  · have h1 : (initC6 n).threads.filterMap
        (fun th => if 4 ≤ th.pc then some th.idv else none) = [] := by
      rw [List.filterMap_eq_nil]
      intro th hth
      rw [hpc0 th hth]
      rfl
    rw [h1]
    exact List.Perm.refl _
  · intro th hth h4
    rw [hpc0 th (List.get?_mem hth)] at h4
    omega

theorem c6Inv_step {n : Nat} {s s' : TSys} {i : Nat}
    (hInv : C6Inv n s) (h : step s i = some s') : C6Inv n s' := by
  unfold step at h
  split at h
  next => cases h
  next th hth =>
  split at h
  next => cases h
  next ins hins =>
  cases i with
  | zero =>
      obtain ⟨hpid, htid, hidv, hprog⟩ := c6_stat_ex hInv.stat hth
      rw [hprog] at hins
      have hstat1 : ∀ pc2 : Nat,
          (s.threads.set 0 { th with pc := pc2 }).map
            (fun th2 => (th2.pid, th2.tid, th2.idv, th2.prog))
          = (0, 0, 0, c6ExProg)
            :: (List.range n).map (fun i => (0, i + 1, i + 1, c6ShProg)) := by
        intro pc2
        rw [@map_set_eq Th (Nat × Nat × Nat × List Instr) s.threads 0 th
          ({ th with pc := pc2 })
          (fun th2 => (th2.pid, th2.tid, th2.idv, th2.prog)) hth rfl, hInv.stat]
      rcases c6ExProg_get hins with ⟨hpc, rfl⟩ | ⟨hpc, rfl⟩ | ⟨hpc, rfl⟩
        | ⟨hpc, rfl⟩ | ⟨hpc, rfl⟩ | ⟨hpc, rfl⟩
      · -- exclusive barrier: pc 0 → 1
        simp only [stepInstr] at h
        split at h
        next hrdy =>
          injection h with h
          subst h
          refine ⟨hstat1 _, ?_, ?_, ?_, ?_, ?_, ?_⟩
          · intro j th2 hj
            rw [get?_set_ne (fun hh => Nat.succ_ne_zero j hh.symm) _] at hj
            exact hInv.shSync j th2 hj
          · intro th0 hth0 h1 j th2 hj
            rw [get?_set_ne (fun hh => Nat.succ_ne_zero j hh.symm) _] at hj
            exact c6_ready_sh hrdy hj (c6_stat_sh hInv.stat hj).2.2.2.2
          · intro j th2 hj h3 j2 th3 hj2
            rw [get?_set_ne (fun hh => Nat.succ_ne_zero j2 hh.symm) _] at hj2
            exact c6_ready_sh hrdy hj2 (c6_stat_sh hInv.stat hj2).2.2.2.2
          · intro th0 hth0 h3 j th2 hj
            rw [get?_set_self _ hth] at hth0
            injection hth0 with hth0
            exfalso
            rw [← hth0] at h3
            have h4 : (3 : Nat) ≤ th.pc + 1 := h3
            omega
          · show s.results.Perm ((s.threads.set 0 _).filterMap _)
            rw [@filterMap_set_eq Th Nat s.threads 0 th
              ({ th with pc := th.pc + 1 })
              (fun th2 => if 4 ≤ th2.pc then some th2.idv else none) hth
              (by show (if 4 ≤ th.pc + 1 then some th.idv else none)
                    = (if 4 ≤ th.pc then some th.idv else none)
                  rw [hpc]
                  simp)]
            exact hInv.resP
          · intro th0 hth0 h4
            rw [get?_set_self _ hth] at hth0
            injection hth0 with hth0
            exfalso
            rw [← hth0] at h4
            have h5 : (4 : Nat) ≤ th.pc + 1 := h4
            omega
        next hrdy => cases h
      · -- exclusive tAcq: pc 1 → 2
        simp only [stepInstr] at h
        split at h
        next tl htl =>
          injection h with h
          subst h
          refine ⟨hstat1 _, ?_, ?_, ?_, ?_, ?_, ?_⟩
          · intro j th2 hj
            rw [get?_set_ne (fun hh => Nat.succ_ne_zero j hh.symm) _] at hj
            exact hInv.shSync j th2 hj
          · intro th0 hth0 h1 j th2 hj
            rw [get?_set_ne (fun hh => Nat.succ_ne_zero j hh.symm) _] at hj
            exact hInv.barA th hth (by omega) j th2 hj
          · intro j th2 hj h3 j2 th3 hj2
            rw [get?_set_ne (fun hh => Nat.succ_ne_zero j hh.symm) _] at hj
            rw [get?_set_ne (fun hh => Nat.succ_ne_zero j2 hh.symm) _] at hj2
            exact hInv.barS j th2 hj h3 j2 th3 hj2
          · intro th0 hth0 h3 j th2 hj
            rw [get?_set_self _ hth] at hth0
            injection hth0 with hth0
            exfalso
            rw [← hth0] at h3
            have h4 : (3 : Nat) ≤ th.pc + 1 := h3
            omega
          · show s.results.Perm ((s.threads.set 0 _).filterMap _)
            rw [@filterMap_set_eq Th Nat s.threads 0 th
              ({ th with pc := th.pc + 1 })
              (fun th2 => if 4 ≤ th2.pc then some th2.idv else none) hth
              (by show (if 4 ≤ th.pc + 1 then some th.idv else none)
                    = (if 4 ≤ th.pc then some th.idv else none)
                  rw [hpc]
                  simp)]
            exact hInv.resP
          · intro th0 hth0 h4
            rw [get?_set_self _ hth] at hth0
            injection hth0 with hth0
            exfalso
            rw [← hth0] at h4
            have h5 : (4 : Nat) ≤ th.pc + 1 := h4
            omega
        next e htl => cases h
      · -- exclusive pAcq: pc 2 → 3
        simp only [stepInstr] at h
        split at h
        next pl hpl =>
          split at h
          next hg =>
            injection h with h
            subst h
            obtain ⟨hlk, hcan, hpleq⟩ := rwAcquire_false_ok hpl
            rw [hpid] at hcan hpleq
            rw [htid] at hpleq
            refine ⟨hstat1 _, ?_, ?_, ?_, ?_, ?_, ?_⟩
            · intro j th2 hj
              rw [get?_set_ne (fun hh => Nat.succ_ne_zero j hh.symm) _] at hj
              have htid2 := (c6_stat_sh hInv.stat hj).2.2.1
              have hne2 : th2.tid ≠ 0 := by omega
              show alookup th2.tid (getLed (aset th.pid pl s.pLeds) 0) = _
              rw [hpid, getLed_aset_self, hpleq, alookup_append_ne hne2 _ _]
              exact hInv.shSync j th2 hj
            · intro th0 hth0 h1 j th2 hj
              rw [get?_set_ne (fun hh => Nat.succ_ne_zero j hh.symm) _] at hj
              exact hInv.barA th hth (by omega) j th2 hj
            · intro j th2 hj h3 j2 th3 hj2
              rw [get?_set_ne (fun hh => Nat.succ_ne_zero j hh.symm) _] at hj
              rw [get?_set_ne (fun hh => Nat.succ_ne_zero j2 hh.symm) _] at hj2
              exact hInv.barS j th2 hj h3 j2 th3 hj2
            · intro th0 hth0 h3 j th2 hj
              rw [get?_set_ne (fun hh => Nat.succ_ne_zero j hh.symm) _] at hj
              obtain ⟨hjn, hpid2, htid2, hidv2, hprog2⟩ := c6_stat_sh hInv.stat hj
              by_cases hcs : 2 ≤ th2.pc ∧ th2.pc ≤ 4
              · exfalso
                have hsh := hInv.shSync j th2 hj
                rw [if_pos hcs] at hsh
                have hmem := alookup_mem hsh
                unfold canAcquire at hcan
                rw [List.all_eq_true] at hcan
                have h2 := hcan _ hmem
                simp [headCompat, Mode.compat] at h2
              · have h2 := hInv.barA th hth (by omega) j th2 hj
                omega
            · show s.results.Perm ((s.threads.set 0 _).filterMap _)
              rw [@filterMap_set_eq Th Nat s.threads 0 th
                ({ th with pc := th.pc + 1 })
                (fun th2 => if 4 ≤ th2.pc then some th2.idv else none) hth
                (by show (if 4 ≤ th.pc + 1 then some th.idv else none)
                      = (if 4 ≤ th.pc then some th.idv else none)
                    rw [hpc]
                    simp)]
              exact hInv.resP
            · intro th0 hth0 h4
              rw [get?_set_self _ hth] at hth0
              injection hth0 with hth0
              exfalso
              rw [← hth0] at h4
              have h5 : (4 : Nat) ≤ th.pc + 1 := h4
              omega
          next hg => cases h
        next e hpl => cases h
      · -- exclusive put: pc 3 → 4, its id 0 is enqueued
        simp only [stepInstr] at h
        injection h with h
        subst h
        refine ⟨hstat1 _, ?_, ?_, ?_, ?_, ?_, ?_⟩
        · intro j th2 hj
          rw [get?_set_ne (fun hh => Nat.succ_ne_zero j hh.symm) _] at hj
          exact hInv.shSync j th2 hj
        · intro th0 hth0 h1 j th2 hj
          rw [get?_set_ne (fun hh => Nat.succ_ne_zero j hh.symm) _] at hj
          exact hInv.barA th hth (by omega) j th2 hj
        · intro j th2 hj h3 j2 th3 hj2
          rw [get?_set_ne (fun hh => Nat.succ_ne_zero j hh.symm) _] at hj
          rw [get?_set_ne (fun hh => Nat.succ_ne_zero j2 hh.symm) _] at hj2
          exact hInv.barS j th2 hj h3 j2 th3 hj2
        · intro th0 hth0 h3 j th2 hj
          rw [get?_set_ne (fun hh => Nat.succ_ne_zero j hh.symm) _] at hj
          exact hInv.excl th hth (by omega) j th2 hj
        · show (s.results ++ [th.idv]).Perm ((s.threads.set 0 _).filterMap _)
          have hwp := @filterMap_set_perm Th Nat s.threads 0 th
            ({ th with pc := th.pc + 1 })
            (fun th2 => if 4 ≤ th2.pc then some th2.idv else none) th.idv hth
            (by show (if 4 ≤ th.pc then some th.idv else none) = none
                rw [hpc]
                simp)
            (by show (if 4 ≤ th.pc + 1 then some th.idv else none) = some th.idv
                rw [hpc]
                simp)
          refine List.Perm.trans ?_ hwp.symm
          refine List.Perm.trans (List.perm_append_singleton th.idv s.results) ?_
          exact List.Perm.cons th.idv hInv.resP
        · intro th0 hth0 h4
          show (s.results ++ [th.idv]).getLast? = some 0
          rw [hidv]
          exact List.getLast?_concat _
      · -- exclusive pRel: pc 4 → 5
        simp only [stepInstr] at h
        split at h
        next st hst =>
          injection h with h
          subst h
          refine ⟨hstat1 _, ?_, ?_, ?_, ?_, ?_, ?_⟩
          · intro j th2 hj
            rw [get?_set_ne (fun hh => Nat.succ_ne_zero j hh.symm) _] at hj
            have htid2 := (c6_stat_sh hInv.stat hj).2.2.1
            have hne2 : th2.tid ≠ 0 := by omega
            show alookup th2.tid
              (getLed (aset th.pid (rwRelease (getLed s.pLeds th.pid) th.tid)
                s.pLeds) 0) = _
            rw [hpid, htid, getLed_aset_self, alookup_rwRelease_ne hne2]
            exact hInv.shSync j th2 hj
          · intro th0 hth0 h1 j th2 hj
            rw [get?_set_ne (fun hh => Nat.succ_ne_zero j hh.symm) _] at hj
            exact hInv.barA th hth (by omega) j th2 hj
          · intro j th2 hj h3 j2 th3 hj2
            rw [get?_set_ne (fun hh => Nat.succ_ne_zero j hh.symm) _] at hj
            rw [get?_set_ne (fun hh => Nat.succ_ne_zero j2 hh.symm) _] at hj2
            exact hInv.barS j th2 hj h3 j2 th3 hj2
          · intro th0 hth0 h3 j th2 hj
            rw [get?_set_ne (fun hh => Nat.succ_ne_zero j hh.symm) _] at hj
            exact hInv.excl th hth (by omega) j th2 hj
          · show s.results.Perm ((s.threads.set 0 _).filterMap _)
            rw [@filterMap_set_eq Th Nat s.threads 0 th
              ({ th with pc := th.pc + 1 })
              (fun th2 => if 4 ≤ th2.pc then some th2.idv else none) hth
              (by show (if 4 ≤ th.pc + 1 then some th.idv else none)
                    = (if 4 ≤ th.pc then some th.idv else none)
                  rw [hpc]
                  simp)]
            exact hInv.resP
          · intro th0 hth0 h4
            exact hInv.lastZ th hth (by omega)
        next hst => cases h
      · -- exclusive tRel: pc 5 → 6
        simp only [stepInstr] at h
        split at h
        next st hst =>
          injection h with h
          subst h
          refine ⟨hstat1 _, ?_, ?_, ?_, ?_, ?_, ?_⟩
          · intro j th2 hj
            rw [get?_set_ne (fun hh => Nat.succ_ne_zero j hh.symm) _] at hj
            exact hInv.shSync j th2 hj
          · intro th0 hth0 h1 j th2 hj
            rw [get?_set_ne (fun hh => Nat.succ_ne_zero j hh.symm) _] at hj
            exact hInv.barA th hth (by omega) j th2 hj
          · intro j th2 hj h3 j2 th3 hj2
            rw [get?_set_ne (fun hh => Nat.succ_ne_zero j hh.symm) _] at hj
            rw [get?_set_ne (fun hh => Nat.succ_ne_zero j2 hh.symm) _] at hj2
            exact hInv.barS j th2 hj h3 j2 th3 hj2
          · intro th0 hth0 h3 j th2 hj
            rw [get?_set_ne (fun hh => Nat.succ_ne_zero j hh.symm) _] at hj
            exact hInv.excl th hth (by omega) j th2 hj
          · show s.results.Perm ((s.threads.set 0 _).filterMap _)
            rw [@filterMap_set_eq Th Nat s.threads 0 th
              ({ th with pc := th.pc + 1 })
              (fun th2 => if 4 ≤ th2.pc then some th2.idv else none) hth
              (by show (if 4 ≤ th.pc + 1 then some th.idv else none)
                    = (if 4 ≤ th.pc then some th.idv else none)
                  rw [hpc]
                  simp)]
            exact hInv.resP
          · intro th0 hth0 h4
            exact hInv.lastZ th hth (by omega)
        next hst => cases h
  | succ j =>
      obtain ⟨hjn, hpid, htid, hidv, hprog⟩ := c6_stat_sh hInv.stat hth
      rw [hprog] at hins
      have hstat1 : ∀ pc2 : Nat,
          (s.threads.set (j + 1) { th with pc := pc2 }).map
            (fun th2 => (th2.pid, th2.tid, th2.idv, th2.prog))
          = (0, 0, 0, c6ExProg)
            :: (List.range n).map (fun i => (0, i + 1, i + 1, c6ShProg)) := by
        intro pc2
        rw [@map_set_eq Th (Nat × Nat × Nat × List Instr) s.threads (j + 1) th
          ({ th with pc := pc2 })
          (fun th2 => (th2.pid, th2.tid, th2.idv, th2.prog)) hth rfl, hInv.stat]
      rcases c6ShProg_get hins with ⟨hpc, rfl⟩ | ⟨hpc, rfl⟩ | ⟨hpc, rfl⟩
        | ⟨hpc, rfl⟩ | ⟨hpc, rfl⟩ | ⟨hpc, rfl⟩
      · -- shared tAcq: pc 0 → 1
        simp only [stepInstr] at h
        split at h
        next tl htl =>
          injection h with h
          subst h
          refine ⟨hstat1 _, ?_, ?_, ?_, ?_, ?_, ?_⟩
          · intro j2 th2 hj2
            by_cases hj2j : j2 = j
            · rw [hj2j, get?_set_self _ hth] at hj2
              injection hj2 with hj2
              subst hj2
              show alookup th.tid (getLed s.pLeds 0)
                = if 2 ≤ th.pc + 1 ∧ th.pc + 1 ≤ 4 then some [Mode.shared]
                  else none
              rw [hInv.shSync j th hth, hpc]
              rfl
            · rw [get?_set_ne (by omega) _] at hj2
              exact hInv.shSync j2 th2 hj2
          · intro th0 hth0 h1 j2 th2 hj2
            rw [get?_set_ne (Nat.succ_ne_zero j) _] at hth0
            exact absurd (hInv.barA th0 hth0 h1 j th hth) (by omega)
          · intro j2 th2 hj2 h3 j3 th3 hj3
            by_cases hj2j : j2 = j
            · rw [hj2j, get?_set_self _ hth] at hj2
              injection hj2 with hj2
              exfalso
              rw [← hj2] at h3
              have h4 : (3 : Nat) ≤ th.pc + 1 := h3
              omega
            · rw [get?_set_ne (by omega) _] at hj2
              exact absurd (hInv.barS j2 th2 hj2 h3 j th hth) (by omega)
          · intro th0 hth0 h3 j2 th2 hj2
            rw [get?_set_ne (Nat.succ_ne_zero j) _] at hth0
            exact absurd (hInv.excl th0 hth0 h3 j th hth) (by omega)
          · show s.results.Perm ((s.threads.set (j + 1) _).filterMap _)
            rw [@filterMap_set_eq Th Nat s.threads (j + 1) th
              ({ th with pc := th.pc + 1 })
              (fun th2 => if 4 ≤ th2.pc then some th2.idv else none) hth
              (by show (if 4 ≤ th.pc + 1 then some th.idv else none)
                    = (if 4 ≤ th.pc then some th.idv else none)
                  rw [hpc]
                  simp)]
            exact hInv.resP
          · intro th0 hth0 h4
            rw [get?_set_ne (Nat.succ_ne_zero j) _] at hth0
            exact hInv.lastZ th0 hth0 h4
        next e htl => cases h
      · -- shared pAcq: pc 1 → 2
        simp only [stepInstr] at h
        split at h
        next pl hpl =>
          split at h
          next hg =>
            injection h with h
            subst h
            obtain ⟨hlk, hcan, hpleq⟩ := rwAcquire_false_ok hpl
            rw [hpid] at hlk hpleq
            rw [htid] at hlk hpleq
            refine ⟨hstat1 _, ?_, ?_, ?_, ?_, ?_, ?_⟩
            · intro j2 th2 hj2
              by_cases hj2j : j2 = j
              · rw [hj2j, get?_set_self _ hth] at hj2
                injection hj2 with hj2
                subst hj2
                show alookup th.tid (getLed (aset th.pid pl s.pLeds) 0)
                  = if 2 ≤ th.pc + 1 ∧ th.pc + 1 ≤ 4 then some [Mode.shared]
                    else none
                rw [hpid, htid, getLed_aset_self, hpleq,
                  alookup_append_absent hlk _, hpc]
                rfl
              · rw [get?_set_ne (by omega) _] at hj2
                have htid2 := (c6_stat_sh hInv.stat hj2).2.2.1
                have hne2 : th2.tid ≠ j + 1 := by omega
                show alookup th2.tid (getLed (aset th.pid pl s.pLeds) 0) = _
                rw [hpid, getLed_aset_self, hpleq, alookup_append_ne hne2 _ _]
                exact hInv.shSync j2 th2 hj2
            · intro th0 hth0 h1 j2 th2 hj2
              rw [get?_set_ne (Nat.succ_ne_zero j) _] at hth0
              exact absurd (hInv.barA th0 hth0 h1 j th hth) (by omega)
            · intro j2 th2 hj2 h3 j3 th3 hj3
              by_cases hj2j : j2 = j
              · rw [hj2j, get?_set_self _ hth] at hj2
                injection hj2 with hj2
                exfalso
                rw [← hj2] at h3
                have h4 : (3 : Nat) ≤ th.pc + 1 := h3
                omega
              · rw [get?_set_ne (by omega) _] at hj2
                exact absurd (hInv.barS j2 th2 hj2 h3 j th hth) (by omega)
            · intro th0 hth0 h3 j2 th2 hj2
              rw [get?_set_ne (Nat.succ_ne_zero j) _] at hth0
              exact absurd (hInv.excl th0 hth0 h3 j th hth) (by omega)
            · show s.results.Perm ((s.threads.set (j + 1) _).filterMap _)
              rw [@filterMap_set_eq Th Nat s.threads (j + 1) th
                ({ th with pc := th.pc + 1 })
                (fun th2 => if 4 ≤ th2.pc then some th2.idv else none) hth
                (by show (if 4 ≤ th.pc + 1 then some th.idv else none)
                      = (if 4 ≤ th.pc then some th.idv else none)
                    rw [hpc]
                    simp)]
              exact hInv.resP
            · intro th0 hth0 h4
              rw [get?_set_ne (Nat.succ_ne_zero j) _] at hth0
              exact hInv.lastZ th0 hth0 h4
          next hg => cases h
        next e hpl => cases h
      · -- shared barrier: pc 2 → 3
        simp only [stepInstr] at h
        split at h
        next hrdy =>
          injection h with h
          subst h
          refine ⟨hstat1 _, ?_, ?_, ?_, ?_, ?_, ?_⟩
          · intro j2 th2 hj2
            by_cases hj2j : j2 = j
            · rw [hj2j, get?_set_self _ hth] at hj2
              injection hj2 with hj2
              subst hj2
              show alookup th.tid (getLed s.pLeds 0)
                = if 2 ≤ th.pc + 1 ∧ th.pc + 1 ≤ 4 then some [Mode.shared]
                  else none
              rw [hInv.shSync j th hth, hpc]
              rfl
            · rw [get?_set_ne (by omega) _] at hj2
              exact hInv.shSync j2 th2 hj2
          · intro th0 hth0 h1 j2 th2 hj2
            by_cases hj2j : j2 = j
            · rw [hj2j, get?_set_self _ hth] at hj2
              injection hj2 with hj2
              rw [← hj2]
              show 2 ≤ th.pc + 1
              omega
            · rw [get?_set_ne (by omega) _] at hj2
              exact c6_ready_sh hrdy hj2 (c6_stat_sh hInv.stat hj2).2.2.2.2
          · intro j2 th2 hj2 h3 j3 th3 hj3
            by_cases hj3j : j3 = j
            · rw [hj3j, get?_set_self _ hth] at hj3
              injection hj3 with hj3
              rw [← hj3]
              show 2 ≤ th.pc + 1
              omega
            · rw [get?_set_ne (by omega) _] at hj3
              exact c6_ready_sh hrdy hj3 (c6_stat_sh hInv.stat hj3).2.2.2.2
          · intro th0 hth0 h3 j2 th2 hj2
            rw [get?_set_ne (Nat.succ_ne_zero j) _] at hth0
            exact absurd (hInv.excl th0 hth0 h3 j th hth) (by omega)
          · show s.results.Perm ((s.threads.set (j + 1) _).filterMap _)
            rw [@filterMap_set_eq Th Nat s.threads (j + 1) th
              ({ th with pc := th.pc + 1 })
              (fun th2 => if 4 ≤ th2.pc then some th2.idv else none) hth
              (by show (if 4 ≤ th.pc + 1 then some th.idv else none)
                    = (if 4 ≤ th.pc then some th.idv else none)
                  rw [hpc]
                  simp)]
            exact hInv.resP
          · intro th0 hth0 h4
            rw [get?_set_ne (Nat.succ_ne_zero j) _] at hth0
            exact hInv.lastZ th0 hth0 h4
        next hrdy => cases h
      · -- shared put: pc 3 → 4, its id is enqueued
        simp only [stepInstr] at h
        injection h with h
        subst h
        have hall := hInv.barS j th hth (by omega)
        refine ⟨hstat1 _, ?_, ?_, ?_, ?_, ?_, ?_⟩
        · intro j2 th2 hj2
          by_cases hj2j : j2 = j
          · rw [hj2j, get?_set_self _ hth] at hj2
            injection hj2 with hj2
            subst hj2
            show alookup th.tid (getLed s.pLeds 0)
              = if 2 ≤ th.pc + 1 ∧ th.pc + 1 ≤ 4 then some [Mode.shared]
                else none
            rw [hInv.shSync j th hth, hpc]
            rfl
          · rw [get?_set_ne (by omega) _] at hj2
            exact hInv.shSync j2 th2 hj2
        · intro th0 hth0 h1 j2 th2 hj2
          by_cases hj2j : j2 = j
          · rw [hj2j, get?_set_self _ hth] at hj2
            injection hj2 with hj2
            rw [← hj2]
            show 2 ≤ th.pc + 1
            omega
          · rw [get?_set_ne (by omega) _] at hj2
            exact hall j2 th2 hj2
        · intro j2 th2 hj2 h3 j3 th3 hj3
          by_cases hj3j : j3 = j
          · rw [hj3j, get?_set_self _ hth] at hj3
            injection hj3 with hj3
            rw [← hj3]
            show 2 ≤ th.pc + 1
            omega
          · rw [get?_set_ne (by omega) _] at hj3
            exact hall j3 th3 hj3
        · intro th0 hth0 h3 j2 th2 hj2
          rw [get?_set_ne (Nat.succ_ne_zero j) _] at hth0
          exact absurd (hInv.excl th0 hth0 h3 j th hth) (by omega)
        · show (s.results ++ [th.idv]).Perm
            ((s.threads.set (j + 1) _).filterMap _)
          have hwp := @filterMap_set_perm Th Nat s.threads (j + 1) th
            ({ th with pc := th.pc + 1 })
            (fun th2 => if 4 ≤ th2.pc then some th2.idv else none) th.idv hth
            (by show (if 4 ≤ th.pc then some th.idv else none) = none
                rw [hpc]
                simp)
            (by show (if 4 ≤ th.pc + 1 then some th.idv else none) = some th.idv
                rw [hpc]
                simp)
          refine List.Perm.trans ?_ hwp.symm
          refine List.Perm.trans (List.perm_append_singleton th.idv s.results) ?_
          exact List.Perm.cons th.idv hInv.resP
        · intro th0 hth0 h4
          rw [get?_set_ne (Nat.succ_ne_zero j) _] at hth0
          exact absurd (hInv.excl th0 hth0 (by omega) j th hth) (by omega)
      · -- shared pRel: pc 4 → 5
        simp only [stepInstr] at h
        split at h
        next st hst =>
          injection h with h
          subst h
          have hsyncj := hInv.shSync j th hth
          rw [if_pos (show 2 ≤ th.pc ∧ th.pc ≤ 4 by omega)] at hsyncj
          have hrel : rwRelease (getLed s.pLeds 0) th.tid
              = aremove th.tid (getLed s.pLeds 0) := by
            unfold rwRelease
            rw [hsyncj]
          have hall := hInv.barS j th hth (by omega)
          refine ⟨hstat1 _, ?_, ?_, ?_, ?_, ?_, ?_⟩
          · intro j2 th2 hj2
            by_cases hj2j : j2 = j
            · rw [hj2j, get?_set_self _ hth] at hj2
              injection hj2 with hj2
              subst hj2
              show alookup th.tid (getLed (aset th.pid
                  (rwRelease (getLed s.pLeds th.pid) th.tid) s.pLeds) 0)
                = if 2 ≤ th.pc + 1 ∧ th.pc + 1 ≤ 4 then some [Mode.shared]
                  else none
              rw [hpid, getLed_aset_self, hrel, alookup_aremove_self, hpc]
              rfl
            · rw [get?_set_ne (by omega) _] at hj2
              have htid2 := (c6_stat_sh hInv.stat hj2).2.2.1
              have hne2 : th2.tid ≠ th.tid := by omega
              show alookup th2.tid (getLed (aset th.pid
                  (rwRelease (getLed s.pLeds th.pid) th.tid) s.pLeds) 0) = _
              rw [hpid, getLed_aset_self, hrel, alookup_aremove_ne hne2]
              exact hInv.shSync j2 th2 hj2
          · intro th0 hth0 h1 j2 th2 hj2
            rw [get?_set_ne (Nat.succ_ne_zero j) _] at hth0
            by_cases hj2j : j2 = j
            · rw [hj2j, get?_set_self _ hth] at hj2
              injection hj2 with hj2
              rw [← hj2]
              show 2 ≤ th.pc + 1
              omega
            · rw [get?_set_ne (by omega) _] at hj2
              exact hInv.barA th0 hth0 h1 j2 th2 hj2
          · intro j2 th2 hj2 h3 j3 th3 hj3
            by_cases hj3j : j3 = j
            · rw [hj3j, get?_set_self _ hth] at hj3
              injection hj3 with hj3
              rw [← hj3]
              show 2 ≤ th.pc + 1
              omega
            · rw [get?_set_ne (by omega) _] at hj3
              exact hall j3 th3 hj3
          · intro th0 hth0 h3 j2 th2 hj2
            rw [get?_set_ne (Nat.succ_ne_zero j) _] at hth0
            exact absurd (hInv.excl th0 hth0 h3 j th hth) (by omega)
          · show s.results.Perm ((s.threads.set (j + 1) _).filterMap _)
            rw [@filterMap_set_eq Th Nat s.threads (j + 1) th
              ({ th with pc := th.pc + 1 })
              (fun th2 => if 4 ≤ th2.pc then some th2.idv else none) hth
              (by show (if 4 ≤ th.pc + 1 then some th.idv else none)
                    = (if 4 ≤ th.pc then some th.idv else none)
                  rw [hpc]
                  simp)]
            exact hInv.resP
          · intro th0 hth0 h4
            rw [get?_set_ne (Nat.succ_ne_zero j) _] at hth0
            exact hInv.lastZ th0 hth0 h4
        next hst => cases h
      · -- shared tRel: pc 5 → 6
        simp only [stepInstr] at h
        split at h
        next st hst =>
          injection h with h
          subst h
          have hall := hInv.barS j th hth (by omega)
          refine ⟨hstat1 _, ?_, ?_, ?_, ?_, ?_, ?_⟩
          · intro j2 th2 hj2
            by_cases hj2j : j2 = j
            · rw [hj2j, get?_set_self _ hth] at hj2
              injection hj2 with hj2
              subst hj2
              show alookup th.tid (getLed s.pLeds 0)
                = if 2 ≤ th.pc + 1 ∧ th.pc + 1 ≤ 4 then some [Mode.shared]
                  else none
              rw [hInv.shSync j th hth, hpc]
              rfl
            · rw [get?_set_ne (by omega) _] at hj2
              exact hInv.shSync j2 th2 hj2
          · intro th0 hth0 h1 j2 th2 hj2
            rw [get?_set_ne (Nat.succ_ne_zero j) _] at hth0
            by_cases hj2j : j2 = j
            · rw [hj2j, get?_set_self _ hth] at hj2
              injection hj2 with hj2
              rw [← hj2]
              show 2 ≤ th.pc + 1
              omega
            · rw [get?_set_ne (by omega) _] at hj2
              exact hInv.barA th0 hth0 h1 j2 th2 hj2
          · intro j2 th2 hj2 h3 j3 th3 hj3
            by_cases hj3j : j3 = j
            · rw [hj3j, get?_set_self _ hth] at hj3
              injection hj3 with hj3
              rw [← hj3]
              show 2 ≤ th.pc + 1
              omega
            · rw [get?_set_ne (by omega) _] at hj3
              exact hall j3 th3 hj3
          · intro th0 hth0 h3 j2 th2 hj2
            rw [get?_set_ne (Nat.succ_ne_zero j) _] at hth0
            have hprem := hInv.excl th0 hth0 h3
            by_cases hj2j : j2 = j
            · rw [hj2j, get?_set_self _ hth] at hj2
              injection hj2 with hj2
              rw [← hj2]
              show 5 ≤ th.pc + 1
              have h5 := hprem j th hth
              omega
            · rw [get?_set_ne (by omega) _] at hj2
              exact hprem j2 th2 hj2
          · show s.results.Perm ((s.threads.set (j + 1) _).filterMap _)
            rw [@filterMap_set_eq Th Nat s.threads (j + 1) th
              ({ th with pc := th.pc + 1 })
              (fun th2 => if 4 ≤ th2.pc then some th2.idv else none) hth
              (by show (if 4 ≤ th.pc + 1 then some th.idv else none)
                    = (if 4 ≤ th.pc then some th.idv else none)
                  rw [hpc]
                  simp)]
            exact hInv.resP
          · intro th0 hth0 h4
            rw [get?_set_ne (Nat.succ_ne_zero j) _] at hth0
            exact hInv.lastZ th0 hth0 h4
        next hst => cases h

theorem c6Inv_run {n : Nat} {s s' : TSys} (hInv : C6Inv n s) {acts : List Nat}
    (h : run s acts = some s') : C6Inv n s' := by
  induction acts generalizing s with
  | nil =>
      simp only [run] at h
      injection h with h
      rw [← h]
      exact hInv
  | cons i acts ih =>
      simp only [run] at h
      cases hs : step s i with
      | none => rw [hs] at h; cases h
      | some s2 =>
          rw [hs] at h
          exact ih (c6Inv_step hInv hs) h

/-- The §8.1 scenario in its processes variant: one exclusive worker
(id 0, its own process 0) and `n` shared workers (ids 1..n), each in its
own process `1..n` with a single thread. -/
def initC6P (n : Nat) : TSys :=
  ⟨⟨0, 0, 0, c6ExProg, 0, []⟩ ::
    (List.range n).map (fun i => ⟨i + 1, 0, i + 1, c6ShProg, 0, []⟩),
   [], [], [], [], []⟩

/-- Inductive invariant of the processes variant: each worker's whole
process-level ledger is pinned, so the kernel compatibility check
(`kernelStepOk`) carries the exclusion. -/
structure C6PInv (n : Nat) (s : TSys) : Prop where
  stat : s.threads.map (fun th => (th.pid, th.tid, th.idv, th.prog))
    = (0, 0, 0, c6ExProg)
      :: (List.range n).map (fun i => (i + 1, 0, i + 1, c6ShProg))
  shLed : ∀ j th, s.threads.get? (j + 1) = some th →
    getLed s.pLeds th.pid
      = if 2 ≤ th.pc ∧ th.pc ≤ 4 then [(0, [Mode.shared])] else []
  exLed : ∀ th, s.threads.get? 0 = some th →
    getLed s.pLeds 0
      = if 3 ≤ th.pc ∧ th.pc ≤ 4 then [(0, [Mode.exclusive])] else []
  barA : ∀ th, s.threads.get? 0 = some th → 1 ≤ th.pc →
    ∀ j th2, s.threads.get? (j + 1) = some th2 → 2 ≤ th2.pc
  barS : ∀ j th, s.threads.get? (j + 1) = some th → 3 ≤ th.pc →
    ∀ j2 th2, s.threads.get? (j2 + 1) = some th2 → 2 ≤ th2.pc
  excl : ∀ th, s.threads.get? 0 = some th → 3 ≤ th.pc →
    ∀ j th2, s.threads.get? (j + 1) = some th2 → 5 ≤ th2.pc
  resP : s.results.Perm (s.threads.filterMap
    (fun th => if 4 ≤ th.pc then some th.idv else none))
  lastZ : ∀ th, s.threads.get? 0 = some th → 4 ≤ th.pc →
    s.results.getLast? = some 0

theorem c6p_stat_ex {n : Nat} {s : TSys}
    (hstat : s.threads.map (fun th => (th.pid, th.tid, th.idv, th.prog))
      = (0, 0, 0, c6ExProg)
        :: (List.range n).map (fun i => (i + 1, 0, i + 1, c6ShProg)))
    {th : Th} (h : s.threads.get? 0 = some th) :
    th.pid = 0 ∧ th.tid = 0 ∧ th.idv = 0 ∧ th.prog = c6ExProg := by
  have h2 := congrArg (fun l => l.get? 0) hstat
  simp only [List.get?_map, h, List.get?] at h2
  injection h2 with h2
  exact ⟨congrArg (fun z : Nat × Nat × Nat × List Instr => z.1) h2,
    congrArg (fun z : Nat × Nat × Nat × List Instr => z.2.1) h2,
    congrArg (fun z : Nat × Nat × Nat × List Instr => z.2.2.1) h2,
    congrArg (fun z : Nat × Nat × Nat × List Instr => z.2.2.2) h2⟩

theorem c6p_stat_sh {n : Nat} {s : TSys}
    (hstat : s.threads.map (fun th => (th.pid, th.tid, th.idv, th.prog))
      = (0, 0, 0, c6ExProg)
        :: (List.range n).map (fun i => (i + 1, 0, i + 1, c6ShProg)))
    {j : Nat} {th : Th} (h : s.threads.get? (j + 1) = some th) :
    j < n ∧ th.pid = j + 1 ∧ th.tid = 0 ∧ th.idv = j + 1
      ∧ th.prog = c6ShProg := by
  have hlen := congrArg List.length hstat
  rw [List.length_map, List.length_cons, List.length_map,
    List.length_range] at hlen
  have hjn : j < n := by
    have hlt := (List.get?_eq_some.mp h).1
    omega
  have h2 := congrArg (fun l => l.get? (j + 1)) hstat
  simp only [List.get?_map, h, List.get?, Option.map_some'] at h2
  rw [List.get?_range hjn] at h2
  simp only [Option.map_some'] at h2
  injection h2 with h2
  exact ⟨hjn,
    congrArg (fun z : Nat × Nat × Nat × List Instr => z.1) h2,
    congrArg (fun z : Nat × Nat × Nat × List Instr => z.2.1) h2,
    congrArg (fun z : Nat × Nat × Nat × List Instr => z.2.2.1) h2,
    congrArg (fun z : Nat × Nat × Nat × List Instr => z.2.2.2) h2⟩

theorem c6pInv_init (n : Nat) : C6PInv n (initC6P n) := by
  have hpc0 : ∀ th ∈ (initC6P n).threads, th.pc = 0 := by
    intro th hth
    rcases List.mem_cons.mp hth with rfl | hth2
    · rfl
    · rw [List.mem_map] at hth2
      obtain ⟨i, hi, rfl⟩ := hth2
      rfl
  refine ⟨?_, ?_, ?_, ?_, ?_, ?_, ?_, ?_⟩
  · simp only [initC6P, List.map_cons, List.map_map]
    rfl
  · intro j th hj
    have hpc := hpc0 th (List.get?_mem hj)
    rw [hpc]
    simp [getLed, alookup]
  · intro th hth
    have hpc := hpc0 th (List.get?_mem hth)
    rw [hpc]
    simp [getLed, alookup]
  · intro th hth h1 j th2 hj
    rw [hpc0 th (List.get?_mem hth)] at h1
    omega
  · intro j th hj h3 j2 th2 hj2
    rw [hpc0 th (List.get?_mem hj)] at h3
    omega
  · intro th hth h3 j th2 hj
    rw [hpc0 th (List.get?_mem hth)] at h3
    omega
  · have h1 : (initC6P n).threads.filterMap
        (fun th => if 4 ≤ th.pc then some th.idv else none) = [] := by
      rw [List.filterMap_eq_nil]
      intro th hth
      rw [hpc0 th hth]
      rfl
    rw [h1]
    exact List.Perm.refl _
  · intro th hth h4
    rw [hpc0 th (List.get?_mem hth)] at h4
    omega

theorem c6pInv_step {n : Nat} {s s' : TSys} {i : Nat}
    (hInv : C6PInv n s) (h : step s i = some s') : C6PInv n s' := by
  unfold step at h
  split at h
  next => cases h
  next th hth =>
  split at h
  next => cases h
  next ins hins =>
  cases i with
  | zero =>
      obtain ⟨hpid, htid, hidv, hprog⟩ := c6p_stat_ex hInv.stat hth
      rw [hprog] at hins
      have hstat1 : ∀ pc2 : Nat,
          (s.threads.set 0 { th with pc := pc2 }).map
            (fun th2 => (th2.pid, th2.tid, th2.idv, th2.prog))
          = (0, 0, 0, c6ExProg)
            :: (List.range n).map (fun i => (i + 1, 0, i + 1, c6ShProg)) := by
        intro pc2
        rw [@map_set_eq Th (Nat × Nat × Nat × List Instr) s.threads 0 th
          ({ th with pc := pc2 })
          (fun th2 => (th2.pid, th2.tid, th2.idv, th2.prog)) hth rfl, hInv.stat]
      rcases c6ExProg_get hins with ⟨hpc, rfl⟩ | ⟨hpc, rfl⟩ | ⟨hpc, rfl⟩
        | ⟨hpc, rfl⟩ | ⟨hpc, rfl⟩ | ⟨hpc, rfl⟩
      · -- exclusive barrier: pc 0 → 1
        simp only [stepInstr] at h
        split at h
        next hrdy =>
          injection h with h
          subst h
          refine ⟨hstat1 _, ?_, ?_, ?_, ?_, ?_, ?_, ?_⟩
          · intro j th2 hj
            rw [get?_set_ne (fun hh => Nat.succ_ne_zero j hh.symm) _] at hj
            exact hInv.shLed j th2 hj
          · intro th0 hth0
            rw [get?_set_self _ hth] at hth0
            injection hth0 with hth0
            subst hth0
            show getLed s.pLeds 0
              = if 3 ≤ th.pc + 1 ∧ th.pc + 1 ≤ 4 then [(0, [Mode.exclusive])]
                else []
            rw [hInv.exLed th hth, hpc]
            rfl
          · intro th0 hth0 h1 j th2 hj
            rw [get?_set_ne (fun hh => Nat.succ_ne_zero j hh.symm) _] at hj
            exact c6_ready_sh hrdy hj (c6p_stat_sh hInv.stat hj).2.2.2.2
          · intro j th2 hj h3 j2 th3 hj2
            rw [get?_set_ne (fun hh => Nat.succ_ne_zero j2 hh.symm) _] at hj2
            exact c6_ready_sh hrdy hj2 (c6p_stat_sh hInv.stat hj2).2.2.2.2
          · intro th0 hth0 h3 j th2 hj
            rw [get?_set_self _ hth] at hth0
            injection hth0 with hth0
            exfalso
            rw [← hth0] at h3
            have h4 : (3 : Nat) ≤ th.pc + 1 := h3
            omega
          · show s.results.Perm ((s.threads.set 0 _).filterMap _)
            rw [@filterMap_set_eq Th Nat s.threads 0 th
              ({ th with pc := th.pc + 1 })
              (fun th2 => if 4 ≤ th2.pc then some th2.idv else none) hth
              (by show (if 4 ≤ th.pc + 1 then some th.idv else none)
                    = (if 4 ≤ th.pc then some th.idv else none)
                  rw [hpc]
                  simp)]
            exact hInv.resP
          · intro th0 hth0 h4
            rw [get?_set_self _ hth] at hth0
            injection hth0 with hth0
            exfalso
            rw [← hth0] at h4
            have h5 : (4 : Nat) ≤ th.pc + 1 := h4
            omega
        next hrdy => cases h
      · -- exclusive tAcq: pc 1 → 2
        simp only [stepInstr] at h
        split at h
        next tl htl =>
          injection h with h
          subst h
          refine ⟨hstat1 _, ?_, ?_, ?_, ?_, ?_, ?_, ?_⟩
          · intro j th2 hj
            rw [get?_set_ne (fun hh => Nat.succ_ne_zero j hh.symm) _] at hj
            exact hInv.shLed j th2 hj
          · intro th0 hth0
            rw [get?_set_self _ hth] at hth0
            injection hth0 with hth0
            subst hth0
            show getLed s.pLeds 0
              = if 3 ≤ th.pc + 1 ∧ th.pc + 1 ≤ 4 then [(0, [Mode.exclusive])]
                else []
            rw [hInv.exLed th hth, hpc]
            rfl
          · intro th0 hth0 h1 j th2 hj
            rw [get?_set_ne (fun hh => Nat.succ_ne_zero j hh.symm) _] at hj
            exact hInv.barA th hth (by omega) j th2 hj
          · intro j th2 hj h3 j2 th3 hj2
            rw [get?_set_ne (fun hh => Nat.succ_ne_zero j hh.symm) _] at hj
            rw [get?_set_ne (fun hh => Nat.succ_ne_zero j2 hh.symm) _] at hj2
            exact hInv.barS j th2 hj h3 j2 th3 hj2
          · intro th0 hth0 h3 j th2 hj
            rw [get?_set_self _ hth] at hth0
            injection hth0 with hth0
            exfalso
            rw [← hth0] at h3
            have h4 : (3 : Nat) ≤ th.pc + 1 := h3
            omega
          · show s.results.Perm ((s.threads.set 0 _).filterMap _)
            rw [@filterMap_set_eq Th Nat s.threads 0 th
              ({ th with pc := th.pc + 1 })
              (fun th2 => if 4 ≤ th2.pc then some th2.idv else none) hth
              (by show (if 4 ≤ th.pc + 1 then some th.idv else none)
                    = (if 4 ≤ th.pc then some th.idv else none)
                  rw [hpc]
                  simp)]
            exact hInv.resP
          · intro th0 hth0 h4
            rw [get?_set_self _ hth] at hth0
            injection hth0 with hth0
            exfalso
            rw [← hth0] at h4
            have h5 : (4 : Nat) ≤ th.pc + 1 := h4
            omega
        next e htl => cases h
      · -- exclusive pAcq: pc 2 → 3, granted by the kernel check
        simp only [stepInstr] at h
        split at h
        next pl hpl =>
          split at h
          next hg =>
            injection h with h
            subst h
            obtain ⟨hlk, hcan, hpleq⟩ := rwAcquire_false_ok hpl
            rw [hpid, htid] at hpleq
            have hled0 := hInv.exLed th hth
            rw [if_neg (show ¬(3 ≤ th.pc ∧ th.pc ≤ 4) by omega)] at hled0
            rw [hled0, List.nil_append] at hpleq
            refine ⟨hstat1 _, ?_, ?_, ?_, ?_, ?_, ?_, ?_⟩
            · intro j th2 hj
              rw [get?_set_ne (fun hh => Nat.succ_ne_zero j hh.symm) _] at hj
              have hpid2 := (c6p_stat_sh hInv.stat hj).2.1
              show getLed (aset th.pid pl s.pLeds) th2.pid = _
              rw [hpid]
              rw [getLed_aset_ne (show th2.pid ≠ 0 by omega)]
              exact hInv.shLed j th2 hj
            · intro th0 hth0
              rw [get?_set_self _ hth] at hth0
              injection hth0 with hth0
              subst hth0
              show getLed (aset th.pid pl s.pLeds) 0
                = if 3 ≤ th.pc + 1 ∧ th.pc + 1 ≤ 4 then [(0, [Mode.exclusive])]
                  else []
              rw [hpid, getLed_aset_self, hpleq, hpc]
              rfl
            · intro th0 hth0 h1 j th2 hj
              rw [get?_set_ne (fun hh => Nat.succ_ne_zero j hh.symm) _] at hj
              exact hInv.barA th hth (by omega) j th2 hj
            · intro j th2 hj h3 j2 th3 hj2
              rw [get?_set_ne (fun hh => Nat.succ_ne_zero j hh.symm) _] at hj
              rw [get?_set_ne (fun hh => Nat.succ_ne_zero j2 hh.symm) _] at hj2
              exact hInv.barS j th2 hj h3 j2 th3 hj2
            · intro th0 hth0 h3 j th2 hj
              rw [get?_set_ne (fun hh => Nat.succ_ne_zero j hh.symm) _] at hj
              obtain ⟨hjn2, hpid2, htid2, hidv2, hprog2⟩ :=
                c6p_stat_sh hInv.stat hj
              by_cases hcs : 2 ≤ th2.pc ∧ th2.pc ≤ 4
              · exfalso
                have hshl := hInv.shLed j th2 hj
                rw [if_pos hcs] at hshl
                have hpm : procMode pl = some Mode.exclusive := by
                  rw [hpleq]
                  rfl
                have hker : kernelStepOk s th.pid (procMode pl) = true := by
                  rcases hg with hg2 | hg2
                  · exfalso
                    rw [hpm, hpid, hled0] at hg2
                    simp [procMode] at hg2
                  · exact hg2
                have hmem : (th2.pid, getLed s.pLeds th2.pid) ∈ s.pLeds :=
                  mem_of_getLed_ne_nil (by rw [hshl]; simp)
                unfold kernelStepOk at hker
                rw [List.all_eq_true] at hker
                have hall := hker _ hmem
                rw [Bool.or_eq_true] at hall
                rcases hall with hall | hall
                · have h0 : th2.pid = th.pid := beq_iff_eq.mp hall
                  omega
                · have hpm2 : procMode ((th2.pid, getLed s.pLeds th2.pid)
                      : Nat × Ledger).2 = some Mode.shared := by
                    show procMode (getLed s.pLeds th2.pid) = some Mode.shared
                    rw [hshl]
                    rfl
                  rw [hpm2, hpm] at hall
                  simp [Mode.compat] at hall
              · have h2 := hInv.barA th hth (by omega) j th2 hj
                omega
            · show s.results.Perm ((s.threads.set 0 _).filterMap _)
              rw [@filterMap_set_eq Th Nat s.threads 0 th
                ({ th with pc := th.pc + 1 })
                (fun th2 => if 4 ≤ th2.pc then some th2.idv else none) hth
                (by show (if 4 ≤ th.pc + 1 then some th.idv else none)
                      = (if 4 ≤ th.pc then some th.idv else none)
                    rw [hpc]
                    simp)]
              exact hInv.resP
            · intro th0 hth0 h4
              rw [get?_set_self _ hth] at hth0
              injection hth0 with hth0
              exfalso
              rw [← hth0] at h4
              have h5 : (4 : Nat) ≤ th.pc + 1 := h4
              omega
          next hg => cases h
        next e hpl => cases h
      · -- exclusive put: pc 3 → 4, its id 0 is enqueued
        simp only [stepInstr] at h
        injection h with h
        subst h
        refine ⟨hstat1 _, ?_, ?_, ?_, ?_, ?_, ?_, ?_⟩
        · intro j th2 hj
          rw [get?_set_ne (fun hh => Nat.succ_ne_zero j hh.symm) _] at hj
          exact hInv.shLed j th2 hj
        · intro th0 hth0
          rw [get?_set_self _ hth] at hth0
          injection hth0 with hth0
          subst hth0
          show getLed s.pLeds 0
            = if 3 ≤ th.pc + 1 ∧ th.pc + 1 ≤ 4 then [(0, [Mode.exclusive])]
              else []
          rw [hInv.exLed th hth, hpc]
          rfl
        · intro th0 hth0 h1 j th2 hj
          rw [get?_set_ne (fun hh => Nat.succ_ne_zero j hh.symm) _] at hj
          exact hInv.barA th hth (by omega) j th2 hj
        · intro j th2 hj h3 j2 th3 hj2
          rw [get?_set_ne (fun hh => Nat.succ_ne_zero j hh.symm) _] at hj
          rw [get?_set_ne (fun hh => Nat.succ_ne_zero j2 hh.symm) _] at hj2
          exact hInv.barS j th2 hj h3 j2 th3 hj2
        · intro th0 hth0 h3 j th2 hj
          rw [get?_set_ne (fun hh => Nat.succ_ne_zero j hh.symm) _] at hj
          exact hInv.excl th hth (by omega) j th2 hj
        · show (s.results ++ [th.idv]).Perm ((s.threads.set 0 _).filterMap _)
          have hwp := @filterMap_set_perm Th Nat s.threads 0 th
            ({ th with pc := th.pc + 1 })
            (fun th2 => if 4 ≤ th2.pc then some th2.idv else none) th.idv hth
            (by show (if 4 ≤ th.pc then some th.idv else none) = none
                rw [hpc]
                simp)
            (by show (if 4 ≤ th.pc + 1 then some th.idv else none) = some th.idv
                rw [hpc]
                simp)
          refine List.Perm.trans ?_ hwp.symm
          refine List.Perm.trans (List.perm_append_singleton th.idv s.results) ?_
          exact List.Perm.cons th.idv hInv.resP
        · intro th0 hth0 h4
          show (s.results ++ [th.idv]).getLast? = some 0
          rw [hidv]
          exact List.getLast?_concat _
      · -- exclusive pRel: pc 4 → 5
        simp only [stepInstr] at h
        split at h
        next st hst =>
          injection h with h
          subst h
          have hled := hInv.exLed th hth
          rw [if_pos (show 3 ≤ th.pc ∧ th.pc ≤ 4 by omega)] at hled
          refine ⟨hstat1 _, ?_, ?_, ?_, ?_, ?_, ?_, ?_⟩
          · intro j th2 hj
            rw [get?_set_ne (fun hh => Nat.succ_ne_zero j hh.symm) _] at hj
            have hpid2 := (c6p_stat_sh hInv.stat hj).2.1
            show getLed (aset th.pid (rwRelease (getLed s.pLeds th.pid) th.tid) s.pLeds) th2.pid = _
            rw [hpid]
            rw [getLed_aset_ne (show th2.pid ≠ 0 by omega)]
            exact hInv.shLed j th2 hj
          · intro th0 hth0
            rw [get?_set_self _ hth] at hth0
            injection hth0 with hth0
            subst hth0
            show getLed (aset th.pid
                (rwRelease (getLed s.pLeds th.pid) th.tid) s.pLeds) 0
              = if 3 ≤ th.pc + 1 ∧ th.pc + 1 ≤ 4 then [(0, [Mode.exclusive])]
                else []
            rw [hpid, htid, getLed_aset_self, hled, hpc]
            rfl
          · intro th0 hth0 h1 j th2 hj
            rw [get?_set_ne (fun hh => Nat.succ_ne_zero j hh.symm) _] at hj
            exact hInv.barA th hth (by omega) j th2 hj
          · intro j th2 hj h3 j2 th3 hj2
            rw [get?_set_ne (fun hh => Nat.succ_ne_zero j hh.symm) _] at hj
            rw [get?_set_ne (fun hh => Nat.succ_ne_zero j2 hh.symm) _] at hj2
            exact hInv.barS j th2 hj h3 j2 th3 hj2
          · intro th0 hth0 h3 j th2 hj
            rw [get?_set_ne (fun hh => Nat.succ_ne_zero j hh.symm) _] at hj
            exact hInv.excl th hth (by omega) j th2 hj
          · show s.results.Perm ((s.threads.set 0 _).filterMap _)
            rw [@filterMap_set_eq Th Nat s.threads 0 th
              ({ th with pc := th.pc + 1 })
              (fun th2 => if 4 ≤ th2.pc then some th2.idv else none) hth
              (by show (if 4 ≤ th.pc + 1 then some th.idv else none)
                    = (if 4 ≤ th.pc then some th.idv else none)
                  rw [hpc]
                  simp)]
            exact hInv.resP
          · intro th0 hth0 h4
            exact hInv.lastZ th hth (by omega)
        next hst => cases h
      · -- exclusive tRel: pc 5 → 6
        simp only [stepInstr] at h
        split at h
        next st hst =>
          injection h with h
          subst h
          refine ⟨hstat1 _, ?_, ?_, ?_, ?_, ?_, ?_, ?_⟩
          · intro j th2 hj
            rw [get?_set_ne (fun hh => Nat.succ_ne_zero j hh.symm) _] at hj
            exact hInv.shLed j th2 hj
          · intro th0 hth0
            rw [get?_set_self _ hth] at hth0
            injection hth0 with hth0
            subst hth0
            show getLed s.pLeds 0
              = if 3 ≤ th.pc + 1 ∧ th.pc + 1 ≤ 4 then [(0, [Mode.exclusive])]
                else []
            rw [hInv.exLed th hth, hpc]
            rfl
          · intro th0 hth0 h1 j th2 hj
            rw [get?_set_ne (fun hh => Nat.succ_ne_zero j hh.symm) _] at hj
            exact hInv.barA th hth (by omega) j th2 hj
          · intro j th2 hj h3 j2 th3 hj2
            rw [get?_set_ne (fun hh => Nat.succ_ne_zero j hh.symm) _] at hj
            rw [get?_set_ne (fun hh => Nat.succ_ne_zero j2 hh.symm) _] at hj2
            exact hInv.barS j th2 hj h3 j2 th3 hj2
          · intro th0 hth0 h3 j th2 hj
            rw [get?_set_ne (fun hh => Nat.succ_ne_zero j hh.symm) _] at hj
            exact hInv.excl th hth (by omega) j th2 hj
          · show s.results.Perm ((s.threads.set 0 _).filterMap _)
            rw [@filterMap_set_eq Th Nat s.threads 0 th
              ({ th with pc := th.pc + 1 })
              (fun th2 => if 4 ≤ th2.pc then some th2.idv else none) hth
              (by show (if 4 ≤ th.pc + 1 then some th.idv else none)
                    = (if 4 ≤ th.pc then some th.idv else none)
                  rw [hpc]
                  simp)]
            exact hInv.resP
          · intro th0 hth0 h4
            exact hInv.lastZ th hth (by omega)
        next hst => cases h
  | succ j =>
      obtain ⟨hjn, hpid, htid, hidv, hprog⟩ := c6p_stat_sh hInv.stat hth
      rw [hprog] at hins
      have hstat1 : ∀ pc2 : Nat,
          (s.threads.set (j + 1) { th with pc := pc2 }).map
            (fun th2 => (th2.pid, th2.tid, th2.idv, th2.prog))
          = (0, 0, 0, c6ExProg)
            :: (List.range n).map (fun i => (i + 1, 0, i + 1, c6ShProg)) := by
        intro pc2
        rw [@map_set_eq Th (Nat × Nat × Nat × List Instr) s.threads (j + 1) th
          ({ th with pc := pc2 })
          (fun th2 => (th2.pid, th2.tid, th2.idv, th2.prog)) hth rfl, hInv.stat]
      rcases c6ShProg_get hins with ⟨hpc, rfl⟩ | ⟨hpc, rfl⟩ | ⟨hpc, rfl⟩
        | ⟨hpc, rfl⟩ | ⟨hpc, rfl⟩ | ⟨hpc, rfl⟩
      · -- shared tAcq: pc 0 → 1
        simp only [stepInstr] at h
        split at h
        next tl htl =>
          injection h with h
          subst h
          refine ⟨hstat1 _, ?_, ?_, ?_, ?_, ?_, ?_, ?_⟩
          · intro j2 th2 hj2
            by_cases hj2j : j2 = j
            · rw [hj2j, get?_set_self _ hth] at hj2
              injection hj2 with hj2
              subst hj2
              show getLed s.pLeds th.pid
                = if 2 ≤ th.pc + 1 ∧ th.pc + 1 ≤ 4 then [(0, [Mode.shared])]
                  else []
              rw [hInv.shLed j th hth, hpc]
              rfl
            · rw [get?_set_ne (by omega) _] at hj2
              exact hInv.shLed j2 th2 hj2
          · intro th0 hth0
            rw [get?_set_ne (Nat.succ_ne_zero j) _] at hth0
            exact hInv.exLed th0 hth0
          · intro th0 hth0 h1 j2 th2 hj2
            rw [get?_set_ne (Nat.succ_ne_zero j) _] at hth0
            exact absurd (hInv.barA th0 hth0 h1 j th hth) (by omega)
          · intro j2 th2 hj2 h3 j3 th3 hj3
            by_cases hj2j : j2 = j
            · rw [hj2j, get?_set_self _ hth] at hj2
              injection hj2 with hj2
              exfalso
              rw [← hj2] at h3
              have h4 : (3 : Nat) ≤ th.pc + 1 := h3
              omega
            · rw [get?_set_ne (by omega) _] at hj2
              exact absurd (hInv.barS j2 th2 hj2 h3 j th hth) (by omega)
          · intro th0 hth0 h3 j2 th2 hj2
            rw [get?_set_ne (Nat.succ_ne_zero j) _] at hth0
            exact absurd (hInv.excl th0 hth0 h3 j th hth) (by omega)
          · show s.results.Perm ((s.threads.set (j + 1) _).filterMap _)
            rw [@filterMap_set_eq Th Nat s.threads (j + 1) th
              ({ th with pc := th.pc + 1 })
              (fun th2 => if 4 ≤ th2.pc then some th2.idv else none) hth
              (by show (if 4 ≤ th.pc + 1 then some th.idv else none)
                    = (if 4 ≤ th.pc then some th.idv else none)
                  rw [hpc]
                  simp)]
            exact hInv.resP
          · intro th0 hth0 h4
            rw [get?_set_ne (Nat.succ_ne_zero j) _] at hth0
            exact hInv.lastZ th0 hth0 h4
        next e htl => cases h
      · -- shared pAcq: pc 1 → 2
        simp only [stepInstr] at h
        split at h
        next pl hpl =>
          split at h
          next hg =>
            injection h with h
            subst h
            obtain ⟨hlk, hcan, hpleq⟩ := rwAcquire_false_ok hpl
            rw [htid] at hpleq
            have hled0 := hInv.shLed j th hth
            rw [if_neg (show ¬(2 ≤ th.pc ∧ th.pc ≤ 4) by omega)] at hled0
            rw [hled0, List.nil_append] at hpleq
            refine ⟨hstat1 _, ?_, ?_, ?_, ?_, ?_, ?_, ?_⟩
            · intro j2 th2 hj2
              by_cases hj2j : j2 = j
              · rw [hj2j, get?_set_self _ hth] at hj2
                injection hj2 with hj2
                subst hj2
                show getLed (aset th.pid pl s.pLeds) th.pid
                  = if 2 ≤ th.pc + 1 ∧ th.pc + 1 ≤ 4 then [(0, [Mode.shared])]
                    else []
                rw [getLed_aset_self, hpleq, hpc]
                rfl
              · rw [get?_set_ne (by omega) _] at hj2
                have hpid2 := (c6p_stat_sh hInv.stat hj2).2.1
                show getLed (aset th.pid pl s.pLeds) th2.pid = _
                rw [getLed_aset_ne (show th2.pid ≠ th.pid by omega)]
                exact hInv.shLed j2 th2 hj2
            · intro th0 hth0
              rw [get?_set_ne (Nat.succ_ne_zero j) _] at hth0
              show getLed (aset th.pid pl s.pLeds) 0 = _
              rw [getLed_aset_ne (show (0 : Nat) ≠ th.pid by omega)]
              exact hInv.exLed th0 hth0
            · intro th0 hth0 h1 j2 th2 hj2
              rw [get?_set_ne (Nat.succ_ne_zero j) _] at hth0
              exact absurd (hInv.barA th0 hth0 h1 j th hth) (by omega)
            · intro j2 th2 hj2 h3 j3 th3 hj3
              by_cases hj2j : j2 = j
              · rw [hj2j, get?_set_self _ hth] at hj2
                injection hj2 with hj2
                exfalso
                rw [← hj2] at h3
                have h4 : (3 : Nat) ≤ th.pc + 1 := h3
                omega
              · rw [get?_set_ne (by omega) _] at hj2
                exact absurd (hInv.barS j2 th2 hj2 h3 j th hth) (by omega)
            · intro th0 hth0 h3 j2 th2 hj2
              rw [get?_set_ne (Nat.succ_ne_zero j) _] at hth0
              exact absurd (hInv.excl th0 hth0 h3 j th hth) (by omega)
            · show s.results.Perm ((s.threads.set (j + 1) _).filterMap _)
              rw [@filterMap_set_eq Th Nat s.threads (j + 1) th
                ({ th with pc := th.pc + 1 })
                (fun th2 => if 4 ≤ th2.pc then some th2.idv else none) hth
                (by show (if 4 ≤ th.pc + 1 then some th.idv else none)
                      = (if 4 ≤ th.pc then some th.idv else none)
                    rw [hpc]
                    simp)]
              exact hInv.resP
            · intro th0 hth0 h4
              rw [get?_set_ne (Nat.succ_ne_zero j) _] at hth0
              exact hInv.lastZ th0 hth0 h4
          next hg => cases h
        next e hpl => cases h
      · -- shared barrier: pc 2 → 3
        simp only [stepInstr] at h
        split at h
        next hrdy =>
          injection h with h
          subst h
          refine ⟨hstat1 _, ?_, ?_, ?_, ?_, ?_, ?_, ?_⟩
          · intro j2 th2 hj2
            by_cases hj2j : j2 = j
            · rw [hj2j, get?_set_self _ hth] at hj2
              injection hj2 with hj2
              subst hj2
              show getLed s.pLeds th.pid
                = if 2 ≤ th.pc + 1 ∧ th.pc + 1 ≤ 4 then [(0, [Mode.shared])]
                  else []
              rw [hInv.shLed j th hth, hpc]
              rfl
            · rw [get?_set_ne (by omega) _] at hj2
              exact hInv.shLed j2 th2 hj2
          · intro th0 hth0
            rw [get?_set_ne (Nat.succ_ne_zero j) _] at hth0
            exact hInv.exLed th0 hth0
          · intro th0 hth0 h1 j2 th2 hj2
            by_cases hj2j : j2 = j
            · rw [hj2j, get?_set_self _ hth] at hj2
              injection hj2 with hj2
              rw [← hj2]
              show 2 ≤ th.pc + 1
              omega
            · rw [get?_set_ne (by omega) _] at hj2
              exact c6_ready_sh hrdy hj2 (c6p_stat_sh hInv.stat hj2).2.2.2.2
          · intro j2 th2 hj2 h3 j3 th3 hj3
            by_cases hj3j : j3 = j
            · rw [hj3j, get?_set_self _ hth] at hj3
              injection hj3 with hj3
              rw [← hj3]
              show 2 ≤ th.pc + 1
              omega
            · rw [get?_set_ne (by omega) _] at hj3
              exact c6_ready_sh hrdy hj3 (c6p_stat_sh hInv.stat hj3).2.2.2.2
          · intro th0 hth0 h3 j2 th2 hj2
            rw [get?_set_ne (Nat.succ_ne_zero j) _] at hth0
            exact absurd (hInv.excl th0 hth0 h3 j th hth) (by omega)
          · show s.results.Perm ((s.threads.set (j + 1) _).filterMap _)
            rw [@filterMap_set_eq Th Nat s.threads (j + 1) th
              ({ th with pc := th.pc + 1 })
              (fun th2 => if 4 ≤ th2.pc then some th2.idv else none) hth
              (by show (if 4 ≤ th.pc + 1 then some th.idv else none)
                    = (if 4 ≤ th.pc then some th.idv else none)
                  rw [hpc]
                  simp)]
            exact hInv.resP
          · intro th0 hth0 h4
            rw [get?_set_ne (Nat.succ_ne_zero j) _] at hth0
            exact hInv.lastZ th0 hth0 h4
        next hrdy => cases h
      · -- shared put: pc 3 → 4, its id is enqueued
        simp only [stepInstr] at h
        injection h with h
        subst h
        have hall := hInv.barS j th hth (by omega)
        refine ⟨hstat1 _, ?_, ?_, ?_, ?_, ?_, ?_, ?_⟩
        · intro j2 th2 hj2
          by_cases hj2j : j2 = j
          · rw [hj2j, get?_set_self _ hth] at hj2
            injection hj2 with hj2
            subst hj2
            show getLed s.pLeds th.pid
              = if 2 ≤ th.pc + 1 ∧ th.pc + 1 ≤ 4 then [(0, [Mode.shared])]
                else []
            rw [hInv.shLed j th hth, hpc]
            rfl
          · rw [get?_set_ne (by omega) _] at hj2
            exact hInv.shLed j2 th2 hj2
        · intro th0 hth0
          rw [get?_set_ne (Nat.succ_ne_zero j) _] at hth0
          exact hInv.exLed th0 hth0
        · intro th0 hth0 h1 j2 th2 hj2
          by_cases hj2j : j2 = j
          · rw [hj2j, get?_set_self _ hth] at hj2
            injection hj2 with hj2
            rw [← hj2]
            show 2 ≤ th.pc + 1
            omega
          · rw [get?_set_ne (by omega) _] at hj2
            exact hall j2 th2 hj2
        · intro j2 th2 hj2 h3 j3 th3 hj3
          by_cases hj3j : j3 = j
          · rw [hj3j, get?_set_self _ hth] at hj3
            injection hj3 with hj3
            rw [← hj3]
            show 2 ≤ th.pc + 1
            omega
          · rw [get?_set_ne (by omega) _] at hj3
            exact hall j3 th3 hj3
        · intro th0 hth0 h3 j2 th2 hj2
          rw [get?_set_ne (Nat.succ_ne_zero j) _] at hth0
          exact absurd (hInv.excl th0 hth0 h3 j th hth) (by omega)
        · show (s.results ++ [th.idv]).Perm
            ((s.threads.set (j + 1) _).filterMap _)
          have hwp := @filterMap_set_perm Th Nat s.threads (j + 1) th
            ({ th with pc := th.pc + 1 })
            (fun th2 => if 4 ≤ th2.pc then some th2.idv else none) th.idv hth
            (by show (if 4 ≤ th.pc then some th.idv else none) = none
                rw [hpc]
                simp)
            (by show (if 4 ≤ th.pc + 1 then some th.idv else none) = some th.idv
                rw [hpc]
                simp)
          refine List.Perm.trans ?_ hwp.symm
          refine List.Perm.trans (List.perm_append_singleton th.idv s.results) ?_
          exact List.Perm.cons th.idv hInv.resP
        · intro th0 hth0 h4
          rw [get?_set_ne (Nat.succ_ne_zero j) _] at hth0
          exact absurd (hInv.excl th0 hth0 (by omega) j th hth) (by omega)
      · -- shared pRel: pc 4 → 5
        simp only [stepInstr] at h
        split at h
        next st hst =>
          injection h with h
          subst h
          have hled := hInv.shLed j th hth
          rw [if_pos (show 2 ≤ th.pc ∧ th.pc ≤ 4 by omega)] at hled
          have hrel : rwRelease (getLed s.pLeds th.pid) th.tid = [] := by
            rw [htid, hled]
            rfl
          have hall := hInv.barS j th hth (by omega)
          refine ⟨hstat1 _, ?_, ?_, ?_, ?_, ?_, ?_, ?_⟩
          · intro j2 th2 hj2
            by_cases hj2j : j2 = j
            · rw [hj2j, get?_set_self _ hth] at hj2
              injection hj2 with hj2
              subst hj2
              show getLed (aset th.pid
                  (rwRelease (getLed s.pLeds th.pid) th.tid) s.pLeds) th.pid
                = if 2 ≤ th.pc + 1 ∧ th.pc + 1 ≤ 4 then [(0, [Mode.shared])]
                  else []
              rw [getLed_aset_self, hrel, hpc]
              rfl
            · rw [get?_set_ne (by omega) _] at hj2
              have hpid2 := (c6p_stat_sh hInv.stat hj2).2.1
              show getLed (aset th.pid
                  (rwRelease (getLed s.pLeds th.pid) th.tid) s.pLeds)
                  th2.pid = _
              rw [getLed_aset_ne (show th2.pid ≠ th.pid by omega)]
              exact hInv.shLed j2 th2 hj2
          · intro th0 hth0
            rw [get?_set_ne (Nat.succ_ne_zero j) _] at hth0
            show getLed (aset th.pid (rwRelease (getLed s.pLeds th.pid) th.tid) s.pLeds) 0 = _
            rw [getLed_aset_ne (show (0 : Nat) ≠ th.pid by omega)]
            exact hInv.exLed th0 hth0
          · intro th0 hth0 h1 j2 th2 hj2
            rw [get?_set_ne (Nat.succ_ne_zero j) _] at hth0
            by_cases hj2j : j2 = j
            · rw [hj2j, get?_set_self _ hth] at hj2
              injection hj2 with hj2
              rw [← hj2]
              show 2 ≤ th.pc + 1
              omega
            · rw [get?_set_ne (by omega) _] at hj2
              exact hInv.barA th0 hth0 h1 j2 th2 hj2
          · intro j2 th2 hj2 h3 j3 th3 hj3
            by_cases hj3j : j3 = j
            · rw [hj3j, get?_set_self _ hth] at hj3
              injection hj3 with hj3
              rw [← hj3]
              show 2 ≤ th.pc + 1
              omega
            · rw [get?_set_ne (by omega) _] at hj3
              exact hall j3 th3 hj3
          · intro th0 hth0 h3 j2 th2 hj2
            rw [get?_set_ne (Nat.succ_ne_zero j) _] at hth0
            exact absurd (hInv.excl th0 hth0 h3 j th hth) (by omega)
          · show s.results.Perm ((s.threads.set (j + 1) _).filterMap _)
            rw [@filterMap_set_eq Th Nat s.threads (j + 1) th
              ({ th with pc := th.pc + 1 })
              (fun th2 => if 4 ≤ th2.pc then some th2.idv else none) hth
              (by show (if 4 ≤ th.pc + 1 then some th.idv else none)
                    = (if 4 ≤ th.pc then some th.idv else none)
                  rw [hpc]
                  simp)]
            exact hInv.resP
          · intro th0 hth0 h4
            rw [get?_set_ne (Nat.succ_ne_zero j) _] at hth0
            exact hInv.lastZ th0 hth0 h4
        next hst => cases h
      · -- shared tRel: pc 5 → 6
        simp only [stepInstr] at h
        split at h
        next st hst =>
          injection h with h
          subst h
          have hall := hInv.barS j th hth (by omega)
          refine ⟨hstat1 _, ?_, ?_, ?_, ?_, ?_, ?_, ?_⟩
          · intro j2 th2 hj2
            by_cases hj2j : j2 = j
            · rw [hj2j, get?_set_self _ hth] at hj2
              injection hj2 with hj2
              subst hj2
              show getLed s.pLeds th.pid
                = if 2 ≤ th.pc + 1 ∧ th.pc + 1 ≤ 4 then [(0, [Mode.shared])]
                  else []
              rw [hInv.shLed j th hth, hpc]
              rfl
            · rw [get?_set_ne (by omega) _] at hj2
              exact hInv.shLed j2 th2 hj2
          · intro th0 hth0
            rw [get?_set_ne (Nat.succ_ne_zero j) _] at hth0
            exact hInv.exLed th0 hth0
          · intro th0 hth0 h1 j2 th2 hj2
            rw [get?_set_ne (Nat.succ_ne_zero j) _] at hth0
            by_cases hj2j : j2 = j
            · rw [hj2j, get?_set_self _ hth] at hj2
              injection hj2 with hj2
              rw [← hj2]
              show 2 ≤ th.pc + 1
              omega
            · rw [get?_set_ne (by omega) _] at hj2
              exact hInv.barA th0 hth0 h1 j2 th2 hj2
          · intro j2 th2 hj2 h3 j3 th3 hj3
            by_cases hj3j : j3 = j
            · rw [hj3j, get?_set_self _ hth] at hj3
              injection hj3 with hj3
              rw [← hj3]
              show 2 ≤ th.pc + 1
              omega
            · rw [get?_set_ne (by omega) _] at hj3
              exact hall j3 th3 hj3
          · intro th0 hth0 h3 j2 th2 hj2
            rw [get?_set_ne (Nat.succ_ne_zero j) _] at hth0
            have hprem := hInv.excl th0 hth0 h3
            by_cases hj2j : j2 = j
            · rw [hj2j, get?_set_self _ hth] at hj2
              injection hj2 with hj2
              rw [← hj2]
              show 5 ≤ th.pc + 1
              have h5 := hprem j th hth
              omega
            · rw [get?_set_ne (by omega) _] at hj2
              exact hprem j2 th2 hj2
          · show s.results.Perm ((s.threads.set (j + 1) _).filterMap _)
            rw [@filterMap_set_eq Th Nat s.threads (j + 1) th
              ({ th with pc := th.pc + 1 })
              (fun th2 => if 4 ≤ th2.pc then some th2.idv else none) hth
              (by show (if 4 ≤ th.pc + 1 then some th.idv else none)
                    = (if 4 ≤ th.pc then some th.idv else none)
                  rw [hpc]
                  simp)]
            exact hInv.resP
          · intro th0 hth0 h4
            rw [get?_set_ne (Nat.succ_ne_zero j) _] at hth0
            exact hInv.lastZ th0 hth0 h4
        next hst => cases h

theorem c6pInv_run {n : Nat} {s s' : TSys} (hInv : C6PInv n s)
    {acts : List Nat} (h : run s acts = some s') : C6PInv n s' := by
  induction acts generalizing s with
  | nil =>
      simp only [run] at h
      injection h with h
      rw [← h]
      exact hInv
  | cons i acts ih =>
      simp only [run] at h
      cases hs : step s i with
      | none => rw [hs] at h; cases h
      | some s2 =>
          rw [hs] at h
          exact ih (c6pInv_step hInv hs) h

/-- **C6.**  Shared mode is compatible with shared and exclusive is
incompatible with anything (the `Mode.compat` table), and in the
many-shared-one-exclusive scenario — run either with all workers as
threads of one process (`initC6`) or with each shared worker in its own
process (`initC6P`) — whenever some shared worker has passed the
rendezvous, every shared worker that has not yet released holds the lock
(they all hold simultaneously at the rendezvous); the exclusive worker is
inside its critical section only after every shared worker has released;
and every completed run leaves the results queue holding all `n + 1` ids
with the exclusive worker's id 0 enqueued last. -/
theorem C6_shared_concurrent_exclusive_last :
    (Mode.compat Mode.shared Mode.shared = true
      ∧ (∀ m, Mode.compat Mode.exclusive m = false)
      ∧ (∀ m, Mode.compat m Mode.exclusive = false))
    ∧ (∀ n acts s', run (initC6 n) acts = some s' →
        ((∀ j th, s'.threads.get? (j + 1) = some th → 3 ≤ th.pc →
            ∀ j2 th2, s'.threads.get? (j2 + 1) = some th2 → th2.pc ≤ 4 →
              alookup th2.tid (getLed s'.pLeds 0) = some [Mode.shared])
          ∧ (∀ th, s'.threads.get? 0 = some th → 3 ≤ th.pc →
              ∀ j th2, s'.threads.get? (j + 1) = some th2 → 5 ≤ th2.pc)
          ∧ (allDone s' = true →
              s'.results.Perm (0 :: (List.range n).map (fun i => i + 1))
                ∧ s'.results.getLast? = some 0)))
    ∧ (∀ n acts s', run (initC6P n) acts = some s' →
        ((∀ j th, s'.threads.get? (j + 1) = some th → 3 ≤ th.pc →
            ∀ j2 th2, s'.threads.get? (j2 + 1) = some th2 → th2.pc ≤ 4 →
              alookup th2.tid (getLed s'.pLeds th2.pid)
                = some [Mode.shared])
          ∧ (∀ th, s'.threads.get? 0 = some th → 3 ≤ th.pc →
              ∀ j th2, s'.threads.get? (j + 1) = some th2 → 5 ≤ th2.pc)
          ∧ (allDone s' = true →
              s'.results.Perm (0 :: (List.range n).map (fun i => i + 1))
                ∧ s'.results.getLast? = some 0))) := by
  refine ⟨?_, ?_, ?_⟩
  · refine ⟨rfl, ?_, ?_⟩
    · intro m
      cases m <;> rfl
    · intro m
      cases m <;> rfl
  · intro n acts s' hrun
    have hInv := c6Inv_run (c6Inv_init n) hrun
    refine ⟨?_, ?_, ?_⟩
    · intro j th hj h3 j2 th2 hj2 hle
      have h2 := hInv.barS j th hj h3 j2 th2 hj2
      have hsh := hInv.shSync j2 th2 hj2
      rw [if_pos ⟨h2, hle⟩] at hsh
      exact hsh
    · intro th hth h3 j th2 hj
      exact hInv.excl th hth h3 j th2 hj
    · intro hdone
      have hlen := congrArg List.length hInv.stat
      rw [List.length_map, List.length_cons, List.length_map,
        List.length_range] at hlen
      cases h0 : s'.threads.get? 0 with
      | none =>
          exfalso
          rw [List.get?_eq_none] at h0
          omega
      | some th0 =>
          obtain ⟨hpid0, htid0, hidv0, hprog0⟩ := c6_stat_ex hInv.stat h0
          unfold allDone at hdone
          rw [List.all_eq_true] at hdone
          have hpc0 := of_decide_eq_true (hdone th0 (List.get?_mem h0))
          rw [hprog0, show c6ExProg.length = 6 from rfl] at hpc0
          have hall : ∀ th ∈ s'.threads, 4 ≤ th.pc := by
            intro th hmem
            have hle := of_decide_eq_true (hdone th hmem)
            have hm2 : (th.pid, th.tid, th.idv, th.prog) ∈
                (0, 0, 0, c6ExProg) :: (List.range n).map
                  (fun i => (0, i + 1, i + 1, c6ShProg)) := by
              rw [← hInv.stat]
              exact List.mem_map_of_mem _ hmem
            rcases List.mem_cons.mp hm2 with heq | hm3
            · have hp : th.prog = c6ExProg :=
                congrArg (fun z : Nat × Nat × Nat × List Instr => z.2.2.2) heq
              rw [hp, show c6ExProg.length = 6 from rfl] at hle
              omega
            · rw [List.mem_map] at hm3
              obtain ⟨x, hx, heq⟩ := hm3
              have hp : th.prog = c6ShProg :=
                congrArg (fun z : Nat × Nat × Nat × List Instr => z.2.2.2)
                  heq.symm
              rw [hp, show c6ShProg.length = 6 from rfl] at hle
              omega
          have hidv : s'.threads.map (fun th => th.idv)
              = 0 :: (List.range n).map (fun i => i + 1) := by
            have h2 := congrArg
              (List.map (fun z : Nat × Nat × Nat × List Instr => z.2.2.1))
              hInv.stat
            rw [List.map_map, List.map_cons, List.map_map] at h2
            exact h2
          constructor
          · rw [← hidv, ← filterMap_high_pc hall]
            exact hInv.resP
          · exact hInv.lastZ th0 h0 (by omega)
  · intro n acts s' hrun
    have hInv := c6pInv_run (c6pInv_init n) hrun
    refine ⟨?_, ?_, ?_⟩
    · intro j th hj h3 j2 th2 hj2 hle
      have h2 := hInv.barS j th hj h3 j2 th2 hj2
      have hsh := hInv.shLed j2 th2 hj2
      rw [if_pos ⟨h2, hle⟩] at hsh
      rw [(c6p_stat_sh hInv.stat hj2).2.2.1, hsh]
      rfl
    · intro th hth h3 j th2 hj
      exact hInv.excl th hth h3 j th2 hj
    · intro hdone
      have hlen := congrArg List.length hInv.stat
      rw [List.length_map, List.length_cons, List.length_map,
        List.length_range] at hlen
      cases h0 : s'.threads.get? 0 with
      | none =>
          exfalso
          rw [List.get?_eq_none] at h0
          omega
      | some th0 =>
          obtain ⟨hpid0, htid0, hidv0, hprog0⟩ := c6p_stat_ex hInv.stat h0
          unfold allDone at hdone
          rw [List.all_eq_true] at hdone
          have hpc0 := of_decide_eq_true (hdone th0 (List.get?_mem h0))
          rw [hprog0, show c6ExProg.length = 6 from rfl] at hpc0
          have hall : ∀ th ∈ s'.threads, 4 ≤ th.pc := by
            intro th hmem
            have hle := of_decide_eq_true (hdone th hmem)
            have hm2 : (th.pid, th.tid, th.idv, th.prog) ∈
                (0, 0, 0, c6ExProg) :: (List.range n).map
                  (fun i => (i + 1, 0, i + 1, c6ShProg)) := by
              rw [← hInv.stat]
              exact List.mem_map_of_mem _ hmem
            rcases List.mem_cons.mp hm2 with heq | hm3
            · have hp : th.prog = c6ExProg :=
                congrArg (fun z : Nat × Nat × Nat × List Instr => z.2.2.2) heq
              rw [hp, show c6ExProg.length = 6 from rfl] at hle
              omega
            · rw [List.mem_map] at hm3
              obtain ⟨x, hx, heq⟩ := hm3
              have hp : th.prog = c6ShProg :=
                congrArg (fun z : Nat × Nat × Nat × List Instr => z.2.2.2)
                  heq.symm
              rw [hp, show c6ShProg.length = 6 from rfl] at hle
              omega
          have hidv : s'.threads.map (fun th => th.idv)
              = 0 :: (List.range n).map (fun i => i + 1) := by
            have h2 := congrArg
              (List.map (fun z : Nat × Nat × Nat × List Instr => z.2.2.1))
              hInv.stat
            rw [List.map_map, List.map_cons, List.map_map] at h2
            exact h2
          constructor
          · rw [← hidv, ← filterMap_high_pc hall]
            exact hInv.resP
          · exact hInv.lastZ th0 h0 (by omega)

/-- A schedule for the nine-shared-one-exclusive instance: the nine shared
workers acquire, everyone passes the rendezvous, the shared workers
enqueue and release, then the exclusive worker acquires and enqueues
last. -/
def c6Sched : List Nat := [1, 1, 2, 2, 3, 3, 4, 4, 5, 5, 6, 6, 7, 7, 8, 8, 9, 9, 1, 2, 3, 4, 5, 6, 7, 8, 9, 0, 1, 1, 1, 2, 2, 2, 3, 3, 3, 4, 4, 4, 5, 5, 5, 6, 6, 6, 7, 7, 7, 8, 8, 8, 9, 9, 9, 0, 0, 0, 0, 0]

/-- The state that schedule reaches from the all-threads instance. -/
def c6Final : TSys := (run (initC6 9) c6Sched).getD (initC6 9)

/-- The state the same schedule reaches from the one-process-per-shared
instance. -/
def c6pFinal : TSys := (run (initC6P 9) c6Sched).getD (initC6P 9)

theorem C6_shared_concurrent_exclusive_last_witness :
    run (initC6 9) c6Sched = some c6Final
    ∧ allDone c6Final = true
    ∧ c6Final.results.Perm (0 :: (List.range 9).map (fun i => i + 1))
    ∧ c6Final.results.getLast? = some 0
    ∧ run (initC6P 9) c6Sched = some c6pFinal
    ∧ allDone c6pFinal = true
    ∧ c6pFinal.results.Perm (0 :: (List.range 9).map (fun i => i + 1))
    ∧ c6pFinal.results.getLast? = some 0 := by
  refine ⟨rfl, rfl, ?_, ?_, rfl, rfl, ?_, ?_⟩
  · exact ((C6_shared_concurrent_exclusive_last.2.1 9 c6Sched c6Final
      rfl).2.2 rfl).1
  · exact ((C6_shared_concurrent_exclusive_last.2.1 9 c6Sched c6Final
      rfl).2.2 rfl).2
  · exact ((C6_shared_concurrent_exclusive_last.2.2 9 c6Sched c6pFinal
      rfl).2.2 rfl).1
  · exact ((C6_shared_concurrent_exclusive_last.2.2 9 c6Sched c6pFinal
      rfl).2.2 rfl).2

/-- Modelled from the spec (§8.2): reader `j` of the chained-readers
scenario.  It waits for reader `j - 1` to be inside (queue `j`), acquires
shared, lets the writer start if it is reader 0 (barrier 0; the other
readers do a dummy send), enqueues its id, notifies reader `j + 1` and
reader `j - 1` (two tokens on queue `j + 1`), waits for reader `j + 1` to
be inside (queue `j + 2`), then releases. -/
def c7Reader (R j : Nat) : List Instr :=
  [Instr.recv j, Instr.tAcq Mode.shared, Instr.pAcq Mode.shared,
   if j = 0 then Instr.barrier 0 else Instr.send (R + 2),
   Instr.put, Instr.send (j + 1), Instr.send (j + 1), Instr.recv (j + 2),
   Instr.pRel, Instr.tRel]

/-- Modelled from the spec (§8.2): the writer; it requests the lock
(blocking) once reader 0 is inside, then enqueues its id last. -/
def c7Writer : List Instr :=
  [Instr.barrier 0, Instr.tAcq Mode.exclusive, Instr.pAcq Mode.exclusive,
   Instr.put, Instr.pRel, Instr.tRel]

/-- The §8.2 scenario with `R` chained readers (ids `0..R-1`) and one
writer (id `R`), all threads of one process.  Queue 0 (reader 0's entry
token) and queue `R + 1` (the last reader's exit token) are preloaded;
queue `R + 2` is the dummy target of the non-first readers. -/
def initC7 (R : Nat) : TSys :=
  ⟨⟨0, 0, R, c7Writer, 0, []⟩ ::
    (List.range R).map (fun j => ⟨0, j + 1, j, c7Reader R j, 0, []⟩),
   [], [], [], [],
   ((List.replicate (R + 3) 0).set 0 1).set (R + 1) 1⟩

/-- 1 when the thread at position `p` has program counter at least `k`. -/
def flagGe (l : List Th) (p k : Nat) : Nat :=
  match l.get? p with
  | some th => if k ≤ th.pc then 1 else 0
  | none => 0

/-- Number of tokens sent so far into queue `q` (two sends by reader
`q - 1`, at its program counters 5 and 6). -/
def c7sent (R : Nat) (l : List Th) (q : Nat) : Nat :=
  if 1 ≤ q ∧ q ≤ R then flagGe l q 6 + flagGe l q 7 else 0

/-- Number of tokens consumed so far from queue `q` (reader `q` on entry,
reader `q - 2` on exit). -/
def c7cons (R : Nat) (l : List Th) (q : Nat) : Nat :=
  (if q < R then flagGe l (q + 1) 1 else 0)
  + (if 2 ≤ q ∧ q ≤ R + 1 then flagGe l (q - 1) 8 else 0)

/-- Tokens preloaded on queue `q`. -/
def c7pre (R q : Nat) : Nat := if q = 0 ∨ q = R + 1 then 1 else 0

theorem flagGe_set_ne {l : List Th} {i p : Nat} (hne : i ≠ p) (b : Th)
    (k : Nat) : flagGe (l.set i b) p k = flagGe l p k := by
  unfold flagGe
  rw [get?_set_ne hne]

theorem flagGe_set_iff {l : List Th} {i : Nat} {th b : Th}
    (h : l.get? i = some th) (k : Nat) (hiff : (k ≤ b.pc ↔ k ≤ th.pc))
    (p : Nat) : flagGe (l.set i b) p k = flagGe l p k := by
  by_cases hip : i = p
  · subst hip
    unfold flagGe
    rw [get?_set_self _ h, h]
    show (if k ≤ b.pc then 1 else 0) = (if k ≤ th.pc then 1 else 0)
    by_cases hk : k ≤ th.pc
    · rw [if_pos hk, if_pos (hiff.mpr hk)]
    · rw [if_neg hk, if_neg (fun hh => hk (hiff.mp hh))]
  · exact flagGe_set_ne hip b k

theorem flagGe_some {l : List Th} {p : Nat} {th : Th}
    (h : l.get? p = some th) (k : Nat) :
    flagGe l p k = if k ≤ th.pc then 1 else 0 := by
  unfold flagGe
  rw [h]

theorem c7sent_set {R : Nat} {l : List Th} {i : Nat} {th b : Th}
    (h : l.get? i = some th) (h6 : (6 ≤ b.pc ↔ 6 ≤ th.pc))
    (h7 : (7 ≤ b.pc ↔ 7 ≤ th.pc)) (q : Nat) :
    c7sent R (l.set i b) q = c7sent R l q := by
  unfold c7sent
  rw [flagGe_set_iff h 6 h6 q, flagGe_set_iff h 7 h7 q]

theorem c7cons_set {R : Nat} {l : List Th} {i : Nat} {th b : Th}
    (h : l.get? i = some th) (h1 : (1 ≤ b.pc ↔ 1 ≤ th.pc))
    (h8 : (8 ≤ b.pc ↔ 8 ≤ th.pc)) (q : Nat) :
    c7cons R (l.set i b) q = c7cons R l q := by
  unfold c7cons
  rw [flagGe_set_iff h 1 h1 (q + 1), flagGe_set_iff h 8 h8 (q - 1)]

theorem get?_replicate {α : Type} (a : α) {n m : Nat} (h : m < n) :
    (List.replicate n a).get? m = some a := by
  induction n generalizing m with
  | zero => omega
  | succ n ih =>
      cases m with
      | zero => rfl
      | succ m => exact ih (by omega)

/-- Inductive invariant of the chained-readers scenario: the writer at
thread position 0, reader `j` at position `j + 1`.  `tokEq` is the token
accounting that forces the chain order. -/
structure C7Inv (R : Nat) (s : TSys) : Prop where
  stat : s.threads.map (fun th => (th.pid, th.tid, th.idv, th.prog))
    = (0, 0, R, c7Writer)
      :: (List.range R).map (fun j => (0, j + 1, j, c7Reader R j))
  shSync : ∀ j th, s.threads.get? (j + 1) = some th →
    alookup th.tid (getLed s.pLeds 0)
      = if 3 ≤ th.pc ∧ th.pc ≤ 8 then some [Mode.shared] else none
  barW : ∀ th, s.threads.get? 0 = some th → 1 ≤ th.pc →
    ∀ th2, s.threads.get? 1 = some th2 → 3 ≤ th2.pc
  exclW : ∀ th, s.threads.get? 0 = some th → 3 ≤ th.pc →
    ∀ j th2, s.threads.get? (j + 1) = some th2 → 9 ≤ th2.pc
  tokLen : s.toks.length = R + 3
  tokEq : ∀ q c, q ≤ R + 1 → s.toks.get? q = some c →
    c + c7cons R s.threads q = c7pre R q + c7sent R s.threads q
  resOrd : ∃ m, m ≤ R + 1 ∧ s.results = List.range m
    ∧ (∀ th, s.threads.get? 0 = some th → (4 ≤ th.pc ↔ R < m))
    ∧ (∀ j th, s.threads.get? (j + 1) = some th → (5 ≤ th.pc ↔ j < m))

theorem c7_stat_w {R : Nat} {s : TSys}
    (hstat : s.threads.map (fun th => (th.pid, th.tid, th.idv, th.prog))
      = (0, 0, R, c7Writer)
        :: (List.range R).map (fun j => (0, j + 1, j, c7Reader R j)))
    {th : Th} (h : s.threads.get? 0 = some th) :
    th.pid = 0 ∧ th.tid = 0 ∧ th.idv = R ∧ th.prog = c7Writer := by
  have h2 := congrArg (fun l => l.get? 0) hstat
  simp only [List.get?_map, h, List.get?] at h2
  injection h2 with h2
  exact ⟨congrArg (fun z : Nat × Nat × Nat × List Instr => z.1) h2,
    congrArg (fun z : Nat × Nat × Nat × List Instr => z.2.1) h2,
    congrArg (fun z : Nat × Nat × Nat × List Instr => z.2.2.1) h2,
    congrArg (fun z : Nat × Nat × Nat × List Instr => z.2.2.2) h2⟩

theorem c7_stat_r {R : Nat} {s : TSys}
    (hstat : s.threads.map (fun th => (th.pid, th.tid, th.idv, th.prog))
      = (0, 0, R, c7Writer)
        :: (List.range R).map (fun j => (0, j + 1, j, c7Reader R j)))
    {j : Nat} {th : Th} (h : s.threads.get? (j + 1) = some th) :
    j < R ∧ th.pid = 0 ∧ th.tid = j + 1 ∧ th.idv = j
      ∧ th.prog = c7Reader R j := by
  have hlen := congrArg List.length hstat
  rw [List.length_map, List.length_cons, List.length_map,
    List.length_range] at hlen
  have hjn : j < R := by
    have hlt := (List.get?_eq_some.mp h).1
    omega
  have h2 := congrArg (fun l => l.get? (j + 1)) hstat
  simp only [List.get?_map, h, List.get?, Option.map_some'] at h2
  rw [List.get?_range hjn] at h2
  simp only [Option.map_some'] at h2
  injection h2 with h2
  exact ⟨hjn,
    congrArg (fun z : Nat × Nat × Nat × List Instr => z.1) h2,
    congrArg (fun z : Nat × Nat × Nat × List Instr => z.2.1) h2,
    congrArg (fun z : Nat × Nat × Nat × List Instr => z.2.2.1) h2,
    congrArg (fun z : Nat × Nat × Nat × List Instr => z.2.2.2) h2⟩

theorem c7Writer_get {pc : Nat} {ins : Instr}
    (h : c7Writer.get? pc = some ins) :
    (pc = 0 ∧ ins = Instr.barrier 0) ∨
    (pc = 1 ∧ ins = Instr.tAcq Mode.exclusive) ∨
    (pc = 2 ∧ ins = Instr.pAcq Mode.exclusive) ∨
    (pc = 3 ∧ ins = Instr.put) ∨
    (pc = 4 ∧ ins = Instr.pRel) ∨
    (pc = 5 ∧ ins = Instr.tRel) := by
  match pc with
  | 0 => injection h with h; exact Or.inl ⟨rfl, h.symm⟩
  | 1 => injection h with h; exact Or.inr (Or.inl ⟨rfl, h.symm⟩)
  | 2 => injection h with h; exact Or.inr (Or.inr (Or.inl ⟨rfl, h.symm⟩))
  | 3 => injection h with h; exact Or.inr (Or.inr (Or.inr (Or.inl ⟨rfl, h.symm⟩)))
  | 4 =>
      injection h with h
      exact Or.inr (Or.inr (Or.inr (Or.inr (Or.inl ⟨rfl, h.symm⟩))))
  | 5 =>
      injection h with h
      exact Or.inr (Or.inr (Or.inr (Or.inr (Or.inr ⟨rfl, h.symm⟩))))
  | n + 6 => cases h

theorem c7Reader_get {R j pc : Nat} {ins : Instr}
    (h : (c7Reader R j).get? pc = some ins) :
    (pc = 0 ∧ ins = Instr.recv j) ∨
    (pc = 1 ∧ ins = Instr.tAcq Mode.shared) ∨
    (pc = 2 ∧ ins = Instr.pAcq Mode.shared) ∨
    (pc = 3 ∧ ins = (if j = 0 then Instr.barrier 0
      else Instr.send (R + 2))) ∨
    (pc = 4 ∧ ins = Instr.put) ∨
    (pc = 5 ∧ ins = Instr.send (j + 1)) ∨
    (pc = 6 ∧ ins = Instr.send (j + 1)) ∨
    (pc = 7 ∧ ins = Instr.recv (j + 2)) ∨
    (pc = 8 ∧ ins = Instr.pRel) ∨
    (pc = 9 ∧ ins = Instr.tRel) := by
  match pc with
  | 0 => injection h with h; exact Or.inl ⟨rfl, h.symm⟩
  | 1 => injection h with h; exact Or.inr (Or.inl ⟨rfl, h.symm⟩)
  | 2 => injection h with h; exact Or.inr (Or.inr (Or.inl ⟨rfl, h.symm⟩))
  | 3 => injection h with h; exact Or.inr (Or.inr (Or.inr (Or.inl ⟨rfl, h.symm⟩)))
  | 4 =>
      injection h with h
      exact Or.inr (Or.inr (Or.inr (Or.inr (Or.inl ⟨rfl, h.symm⟩))))
  | 5 =>
      injection h with h
      exact Or.inr (Or.inr (Or.inr (Or.inr (Or.inr (Or.inl ⟨rfl, h.symm⟩)))))
  | 6 =>
      injection h with h
      exact Or.inr (Or.inr (Or.inr (Or.inr (Or.inr (Or.inr
        (Or.inl ⟨rfl, h.symm⟩))))))
  | 7 =>
      injection h with h
      exact Or.inr (Or.inr (Or.inr (Or.inr (Or.inr (Or.inr (Or.inr
        (Or.inl ⟨rfl, h.symm⟩)))))))
  | 8 =>
      injection h with h
      exact Or.inr (Or.inr (Or.inr (Or.inr (Or.inr (Or.inr (Or.inr
        (Or.inr (Or.inl ⟨rfl, h.symm⟩))))))))
  | 9 =>
      injection h with h
      exact Or.inr (Or.inr (Or.inr (Or.inr (Or.inr (Or.inr (Or.inr
        (Or.inr (Or.inr ⟨rfl, h.symm⟩))))))))
  | n + 10 => cases h

theorem c7Reader0_arrived {R : Nat} {th : Th}
    (hprog : th.prog = c7Reader R 0) (h : atOrPastBarrier th 0 = true) :
    3 ≤ th.pc := by
  have hlist : c7Reader R 0
      = [Instr.recv 0, Instr.tAcq Mode.shared, Instr.pAcq Mode.shared,
         Instr.barrier 0, Instr.put, Instr.send 1, Instr.send 1,
         Instr.recv 2, Instr.pRel, Instr.tRel] := rfl
  by_cases h3 : 3 ≤ th.pc
  · exact h3
  · exfalso
    unfold atOrPastBarrier at h
    rw [hprog, hlist] at h
    have h0 : th.pc = 0 ∨ th.pc = 1 ∨ th.pc = 2 := by omega
    rcases h0 with h0 | h0 | h0 <;> rw [h0] at h <;> exact absurd h (by decide)

theorem c7_ready_r0 {R : Nat} {s : TSys} (hr : barrierReady s 0 = true)
    {th : Th} (hj : s.threads.get? 1 = some th)
    (hprog : th.prog = c7Reader R 0) : 3 ≤ th.pc := by
  unfold barrierReady at hr
  rw [List.all_eq_true] at hr
  have h2 := hr th (List.get?_mem hj)
  rw [Bool.or_eq_true] at h2
  rcases h2 with h2 | h2
  · exfalso
    unfold hasBarrier at h2
    rw [hprog, show c7Reader R 0
      = [Instr.recv 0, Instr.tAcq Mode.shared, Instr.pAcq Mode.shared,
         Instr.barrier 0, Instr.put, Instr.send 1, Instr.send 1,
         Instr.recv 2, Instr.pRel, Instr.tRel] from rfl] at h2
    exact absurd h2 (by decide)
  · exact c7Reader0_arrived hprog h2

theorem c7Inv_init (R : Nat) : C7Inv R (initC7 R) := by
  have hpc0 : ∀ th ∈ (initC7 R).threads, th.pc = 0 := by
    intro th hth
    rcases List.mem_cons.mp hth with rfl | hth2
    · rfl
    · rw [List.mem_map] at hth2
      obtain ⟨i, hi, rfl⟩ := hth2
      rfl
  have hflag : ∀ p k, 1 ≤ k → flagGe (initC7 R).threads p k = 0 := by
    intro p k hk
    unfold flagGe
    cases hg : (initC7 R).threads.get? p with
    | none => rfl
    | some th =>
        show (if k ≤ th.pc then 1 else 0) = 0
        rw [if_neg (by rw [hpc0 th (List.get?_mem hg)]; omega)]
  refine ⟨?_, ?_, ?_, ?_, ?_, ?_, ?_⟩
  · simp only [initC7, List.map_cons, List.map_map]
    rfl
  · intro j th hj
    have hpc := hpc0 th (List.get?_mem hj)
    rw [hpc]
    simp [getLed, alookup]
  · intro th hth h1 th2 hj
    rw [hpc0 th (List.get?_mem hth)] at h1
    omega
  · intro th hth h3 j th2 hj
    rw [hpc0 th (List.get?_mem hth)] at h3
    omega
  · show (((List.replicate (R + 3) 0).set 0 1).set (R + 1) 1).length = R + 3
    rw [List.length_set, List.length_set, List.length_replicate]
  · intro q c hq hc
    have hcons : c7cons R (initC7 R).threads q = 0 := by
      unfold c7cons
      rw [hflag (q + 1) 1 (by omega), hflag (q - 1) 8 (by omega)]
      simp
    have hsent : c7sent R (initC7 R).threads q = 0 := by
      unfold c7sent
      rw [hflag q 6 (by omega), hflag q 7 (by omega)]
      simp
    rw [hcons, hsent]
    have hcval : c = c7pre R q := by
      by_cases h0 : q = 0
      · subst h0
        have hg : ((List.replicate (R + 3) 0).set 0 1).get? 0 = some 1 :=
          get?_set_self _ (get?_replicate 0 (by omega))
        rw [show (initC7 R).toks
            = ((List.replicate (R + 3) 0).set 0 1).set (R + 1) 1 from rfl,
          get?_set_ne (by omega) _, hg] at hc
        injection hc with hc
        rw [← hc]
        rfl
      · by_cases hR1 : q = R + 1
        · subst hR1
          have hg : (((List.replicate (R + 3) 0).set 0 1).set (R + 1) 1).get?
              (R + 1) = some 1 :=
            get?_set_self _ (by
              rw [get?_set_ne (by omega) _]
              exact get?_replicate 0 (by omega))
          rw [show (initC7 R).toks
              = ((List.replicate (R + 3) 0).set 0 1).set (R + 1) 1 from rfl,
            hg] at hc
          injection hc with hc
          rw [← hc]
          unfold c7pre
          rw [if_pos (Or.inr rfl)]
        · rw [show (initC7 R).toks
              = ((List.replicate (R + 3) 0).set 0 1).set (R + 1) 1 from rfl,
            get?_set_ne (by omega) _, get?_set_ne (by omega) _,
            get?_replicate 0 (by omega)] at hc
          injection hc with hc
          rw [← hc]
          unfold c7pre
          rw [if_neg (by omega)]
    omega
  · refine ⟨0, by omega, rfl, ?_, ?_⟩
    · intro th hth
      rw [hpc0 th (List.get?_mem hth)]
      constructor
      · intro h4
        omega
      · intro hR
        omega
    · intro j th hj
      rw [hpc0 th (List.get?_mem hj)]
      constructor
      · intro h5
        omega
      · intro hj2
        omega

theorem c7sent_set0 {R : Nat} {l : List Th} (b : Th) (q : Nat) :
    c7sent R (l.set 0 b) q = c7sent R l q := by
  unfold c7sent
  by_cases h1 : 1 ≤ q ∧ q ≤ R
  · rw [if_pos h1, if_pos h1, flagGe_set_ne (by omega) b 6,
      flagGe_set_ne (by omega) b 7]
  · rw [if_neg h1, if_neg h1]

theorem c7cons_set0 {R : Nat} {l : List Th} (b : Th) (q : Nat) :
    c7cons R (l.set 0 b) q = c7cons R l q := by
  unfold c7cons
  have e1 : (if q < R then flagGe (l.set 0 b) (q + 1) 1 else 0)
      = (if q < R then flagGe l (q + 1) 1 else 0) := by
    by_cases h1 : q < R
    · rw [if_pos h1, if_pos h1, flagGe_set_ne (by omega) b 1]
    · rw [if_neg h1, if_neg h1]
  have e2 : (if 2 ≤ q ∧ q ≤ R + 1 then flagGe (l.set 0 b) (q - 1) 8 else 0)
      = (if 2 ≤ q ∧ q ≤ R + 1 then flagGe l (q - 1) 8 else 0) := by
    by_cases h2 : 2 ≤ q ∧ q ≤ R + 1
    · rw [if_pos h2, if_pos h2, flagGe_set_ne (by omega) b 8]
    · rw [if_neg h2, if_neg h2]
  rw [e1, e2]

theorem c7sent_set_ne {R : Nat} {l : List Th} {i : Nat} (b : Th) {q : Nat}
    (hne : q ≠ i) : c7sent R (l.set i b) q = c7sent R l q := by
  unfold c7sent
  by_cases hg : 1 ≤ q ∧ q ≤ R
  · rw [if_pos hg, if_pos hg, flagGe_set_ne (fun hh => hne hh.symm) b 6,
      flagGe_set_ne (fun hh => hne hh.symm) b 7]
  · rw [if_neg hg, if_neg hg]

theorem c7cons_set_ne1 {R : Nat} {l : List Th} {i : Nat} {th b : Th}
    (h : l.get? i = some th) (h8 : (8 ≤ b.pc ↔ 8 ≤ th.pc)) {q : Nat}
    (hne : q + 1 ≠ i) : c7cons R (l.set i b) q = c7cons R l q := by
  unfold c7cons
  have e1 : (if q < R then flagGe (l.set i b) (q + 1) 1 else 0)
      = (if q < R then flagGe l (q + 1) 1 else 0) := by
    by_cases hg : q < R
    · rw [if_pos hg, if_pos hg, flagGe_set_ne (fun hh => hne hh.symm) b 1]
    · rw [if_neg hg, if_neg hg]
  rw [e1, flagGe_set_iff h 8 h8 (q - 1)]

theorem c7cons_set_ne8 {R : Nat} {l : List Th} {i : Nat} {th b : Th}
    (h : l.get? i = some th) (h1 : (1 ≤ b.pc ↔ 1 ≤ th.pc)) {q : Nat}
    (hne : q - 1 ≠ i) : c7cons R (l.set i b) q = c7cons R l q := by
  unfold c7cons
  have e2 : (if 2 ≤ q ∧ q ≤ R + 1 then flagGe (l.set i b) (q - 1) 8 else 0)
      = (if 2 ≤ q ∧ q ≤ R + 1 then flagGe l (q - 1) 8 else 0) := by
    by_cases hg : 2 ≤ q ∧ q ≤ R + 1
    · rw [if_pos hg, if_pos hg, flagGe_set_ne (fun hh => hne hh.symm) b 8]
    · rw [if_neg hg, if_neg hg]
  rw [e2, flagGe_set_iff h 1 h1 (q + 1)]

theorem c7Inv_step {R : Nat} {s s' : TSys} {i : Nat}
    (hInv : C7Inv R s) (h : step s i = some s') : C7Inv R s' := by
  have hlen7 : s.threads.length = R + 1 := by
    have h2 := congrArg List.length hInv.stat
    rw [List.length_map, List.length_cons, List.length_map,
      List.length_range] at h2
    exact h2
  unfold step at h
  split at h
  next => cases h
  next th hth =>
  split at h
  next => cases h
  next ins hins =>
  cases i with
  | zero =>
      obtain ⟨hpid, htid, hidv, hprog⟩ := c7_stat_w hInv.stat hth
      rw [hprog] at hins
      have hstat1 : ∀ pc2 : Nat,
          (s.threads.set 0 { th with pc := pc2 }).map
            (fun th2 => (th2.pid, th2.tid, th2.idv, th2.prog))
          = (0, 0, R, c7Writer)
            :: (List.range R).map (fun j => (0, j + 1, j, c7Reader R j)) := by
        intro pc2
        rw [@map_set_eq Th (Nat × Nat × Nat × List Instr) s.threads 0 th
          ({ th with pc := pc2 })
          (fun th2 => (th2.pid, th2.tid, th2.idv, th2.prog)) hth rfl, hInv.stat]
      rcases c7Writer_get hins with ⟨hpc, rfl⟩ | ⟨hpc, rfl⟩ | ⟨hpc, rfl⟩
        | ⟨hpc, rfl⟩ | ⟨hpc, rfl⟩ | ⟨hpc, rfl⟩
      · -- writer barrier: pc 0 → 1
        simp only [stepInstr] at h
        split at h
        next hrdy =>
          injection h with h
          subst h
          refine ⟨hstat1 _, ?_, ?_, ?_, hInv.tokLen, ?_, ?_⟩
          · intro j th2 hj
            rw [get?_set_ne (fun hh => Nat.succ_ne_zero j hh.symm) _] at hj
            exact hInv.shSync j th2 hj
          · intro th0 hth0 h1 th2 hj2
            rw [get?_set_ne (by omega) _] at hj2
            exact c7_ready_r0 hrdy hj2 (c7_stat_r hInv.stat hj2).2.2.2.2
          · intro th0 hth0 h3 j th2 hj
            rw [get?_set_self _ hth] at hth0
            injection hth0 with hth0
            exfalso
            rw [← hth0] at h3
            have h4 : (3 : Nat) ≤ th.pc + 1 := h3
            omega
          · intro q c hq hc
            rw [c7sent_set0 _ q, c7cons_set0 _ q]
            exact hInv.tokEq q c hq hc
          · obtain ⟨m, hmle, hres, hw, hr⟩ := hInv.resOrd
            refine ⟨m, hmle, hres, ?_, ?_⟩
            · intro th0 hth0
              rw [get?_set_self _ hth] at hth0
              injection hth0 with hth0
              rw [← hth0]
              show 4 ≤ th.pc + 1 ↔ R < m
              constructor
              · intro h4
                exact (hw th hth).mp (by omega)
              · intro hR
                have := (hw th hth).mpr hR
                omega
            · intro j2 th2 hj2
              rw [get?_set_ne (fun hh => Nat.succ_ne_zero j2 hh.symm) _] at hj2
              exact hr j2 th2 hj2
        next hrdy => cases h
      · -- writer tAcq: pc 1 → 2
        simp only [stepInstr] at h
        split at h
        next tl htl =>
          injection h with h
          subst h
          refine ⟨hstat1 _, ?_, ?_, ?_, hInv.tokLen, ?_, ?_⟩
          · intro j th2 hj
            rw [get?_set_ne (fun hh => Nat.succ_ne_zero j hh.symm) _] at hj
            exact hInv.shSync j th2 hj
          · intro th0 hth0 h1 th2 hj2
            rw [get?_set_ne (by omega) _] at hj2
            exact hInv.barW th hth (by omega) th2 hj2
          · intro th0 hth0 h3 j th2 hj
            rw [get?_set_self _ hth] at hth0
            injection hth0 with hth0
            exfalso
            rw [← hth0] at h3
            have h4 : (3 : Nat) ≤ th.pc + 1 := h3
            omega
          · intro q c hq hc
            rw [c7sent_set0 _ q, c7cons_set0 _ q]
            exact hInv.tokEq q c hq hc
          · obtain ⟨m, hmle, hres, hw, hr⟩ := hInv.resOrd
            refine ⟨m, hmle, hres, ?_, ?_⟩
            · intro th0 hth0
              rw [get?_set_self _ hth] at hth0
              injection hth0 with hth0
              rw [← hth0]
              show 4 ≤ th.pc + 1 ↔ R < m
              constructor
              · intro h4
                exact (hw th hth).mp (by omega)
              · intro hR
                have := (hw th hth).mpr hR
                omega
            · intro j2 th2 hj2
              rw [get?_set_ne (fun hh => Nat.succ_ne_zero j2 hh.symm) _] at hj2
              exact hr j2 th2 hj2
        next e htl => cases h
      · -- writer pAcq: pc 2 → 3, grants only after every reader released
        simp only [stepInstr] at h
        split at h
        next pl hpl =>
          split at h
          next hg =>
            injection h with h
            subst h
            obtain ⟨hlk, hcan, hpleq⟩ := rwAcquire_false_ok hpl
            rw [hpid] at hcan hpleq
            rw [htid] at hpleq
            have hnotCS : ∀ j th2, s.threads.get? (j + 1) = some th2 →
                ¬(3 ≤ th2.pc ∧ th2.pc ≤ 8) := by
              intro j th2 hj hcs
              have hsh := hInv.shSync j th2 hj
              rw [if_pos hcs] at hsh
              have hmem := alookup_mem hsh
              unfold canAcquire at hcan
              rw [List.all_eq_true] at hcan
              have h2 := hcan _ hmem
              simp [headCompat, Mode.compat] at h2
            have hchain : ∀ j th2, s.threads.get? (j + 1) = some th2 →
                9 ≤ th2.pc := by
              intro j
              induction j with
              | zero =>
                  intro th2 hj
                  have h3 := hInv.barW th hth (by omega) th2 hj
                  have h4 := hnotCS 0 th2 hj
                  omega
              | succ j ih =>
                  intro th2 hj
                  have hjR := (c7_stat_r hInv.stat hj).1
                  have hex : ∃ thp, s.threads.get? (j + 1) = some thp := by
                    cases hg2 : s.threads.get? (j + 1) with
                    | none =>
                        rw [List.get?_eq_none] at hg2
                        omega
                    | some thp => exact ⟨thp, rfl⟩
                  obtain ⟨thp, hthp⟩ := hex
                  have h9 := ih thp hthp
                  have htk : ∃ c, s.toks.get? (j + 2) = some c := by
                    cases hg2 : s.toks.get? (j + 2) with
                    | none =>
                        rw [List.get?_eq_none, hInv.tokLen] at hg2
                        omega
                    | some c => exact ⟨c, rfl⟩
                  obtain ⟨c, hc⟩ := htk
                  have heq := hInv.tokEq (j + 2) c (by omega) hc
                  have hpre : c7pre R (j + 2) = 0 := by
                    unfold c7pre
                    rw [if_neg (by omega)]
                  have hconsge : 1 ≤ c7cons R s.threads (j + 2) := by
                    unfold c7cons
                    rw [if_pos (by omega : 2 ≤ j + 2 ∧ j + 2 ≤ R + 1),
                      show j + 2 - 1 = j + 1 from rfl, flagGe_some hthp 8,
                      if_pos (by omega : 8 ≤ thp.pc)]
                    omega
                  have hsge : 1 ≤ c7sent R s.threads (j + 2) := by omega
                  unfold c7sent at hsge
                  rw [if_pos (by omega : 1 ≤ j + 2 ∧ j + 2 ≤ R),
                    flagGe_some hj 6, flagGe_some hj 7] at hsge
                  have h6 : 6 ≤ th2.pc := by
                    by_cases h6x : 6 ≤ th2.pc
                    · exact h6x
                    · rw [if_neg h6x, if_neg (by omega)] at hsge
                      omega
                  have h4 := hnotCS (j + 1) th2 hj
                  omega
            refine ⟨hstat1 _, ?_, ?_, ?_, hInv.tokLen, ?_, ?_⟩
            · intro j th2 hj
              rw [get?_set_ne (fun hh => Nat.succ_ne_zero j hh.symm) _] at hj
              have htid2 := (c7_stat_r hInv.stat hj).2.2.1
              have hne2 : th2.tid ≠ 0 := by omega
              show alookup th2.tid (getLed (aset th.pid pl s.pLeds) 0) = _
              rw [hpid, getLed_aset_self, hpleq, alookup_append_ne hne2 _ _]
              exact hInv.shSync j th2 hj
            · intro th0 hth0 h1 th2 hj2
              rw [get?_set_ne (by omega) _] at hj2
              exact hInv.barW th hth (by omega) th2 hj2
            · intro th0 hth0 h3 j th2 hj
              rw [get?_set_ne (fun hh => Nat.succ_ne_zero j hh.symm) _] at hj
              exact hchain j th2 hj
            · intro q c hq hc
              rw [c7sent_set0 _ q, c7cons_set0 _ q]
              exact hInv.tokEq q c hq hc
            · obtain ⟨m, hmle, hres, hw, hr⟩ := hInv.resOrd
              refine ⟨m, hmle, hres, ?_, ?_⟩
              · intro th0 hth0
                rw [get?_set_self _ hth] at hth0
                injection hth0 with hth0
                rw [← hth0]
                show 4 ≤ th.pc + 1 ↔ R < m
                constructor
                · intro h4
                  exact (hw th hth).mp (by omega)
                · intro hR
                  have := (hw th hth).mpr hR
                  omega
              · intro j2 th2 hj2
                rw [get?_set_ne (fun hh => Nat.succ_ne_zero j2 hh.symm) _] at hj2
                exact hr j2 th2 hj2
          next hg => cases h
        next e hpl => cases h
      · -- writer put: pc 3 → 4, its id R is enqueued, closing the range
        simp only [stepInstr] at h
        injection h with h
        subst h
        have hdone := hInv.exclW th hth (by omega)
        refine ⟨hstat1 _, ?_, ?_, ?_, hInv.tokLen, ?_, ?_⟩
        · intro j th2 hj
          rw [get?_set_ne (fun hh => Nat.succ_ne_zero j hh.symm) _] at hj
          exact hInv.shSync j th2 hj
        · intro th0 hth0 h1 th2 hj2
          rw [get?_set_ne (by omega) _] at hj2
          exact hInv.barW th hth (by omega) th2 hj2
        · intro th0 hth0 h3 j th2 hj
          rw [get?_set_ne (fun hh => Nat.succ_ne_zero j hh.symm) _] at hj
          exact hdone j th2 hj
        · intro q c hq hc
          rw [c7sent_set0 _ q, c7cons_set0 _ q]
          exact hInv.tokEq q c hq hc
        · obtain ⟨m, hmle, hres, hw, hr⟩ := hInv.resOrd
          have hmR : m = R := by
            have h1 : ¬(R < m) := by
              intro hRm
              have := (hw th hth).mpr hRm
              omega
            have h2 : ∀ j2, j2 < R → j2 < m := by
              intro j2 hj2
              have hex : ∃ th2, s.threads.get? (j2 + 1) = some th2 := by
                cases hg2 : s.threads.get? (j2 + 1) with
                | none =>
                    rw [List.get?_eq_none] at hg2
                    omega
                | some th2 => exact ⟨th2, rfl⟩
              obtain ⟨th2, hth2⟩ := hex
              exact (hr j2 th2 hth2).mp (by
                have := hdone j2 th2 hth2
                omega)
            by_cases hne : m = R
            · exact hne
            · exfalso
              have hmlt : m < R := by omega
              have := h2 m hmlt
              omega
          refine ⟨R + 1, by omega, ?_, ?_, ?_⟩
          · show s.results ++ [th.idv] = List.range (R + 1)
            rw [hres, hmR, hidv, List.range_succ]
          · intro th0 hth0
            rw [get?_set_self _ hth] at hth0
            injection hth0 with hth0
            rw [← hth0]
            show 4 ≤ th.pc + 1 ↔ R < R + 1
            constructor
            · intro h4
              omega
            · intro hR
              omega
          · intro j2 th2 hj2
            rw [get?_set_ne (fun hh => Nat.succ_ne_zero j2 hh.symm) _] at hj2
            constructor
            · intro h5
              have := (c7_stat_r hInv.stat hj2).1
              omega
            · intro hj2m
              have := hdone j2 th2 hj2
              omega
      · -- writer pRel: pc 4 → 5
        simp only [stepInstr] at h
        split at h
        next st hst =>
          injection h with h
          subst h
          refine ⟨hstat1 _, ?_, ?_, ?_, hInv.tokLen, ?_, ?_⟩
          · intro j th2 hj
            rw [get?_set_ne (fun hh => Nat.succ_ne_zero j hh.symm) _] at hj
            have htid2 := (c7_stat_r hInv.stat hj).2.2.1
            have hne2 : th2.tid ≠ 0 := by omega
            show alookup th2.tid
              (getLed (aset th.pid (rwRelease (getLed s.pLeds th.pid) th.tid)
                s.pLeds) 0) = _
            rw [hpid, htid, getLed_aset_self, alookup_rwRelease_ne hne2]
            exact hInv.shSync j th2 hj
          · intro th0 hth0 h1 th2 hj2
            rw [get?_set_ne (by omega) _] at hj2
            exact hInv.barW th hth (by omega) th2 hj2
          · intro th0 hth0 h3 j th2 hj
            rw [get?_set_ne (fun hh => Nat.succ_ne_zero j hh.symm) _] at hj
            exact hInv.exclW th hth (by omega) j th2 hj
          · intro q c hq hc
            rw [c7sent_set0 _ q, c7cons_set0 _ q]
            exact hInv.tokEq q c hq hc
          · obtain ⟨m, hmle, hres, hw, hr⟩ := hInv.resOrd
            refine ⟨m, hmle, hres, ?_, ?_⟩
            · intro th0 hth0
              rw [get?_set_self _ hth] at hth0
              injection hth0 with hth0
              rw [← hth0]
              show 4 ≤ th.pc + 1 ↔ R < m
              constructor
              · intro h4
                exact (hw th hth).mp (by omega)
              · intro hR
                have := (hw th hth).mpr hR
                omega
            · intro j2 th2 hj2
              rw [get?_set_ne (fun hh => Nat.succ_ne_zero j2 hh.symm) _] at hj2
              exact hr j2 th2 hj2
        next hst => cases h
      · -- writer tRel: pc 5 → 6
        simp only [stepInstr] at h
        split at h
        next st hst =>
          injection h with h
          subst h
          refine ⟨hstat1 _, ?_, ?_, ?_, hInv.tokLen, ?_, ?_⟩
          · intro j th2 hj
            rw [get?_set_ne (fun hh => Nat.succ_ne_zero j hh.symm) _] at hj
            exact hInv.shSync j th2 hj
          · intro th0 hth0 h1 th2 hj2
            rw [get?_set_ne (by omega) _] at hj2
            exact hInv.barW th hth (by omega) th2 hj2
          · intro th0 hth0 h3 j th2 hj
            rw [get?_set_ne (fun hh => Nat.succ_ne_zero j hh.symm) _] at hj
            exact hInv.exclW th hth (by omega) j th2 hj
          · intro q c hq hc
            rw [c7sent_set0 _ q, c7cons_set0 _ q]
            exact hInv.tokEq q c hq hc
          · obtain ⟨m, hmle, hres, hw, hr⟩ := hInv.resOrd
            refine ⟨m, hmle, hres, ?_, ?_⟩
            · intro th0 hth0
              rw [get?_set_self _ hth] at hth0
              injection hth0 with hth0
              rw [← hth0]
              show 4 ≤ th.pc + 1 ↔ R < m
              constructor
              · intro h4
                exact (hw th hth).mp (by omega)
              · intro hR
                have := (hw th hth).mpr hR
                omega
            · intro j2 th2 hj2
              rw [get?_set_ne (fun hh => Nat.succ_ne_zero j2 hh.symm) _] at hj2
              exact hr j2 th2 hj2
        next hst => cases h
  | succ j =>
      obtain ⟨hjn, hpid, htid, hidv, hprog⟩ := c7_stat_r hInv.stat hth
      rw [hprog] at hins
      have hstat1 : ∀ pc2 : Nat,
          (s.threads.set (j + 1) { th with pc := pc2 }).map
            (fun th2 => (th2.pid, th2.tid, th2.idv, th2.prog))
          = (0, 0, R, c7Writer)
            :: (List.range R).map (fun j2 => (0, j2 + 1, j2, c7Reader R j2)) := by
        intro pc2
        rw [@map_set_eq Th (Nat × Nat × Nat × List Instr) s.threads (j + 1) th
          ({ th with pc := pc2 })
          (fun th2 => (th2.pid, th2.tid, th2.idv, th2.prog)) hth rfl, hInv.stat]
      rcases c7Reader_get hins with ⟨hpc, rfl⟩ | ⟨hpc, rfl⟩ | ⟨hpc, rfl⟩
        | ⟨hpc, rfl⟩ | ⟨hpc, rfl⟩ | ⟨hpc, rfl⟩ | ⟨hpc, rfl⟩ | ⟨hpc, rfl⟩
        | ⟨hpc, rfl⟩ | ⟨hpc, rfl⟩
      · -- reader entry recv: pc 0 → 1
        simp only [stepInstr] at h
        split at h
        next c0 hc0 =>
          injection h with h
          subst h
          have hb6 : 6 ≤ ({ th with pc := th.pc + 1 } : Th).pc ↔ 6 ≤ th.pc := by
            show 6 ≤ th.pc + 1 ↔ 6 ≤ th.pc
            omega
          have hb7 : 7 ≤ ({ th with pc := th.pc + 1 } : Th).pc ↔ 7 ≤ th.pc := by
            show 7 ≤ th.pc + 1 ↔ 7 ≤ th.pc
            omega
          have hb8 : 8 ≤ ({ th with pc := th.pc + 1 } : Th).pc ↔ 8 ≤ th.pc := by
            show 8 ≤ th.pc + 1 ↔ 8 ≤ th.pc
            omega
          refine ⟨hstat1 _, ?_, ?_, ?_, ?_, ?_, ?_⟩
          · intro j2 th2 hj2
            by_cases hj2j : j2 = j
            · rw [hj2j, get?_set_self _ hth] at hj2
              injection hj2 with hj2
              subst hj2
              show alookup th.tid (getLed s.pLeds 0)
                = if 3 ≤ th.pc + 1 ∧ th.pc + 1 ≤ 8 then some [Mode.shared]
                  else none
              rw [hInv.shSync j th hth, hpc]
              rfl
            · rw [get?_set_ne (by omega) _] at hj2
              exact hInv.shSync j2 th2 hj2
          · intro th0 hth0 h1 th2 hj2
            rw [get?_set_ne (Nat.succ_ne_zero j) _] at hth0
            by_cases hj0b : j = 0
            · subst hj0b
              rw [Nat.zero_add] at hth hj2
              rw [get?_set_self _ hth] at hj2
              injection hj2 with hj2
              rw [← hj2]
              show 3 ≤ th.pc + 1
              have := hInv.barW th0 hth0 h1 th hth
              omega
            · rw [get?_set_ne (by omega) _] at hj2
              exact hInv.barW th0 hth0 h1 th2 hj2
          · intro th0 hth0 h3 j2 th2 hj2
            rw [get?_set_ne (Nat.succ_ne_zero j) _] at hth0
            have hprem := hInv.exclW th0 hth0 h3
            by_cases hj2j : j2 = j
            · rw [hj2j, get?_set_self _ hth] at hj2
              injection hj2 with hj2
              rw [← hj2]
              show 9 ≤ th.pc + 1
              have := hprem j th hth
              omega
            · rw [get?_set_ne (by omega) _] at hj2
              exact hprem j2 th2 hj2
          · show (s.toks.set j c0).length = R + 3
            rw [List.length_set]
            exact hInv.tokLen
          · intro q c hq hc
            by_cases hqj : q = j
            · rw [hqj, get?_set_self _ hc0] at hc
              injection hc with hc
              subst hc
              rw [hqj]
              have hold := hInv.tokEq j (c0 + 1) (by omega) hc0
              have hsent2 := c7sent_set (R := R) hth hb6 hb7 j
              have hbp : ({ th with pc := th.pc + 1 } : Th).pc = th.pc + 1 := rfl
              have hcons2 : c7cons R (s.threads.set (j + 1)
                  { th with pc := th.pc + 1 }) j
                  = c7cons R s.threads j + 1 := by
                unfold c7cons
                rw [flagGe_set_ne (by omega : j + 1 ≠ j - 1) _ 8,
                  flagGe_some (get?_set_self _ hth) 1, flagGe_some hth 1, hbp,
                  if_pos (show (1 : Nat) ≤ th.pc + 1 by omega),
                  if_neg (show ¬((1 : Nat) ≤ th.pc) by omega),
                  if_pos hjn, if_pos hjn]
                omega
              rw [hsent2, hcons2]
              omega
            · rw [get?_set_ne (fun hh => hqj hh.symm) _] at hc
              rw [c7sent_set hth hb6 hb7 q,
                c7cons_set_ne1 hth hb8 (by omega : q + 1 ≠ j + 1)]
              exact hInv.tokEq q c hq hc
          · obtain ⟨m, hmle, hres, hw, hr⟩ := hInv.resOrd
            refine ⟨m, hmle, hres, ?_, ?_⟩
            · intro th0 hth0
              rw [get?_set_ne (Nat.succ_ne_zero j) _] at hth0
              exact hw th0 hth0
            · intro j2 th2 hj2
              by_cases hj2j : j2 = j
              · rw [hj2j, get?_set_self _ hth] at hj2
                injection hj2 with hj2
                rw [← hj2, hj2j]
                show 5 ≤ th.pc + 1 ↔ j < m
                constructor
                · intro h5
                  exact (hr j th hth).mp (by omega)
                · intro hjm
                  have := (hr j th hth).mpr hjm
                  omega
              · rw [get?_set_ne (by omega) _] at hj2
                exact hr j2 th2 hj2
        all_goals cases h
      · -- reader tAcq: pc 1 → 2
        simp only [stepInstr] at h
        split at h
        next tl htl =>
          injection h with h
          subst h
          have hb1 : 1 ≤ ({ th with pc := th.pc + 1 } : Th).pc ↔ 1 ≤ th.pc := by
            show 1 ≤ th.pc + 1 ↔ 1 ≤ th.pc
            omega
          have hb6 : 6 ≤ ({ th with pc := th.pc + 1 } : Th).pc ↔ 6 ≤ th.pc := by
            show 6 ≤ th.pc + 1 ↔ 6 ≤ th.pc
            omega
          have hb7 : 7 ≤ ({ th with pc := th.pc + 1 } : Th).pc ↔ 7 ≤ th.pc := by
            show 7 ≤ th.pc + 1 ↔ 7 ≤ th.pc
            omega
          have hb8 : 8 ≤ ({ th with pc := th.pc + 1 } : Th).pc ↔ 8 ≤ th.pc := by
            show 8 ≤ th.pc + 1 ↔ 8 ≤ th.pc
            omega
          refine ⟨hstat1 _, ?_, ?_, ?_, hInv.tokLen, ?_, ?_⟩
          · intro j2 th2 hj2
            by_cases hj2j : j2 = j
            · rw [hj2j, get?_set_self _ hth] at hj2
              injection hj2 with hj2
              subst hj2
              show alookup th.tid (getLed s.pLeds 0)
                = if 3 ≤ th.pc + 1 ∧ th.pc + 1 ≤ 8 then some [Mode.shared]
                  else none
              rw [hInv.shSync j th hth, hpc]
              rfl
            · rw [get?_set_ne (by omega) _] at hj2
              exact hInv.shSync j2 th2 hj2
          · intro th0 hth0 h1 th2 hj2
            rw [get?_set_ne (Nat.succ_ne_zero j) _] at hth0
            by_cases hj0b : j = 0
            · subst hj0b
              rw [Nat.zero_add] at hth hj2
              rw [get?_set_self _ hth] at hj2
              injection hj2 with hj2
              rw [← hj2]
              show 3 ≤ th.pc + 1
              have := hInv.barW th0 hth0 h1 th hth
              omega
            · rw [get?_set_ne (by omega) _] at hj2
              exact hInv.barW th0 hth0 h1 th2 hj2
          · intro th0 hth0 h3 j2 th2 hj2
            rw [get?_set_ne (Nat.succ_ne_zero j) _] at hth0
            have hprem := hInv.exclW th0 hth0 h3
            by_cases hj2j : j2 = j
            · rw [hj2j, get?_set_self _ hth] at hj2
              injection hj2 with hj2
              rw [← hj2]
              show 9 ≤ th.pc + 1
              have := hprem j th hth
              omega
            · rw [get?_set_ne (by omega) _] at hj2
              exact hprem j2 th2 hj2
          · intro q c hq hc
            rw [c7sent_set hth hb6 hb7 q, c7cons_set hth hb1 hb8 q]
            exact hInv.tokEq q c hq hc
          · obtain ⟨m, hmle, hres, hw, hr⟩ := hInv.resOrd
            refine ⟨m, hmle, hres, ?_, ?_⟩
            · intro th0 hth0
              rw [get?_set_ne (Nat.succ_ne_zero j) _] at hth0
              exact hw th0 hth0
            · intro j2 th2 hj2
              by_cases hj2j : j2 = j
              · rw [hj2j, get?_set_self _ hth] at hj2
                injection hj2 with hj2
                rw [← hj2, hj2j]
                show 5 ≤ th.pc + 1 ↔ j < m
                constructor
                · intro h5
                  exact (hr j th hth).mp (by omega)
                · intro hjm
                  have := (hr j th hth).mpr hjm
                  omega
              · rw [get?_set_ne (by omega) _] at hj2
                exact hr j2 th2 hj2
        next e htl => cases h
      · -- reader pAcq: pc 2 → 3
        simp only [stepInstr] at h
        split at h
        next pl hpl =>
          split at h
          next hg =>
            injection h with h
            subst h
            have hb1 : 1 ≤ ({ th with pc := th.pc + 1 } : Th).pc ↔ 1 ≤ th.pc := by
              show 1 ≤ th.pc + 1 ↔ 1 ≤ th.pc
              omega
            have hb6 : 6 ≤ ({ th with pc := th.pc + 1 } : Th).pc ↔ 6 ≤ th.pc := by
              show 6 ≤ th.pc + 1 ↔ 6 ≤ th.pc
              omega
            have hb7 : 7 ≤ ({ th with pc := th.pc + 1 } : Th).pc ↔ 7 ≤ th.pc := by
              show 7 ≤ th.pc + 1 ↔ 7 ≤ th.pc
              omega
            have hb8 : 8 ≤ ({ th with pc := th.pc + 1 } : Th).pc ↔ 8 ≤ th.pc := by
              show 8 ≤ th.pc + 1 ↔ 8 ≤ th.pc
              omega
            obtain ⟨hlk, hcan, hpleq⟩ := rwAcquire_false_ok hpl
            rw [hpid] at hlk hpleq
            rw [htid] at hlk hpleq
            refine ⟨hstat1 _, ?_, ?_, ?_, hInv.tokLen, ?_, ?_⟩
            · intro j2 th2 hj2
              by_cases hj2j : j2 = j
              · rw [hj2j, get?_set_self _ hth] at hj2
                injection hj2 with hj2
                subst hj2
                show alookup th.tid (getLed (aset th.pid pl s.pLeds) 0)
                  = if 3 ≤ th.pc + 1 ∧ th.pc + 1 ≤ 8 then some [Mode.shared]
                    else none
                rw [hpid, htid, getLed_aset_self, hpleq,
                  alookup_append_absent hlk _, hpc]
                rfl
              · rw [get?_set_ne (by omega) _] at hj2
                have htid2 := (c7_stat_r hInv.stat hj2).2.2.1
                have hne2 : th2.tid ≠ j + 1 := by omega
                show alookup th2.tid (getLed (aset th.pid pl s.pLeds) 0) = _
                rw [hpid, getLed_aset_self, hpleq, alookup_append_ne hne2 _ _]
                exact hInv.shSync j2 th2 hj2
            · intro th0 hth0 h1 th2 hj2
              rw [get?_set_ne (Nat.succ_ne_zero j) _] at hth0
              by_cases hj0b : j = 0
              · subst hj0b
                rw [Nat.zero_add] at hth hj2
                rw [get?_set_self _ hth] at hj2
                injection hj2 with hj2
                rw [← hj2]
                show 3 ≤ th.pc + 1
                have := hInv.barW th0 hth0 h1 th hth
                omega
              · rw [get?_set_ne (by omega) _] at hj2
                exact hInv.barW th0 hth0 h1 th2 hj2
            · intro th0 hth0 h3 j2 th2 hj2
              rw [get?_set_ne (Nat.succ_ne_zero j) _] at hth0
              have hprem := hInv.exclW th0 hth0 h3
              by_cases hj2j : j2 = j
              · rw [hj2j, get?_set_self _ hth] at hj2
                injection hj2 with hj2
                rw [← hj2]
                show 9 ≤ th.pc + 1
                have := hprem j th hth
                omega
              · rw [get?_set_ne (by omega) _] at hj2
                exact hprem j2 th2 hj2
            · intro q c hq hc
              rw [c7sent_set hth hb6 hb7 q, c7cons_set hth hb1 hb8 q]
              exact hInv.tokEq q c hq hc
            · obtain ⟨m, hmle, hres, hw, hr⟩ := hInv.resOrd
              refine ⟨m, hmle, hres, ?_, ?_⟩
              · intro th0 hth0
                rw [get?_set_ne (Nat.succ_ne_zero j) _] at hth0
                exact hw th0 hth0
              · intro j2 th2 hj2
                by_cases hj2j : j2 = j
                · rw [hj2j, get?_set_self _ hth] at hj2
                  injection hj2 with hj2
                  rw [← hj2, hj2j]
                  show 5 ≤ th.pc + 1 ↔ j < m
                  constructor
                  · intro h5
                    exact (hr j th hth).mp (by omega)
                  · intro hjm
                    have := (hr j th hth).mpr hjm
                    omega
                · rw [get?_set_ne (by omega) _] at hj2
                  exact hr j2 th2 hj2
          next hg => cases h
        next e hpl => cases h
      · -- reader barrier (first reader) or dummy send: pc 3 → 4
        by_cases hj0 : j = 0
        · rw [if_pos hj0] at h
          simp only [stepInstr] at h
          split at h
          next hrdy =>
            injection h with h
            subst h
            have hb1 : 1 ≤ ({ th with pc := th.pc + 1 } : Th).pc ↔ 1 ≤ th.pc := by
              show 1 ≤ th.pc + 1 ↔ 1 ≤ th.pc
              omega
            have hb6 : 6 ≤ ({ th with pc := th.pc + 1 } : Th).pc ↔ 6 ≤ th.pc := by
              show 6 ≤ th.pc + 1 ↔ 6 ≤ th.pc
              omega
            have hb7 : 7 ≤ ({ th with pc := th.pc + 1 } : Th).pc ↔ 7 ≤ th.pc := by
              show 7 ≤ th.pc + 1 ↔ 7 ≤ th.pc
              omega
            have hb8 : 8 ≤ ({ th with pc := th.pc + 1 } : Th).pc ↔ 8 ≤ th.pc := by
              show 8 ≤ th.pc + 1 ↔ 8 ≤ th.pc
              omega
            refine ⟨hstat1 _, ?_, ?_, ?_, hInv.tokLen, ?_, ?_⟩
            · intro j2 th2 hj2
              by_cases hj2j : j2 = j
              · rw [hj2j, get?_set_self _ hth] at hj2
                injection hj2 with hj2
                subst hj2
                show alookup th.tid (getLed s.pLeds 0)
                  = if 3 ≤ th.pc + 1 ∧ th.pc + 1 ≤ 8 then some [Mode.shared]
                    else none
                rw [hInv.shSync j th hth, hpc]
                rfl
              · rw [get?_set_ne (by omega) _] at hj2
                exact hInv.shSync j2 th2 hj2
            · intro th0 hth0 h1 th2 hj2
              rw [get?_set_ne (Nat.succ_ne_zero j) _] at hth0
              by_cases hj0b : j = 0
              · subst hj0b
                rw [Nat.zero_add] at hth hj2
                rw [get?_set_self _ hth] at hj2
                injection hj2 with hj2
                rw [← hj2]
                show 3 ≤ th.pc + 1
                have := hInv.barW th0 hth0 h1 th hth
                omega
              · rw [get?_set_ne (by omega) _] at hj2
                exact hInv.barW th0 hth0 h1 th2 hj2
            · intro th0 hth0 h3 j2 th2 hj2
              rw [get?_set_ne (Nat.succ_ne_zero j) _] at hth0
              have hprem := hInv.exclW th0 hth0 h3
              by_cases hj2j : j2 = j
              · rw [hj2j, get?_set_self _ hth] at hj2
                injection hj2 with hj2
                rw [← hj2]
                show 9 ≤ th.pc + 1
                have := hprem j th hth
                omega
              · rw [get?_set_ne (by omega) _] at hj2
                exact hprem j2 th2 hj2
            · intro q c hq hc
              rw [c7sent_set hth hb6 hb7 q, c7cons_set hth hb1 hb8 q]
              exact hInv.tokEq q c hq hc
            · obtain ⟨m, hmle, hres, hw, hr⟩ := hInv.resOrd
              refine ⟨m, hmle, hres, ?_, ?_⟩
              · intro th0 hth0
                rw [get?_set_ne (Nat.succ_ne_zero j) _] at hth0
                exact hw th0 hth0
              · intro j2 th2 hj2
                by_cases hj2j : j2 = j
                · rw [hj2j, get?_set_self _ hth] at hj2
                  injection hj2 with hj2
                  rw [← hj2, hj2j]
                  show 5 ≤ th.pc + 1 ↔ j < m
                  constructor
                  · intro h5
                    exact (hr j th hth).mp (by omega)
                  · intro hjm
                    have := (hr j th hth).mpr hjm
                    omega
                · rw [get?_set_ne (by omega) _] at hj2
                  exact hr j2 th2 hj2
          next hrdy => cases h
        · rw [if_neg hj0] at h
          simp only [stepInstr] at h
          split at h
          next c0 hc0 =>
            injection h with h
            subst h
            have hb1 : 1 ≤ ({ th with pc := th.pc + 1 } : Th).pc ↔ 1 ≤ th.pc := by
              show 1 ≤ th.pc + 1 ↔ 1 ≤ th.pc
              omega
            have hb6 : 6 ≤ ({ th with pc := th.pc + 1 } : Th).pc ↔ 6 ≤ th.pc := by
              show 6 ≤ th.pc + 1 ↔ 6 ≤ th.pc
              omega
            have hb7 : 7 ≤ ({ th with pc := th.pc + 1 } : Th).pc ↔ 7 ≤ th.pc := by
              show 7 ≤ th.pc + 1 ↔ 7 ≤ th.pc
              omega
            have hb8 : 8 ≤ ({ th with pc := th.pc + 1 } : Th).pc ↔ 8 ≤ th.pc := by
              show 8 ≤ th.pc + 1 ↔ 8 ≤ th.pc
              omega
            refine ⟨hstat1 _, ?_, ?_, ?_, ?_, ?_, ?_⟩
            · intro j2 th2 hj2
              by_cases hj2j : j2 = j
              · rw [hj2j, get?_set_self _ hth] at hj2
                injection hj2 with hj2
                subst hj2
                show alookup th.tid (getLed s.pLeds 0)
                  = if 3 ≤ th.pc + 1 ∧ th.pc + 1 ≤ 8 then some [Mode.shared]
                    else none
                rw [hInv.shSync j th hth, hpc]
                rfl
              · rw [get?_set_ne (by omega) _] at hj2
                exact hInv.shSync j2 th2 hj2
            · intro th0 hth0 h1 th2 hj2
              rw [get?_set_ne (Nat.succ_ne_zero j) _] at hth0
              by_cases hj0b : j = 0
              · subst hj0b
                rw [Nat.zero_add] at hth hj2
                rw [get?_set_self _ hth] at hj2
                injection hj2 with hj2
                rw [← hj2]
                show 3 ≤ th.pc + 1
                have := hInv.barW th0 hth0 h1 th hth
                omega
              · rw [get?_set_ne (by omega) _] at hj2
                exact hInv.barW th0 hth0 h1 th2 hj2
            · intro th0 hth0 h3 j2 th2 hj2
              rw [get?_set_ne (Nat.succ_ne_zero j) _] at hth0
              have hprem := hInv.exclW th0 hth0 h3
              by_cases hj2j : j2 = j
              · rw [hj2j, get?_set_self _ hth] at hj2
                injection hj2 with hj2
                rw [← hj2]
                show 9 ≤ th.pc + 1
                have := hprem j th hth
                omega
              · rw [get?_set_ne (by omega) _] at hj2
                exact hprem j2 th2 hj2
            · show (s.toks.set (R + 2) (c0 + 1)).length = R + 3
              rw [List.length_set]
              exact hInv.tokLen
            · intro q c hq hc
              rw [get?_set_ne (by omega) _] at hc
              rw [c7sent_set hth hb6 hb7 q, c7cons_set hth hb1 hb8 q]
              exact hInv.tokEq q c hq hc
            · obtain ⟨m, hmle, hres, hw, hr⟩ := hInv.resOrd
              refine ⟨m, hmle, hres, ?_, ?_⟩
              · intro th0 hth0
                rw [get?_set_ne (Nat.succ_ne_zero j) _] at hth0
                exact hw th0 hth0
              · intro j2 th2 hj2
                by_cases hj2j : j2 = j
                · rw [hj2j, get?_set_self _ hth] at hj2
                  injection hj2 with hj2
                  rw [← hj2, hj2j]
                  show 5 ≤ th.pc + 1 ↔ j < m
                  constructor
                  · intro h5
                    exact (hr j th hth).mp (by omega)
                  · intro hjm
                    have := (hr j th hth).mpr hjm
                    omega
                · rw [get?_set_ne (by omega) _] at hj2
                  exact hr j2 th2 hj2
          all_goals cases h
      · -- reader put: pc 4 → 5, its id j is enqueued in chain order
        simp only [stepInstr] at h
        injection h with h
        subst h
        have hb1 : 1 ≤ ({ th with pc := th.pc + 1 } : Th).pc ↔ 1 ≤ th.pc := by
          show 1 ≤ th.pc + 1 ↔ 1 ≤ th.pc
          omega
        have hb6 : 6 ≤ ({ th with pc := th.pc + 1 } : Th).pc ↔ 6 ≤ th.pc := by
          show 6 ≤ th.pc + 1 ↔ 6 ≤ th.pc
          omega
        have hb7 : 7 ≤ ({ th with pc := th.pc + 1 } : Th).pc ↔ 7 ≤ th.pc := by
          show 7 ≤ th.pc + 1 ↔ 7 ≤ th.pc
          omega
        have hb8 : 8 ≤ ({ th with pc := th.pc + 1 } : Th).pc ↔ 8 ≤ th.pc := by
          show 8 ≤ th.pc + 1 ↔ 8 ≤ th.pc
          omega
        refine ⟨hstat1 _, ?_, ?_, ?_, hInv.tokLen, ?_, ?_⟩
        · intro j2 th2 hj2
          by_cases hj2j : j2 = j
          · rw [hj2j, get?_set_self _ hth] at hj2
            injection hj2 with hj2
            subst hj2
            show alookup th.tid (getLed s.pLeds 0)
              = if 3 ≤ th.pc + 1 ∧ th.pc + 1 ≤ 8 then some [Mode.shared]
                else none
            rw [hInv.shSync j th hth, hpc]
            rfl
          · rw [get?_set_ne (by omega) _] at hj2
            exact hInv.shSync j2 th2 hj2
        · intro th0 hth0 h1 th2 hj2
          rw [get?_set_ne (Nat.succ_ne_zero j) _] at hth0
          by_cases hj0b : j = 0
          · subst hj0b
            rw [Nat.zero_add] at hth hj2
            rw [get?_set_self _ hth] at hj2
            injection hj2 with hj2
            rw [← hj2]
            show 3 ≤ th.pc + 1
            have := hInv.barW th0 hth0 h1 th hth
            omega
          · rw [get?_set_ne (by omega) _] at hj2
            exact hInv.barW th0 hth0 h1 th2 hj2
        · intro th0 hth0 h3 j2 th2 hj2
          rw [get?_set_ne (Nat.succ_ne_zero j) _] at hth0
          have hprem := hInv.exclW th0 hth0 h3
          by_cases hj2j : j2 = j
          · rw [hj2j, get?_set_self _ hth] at hj2
            injection hj2 with hj2
            rw [← hj2]
            show 9 ≤ th.pc + 1
            have := hprem j th hth
            omega
          · rw [get?_set_ne (by omega) _] at hj2
            exact hprem j2 th2 hj2
        · intro q c hq hc
          rw [c7sent_set hth hb6 hb7 q, c7cons_set hth hb1 hb8 q]
          exact hInv.tokEq q c hq hc
        · obtain ⟨m, hmle, hres, hw, hr⟩ := hInv.resOrd
          have hmj : m = j := by
            have h1 : ¬(j < m) := by
              intro hjm
              have := (hr j th hth).mpr hjm
              omega
            by_cases hj0 : j = 0
            · omega
            · have htk : ∃ c2, s.toks.get? j = some c2 := by
                cases hg2 : s.toks.get? j with
                | none =>
                    rw [List.get?_eq_none, hInv.tokLen] at hg2
                    omega
                | some c2 => exact ⟨c2, rfl⟩
              obtain ⟨c2, hc2⟩ := htk
              have heq := hInv.tokEq j c2 (by omega) hc2
              have hpre : c7pre R j = 0 := by
                unfold c7pre
                rw [if_neg (by omega)]
              have hconsge : 1 ≤ c7cons R s.threads j := by
                unfold c7cons
                rw [if_pos hjn, flagGe_some hth 1,
                  if_pos (show (1 : Nat) ≤ th.pc by omega)]
                omega
              have hsge : 1 ≤ c7sent R s.threads j := by omega
              obtain ⟨thp, hthp⟩ : ∃ thp, s.threads.get? j = some thp := by
                cases hg2 : s.threads.get? j with
                | none =>
                    rw [List.get?_eq_none] at hg2
                    omega
                | some thp => exact ⟨thp, rfl⟩
              unfold c7sent at hsge
              rw [if_pos (by omega : 1 ≤ j ∧ j ≤ R), flagGe_some hthp 6,
                flagGe_some hthp 7] at hsge
              have h6 : 6 ≤ thp.pc := by
                by_cases h6x : 6 ≤ thp.pc
                · exact h6x
                · rw [if_neg h6x, if_neg (by omega)] at hsge
                  omega
              have hthp2 : s.threads.get? (j - 1 + 1) = some thp := by
                rw [show j - 1 + 1 = j from by omega]
                exact hthp
              have := (hr (j - 1) thp hthp2).mp (by omega)
              omega
          refine ⟨m + 1, by omega, ?_, ?_, ?_⟩
          · show s.results ++ [th.idv] = List.range (m + 1)
            rw [hres, hidv, hmj, List.range_succ]
          · intro th0 hth0
            rw [get?_set_ne (Nat.succ_ne_zero j) _] at hth0
            constructor
            · intro h4
              exfalso
              have := hInv.exclW th0 hth0 (by omega) j th hth
              omega
            · intro hR
              exfalso
              omega
          · intro j2 th2 hj2
            by_cases hj2j : j2 = j
            · rw [hj2j, get?_set_self _ hth] at hj2
              injection hj2 with hj2
              rw [← hj2, hj2j]
              show 5 ≤ th.pc + 1 ↔ j < m + 1
              constructor
              · intro h5
                omega
              · intro hx
                omega
            · rw [get?_set_ne (by omega) _] at hj2
              have hold := hr j2 th2 hj2
              constructor
              · intro h5
                have := hold.mp h5
                omega
              · intro hx
                exact hold.mpr (by omega)
      · -- reader first notify send: pc 5 → 6
        simp only [stepInstr] at h
        split at h
        next c0 hc0 =>
          injection h with h
          subst h
          have hb1 : 1 ≤ ({ th with pc := th.pc + 1 } : Th).pc ↔ 1 ≤ th.pc := by
            show 1 ≤ th.pc + 1 ↔ 1 ≤ th.pc
            omega
          have hb7 : 7 ≤ ({ th with pc := th.pc + 1 } : Th).pc ↔ 7 ≤ th.pc := by
            show 7 ≤ th.pc + 1 ↔ 7 ≤ th.pc
            omega
          have hb8 : 8 ≤ ({ th with pc := th.pc + 1 } : Th).pc ↔ 8 ≤ th.pc := by
            show 8 ≤ th.pc + 1 ↔ 8 ≤ th.pc
            omega
          refine ⟨hstat1 _, ?_, ?_, ?_, ?_, ?_, ?_⟩
          · intro j2 th2 hj2
            by_cases hj2j : j2 = j
            · rw [hj2j, get?_set_self _ hth] at hj2
              injection hj2 with hj2
              subst hj2
              show alookup th.tid (getLed s.pLeds 0)
                = if 3 ≤ th.pc + 1 ∧ th.pc + 1 ≤ 8 then some [Mode.shared]
                  else none
              rw [hInv.shSync j th hth, hpc]
              rfl
            · rw [get?_set_ne (by omega) _] at hj2
              exact hInv.shSync j2 th2 hj2
          · intro th0 hth0 h1 th2 hj2
            rw [get?_set_ne (Nat.succ_ne_zero j) _] at hth0
            by_cases hj0b : j = 0
            · subst hj0b
              rw [Nat.zero_add] at hth hj2
              rw [get?_set_self _ hth] at hj2
              injection hj2 with hj2
              rw [← hj2]
              show 3 ≤ th.pc + 1
              have := hInv.barW th0 hth0 h1 th hth
              omega
            · rw [get?_set_ne (by omega) _] at hj2
              exact hInv.barW th0 hth0 h1 th2 hj2
          · intro th0 hth0 h3 j2 th2 hj2
            rw [get?_set_ne (Nat.succ_ne_zero j) _] at hth0
            have hprem := hInv.exclW th0 hth0 h3
            by_cases hj2j : j2 = j
            · rw [hj2j, get?_set_self _ hth] at hj2
              injection hj2 with hj2
              rw [← hj2]
              show 9 ≤ th.pc + 1
              have := hprem j th hth
              omega
            · rw [get?_set_ne (by omega) _] at hj2
              exact hprem j2 th2 hj2
          · show (s.toks.set (j + 1) (c0 + 1)).length = R + 3
            rw [List.length_set]
            exact hInv.tokLen
          · intro q c hq hc
            by_cases hqj : q = j + 1
            · rw [hqj, get?_set_self _ hc0] at hc
              injection hc with hc
              subst hc
              rw [hqj]
              have hold := hInv.tokEq (j + 1) c0 (by omega) hc0
              have hcons2 := c7cons_set (R := R) hth hb1 hb8 (j + 1)
              have hbp : ({ th with pc := th.pc + 1 } : Th).pc = th.pc + 1 := rfl
              have hsent2 : c7sent R (s.threads.set (j + 1)
                  { th with pc := th.pc + 1 }) (j + 1)
                  = c7sent R s.threads (j + 1) + 1 := by
                unfold c7sent
                rw [flagGe_some (get?_set_self _ hth) 6,
                  flagGe_some (get?_set_self _ hth) 7,
                  flagGe_some hth 6, flagGe_some hth 7, hbp,
                  if_pos (show (6 : Nat) ≤ th.pc + 1 by omega),
                  if_neg (show ¬((7 : Nat) ≤ th.pc + 1) by omega),
                  if_neg (show ¬((6 : Nat) ≤ th.pc) by omega),
                  if_neg (show ¬((7 : Nat) ≤ th.pc) by omega),
                  if_pos (by omega : 1 ≤ j + 1 ∧ j + 1 ≤ R),
                  if_pos (by omega : 1 ≤ j + 1 ∧ j + 1 ≤ R)]
              rw [hsent2, hcons2]
              omega
            · rw [get?_set_ne (fun hh => hqj hh.symm) _] at hc
              rw [c7sent_set_ne _ hqj, c7cons_set hth hb1 hb8 q]
              exact hInv.tokEq q c hq hc
          · obtain ⟨m, hmle, hres, hw, hr⟩ := hInv.resOrd
            refine ⟨m, hmle, hres, ?_, ?_⟩
            · intro th0 hth0
              rw [get?_set_ne (Nat.succ_ne_zero j) _] at hth0
              exact hw th0 hth0
            · intro j2 th2 hj2
              by_cases hj2j : j2 = j
              · rw [hj2j, get?_set_self _ hth] at hj2
                injection hj2 with hj2
                rw [← hj2, hj2j]
                show 5 ≤ th.pc + 1 ↔ j < m
                constructor
                · intro h5
                  exact (hr j th hth).mp (by omega)
                · intro hjm
                  have := (hr j th hth).mpr hjm
                  omega
              · rw [get?_set_ne (by omega) _] at hj2
                exact hr j2 th2 hj2
        all_goals cases h
      · -- reader second notify send: pc 6 → 7
        simp only [stepInstr] at h
        split at h
        next c0 hc0 =>
          injection h with h
          subst h
          have hb1 : 1 ≤ ({ th with pc := th.pc + 1 } : Th).pc ↔ 1 ≤ th.pc := by
            show 1 ≤ th.pc + 1 ↔ 1 ≤ th.pc
            omega
          have hb6 : 6 ≤ ({ th with pc := th.pc + 1 } : Th).pc ↔ 6 ≤ th.pc := by
            show 6 ≤ th.pc + 1 ↔ 6 ≤ th.pc
            omega
          have hb8 : 8 ≤ ({ th with pc := th.pc + 1 } : Th).pc ↔ 8 ≤ th.pc := by
            show 8 ≤ th.pc + 1 ↔ 8 ≤ th.pc
            omega
          refine ⟨hstat1 _, ?_, ?_, ?_, ?_, ?_, ?_⟩
          · intro j2 th2 hj2
            by_cases hj2j : j2 = j
            · rw [hj2j, get?_set_self _ hth] at hj2
              injection hj2 with hj2
              subst hj2
              show alookup th.tid (getLed s.pLeds 0)
                = if 3 ≤ th.pc + 1 ∧ th.pc + 1 ≤ 8 then some [Mode.shared]
                  else none
              rw [hInv.shSync j th hth, hpc]
              rfl
            · rw [get?_set_ne (by omega) _] at hj2
              exact hInv.shSync j2 th2 hj2
          · intro th0 hth0 h1 th2 hj2
            rw [get?_set_ne (Nat.succ_ne_zero j) _] at hth0
            by_cases hj0b : j = 0
            · subst hj0b
              rw [Nat.zero_add] at hth hj2
              rw [get?_set_self _ hth] at hj2
              injection hj2 with hj2
              rw [← hj2]
              show 3 ≤ th.pc + 1
              have := hInv.barW th0 hth0 h1 th hth
              omega
            · rw [get?_set_ne (by omega) _] at hj2
              exact hInv.barW th0 hth0 h1 th2 hj2
          · intro th0 hth0 h3 j2 th2 hj2
            rw [get?_set_ne (Nat.succ_ne_zero j) _] at hth0
            have hprem := hInv.exclW th0 hth0 h3
            by_cases hj2j : j2 = j
            · rw [hj2j, get?_set_self _ hth] at hj2
              injection hj2 with hj2
              rw [← hj2]
              show 9 ≤ th.pc + 1
              have := hprem j th hth
              omega
            · rw [get?_set_ne (by omega) _] at hj2
              exact hprem j2 th2 hj2
          · show (s.toks.set (j + 1) (c0 + 1)).length = R + 3
            rw [List.length_set]
            exact hInv.tokLen
          · intro q c hq hc
            by_cases hqj : q = j + 1
            · rw [hqj, get?_set_self _ hc0] at hc
              injection hc with hc
              subst hc
              rw [hqj]
              have hold := hInv.tokEq (j + 1) c0 (by omega) hc0
              have hcons2 := c7cons_set (R := R) hth hb1 hb8 (j + 1)
              have hbp : ({ th with pc := th.pc + 1 } : Th).pc = th.pc + 1 := rfl
              have hsent2 : c7sent R (s.threads.set (j + 1)
                  { th with pc := th.pc + 1 }) (j + 1)
                  = c7sent R s.threads (j + 1) + 1 := by
                unfold c7sent
                rw [flagGe_some (get?_set_self _ hth) 6,
                  flagGe_some (get?_set_self _ hth) 7,
                  flagGe_some hth 6, flagGe_some hth 7, hbp,
                  if_pos (show (6 : Nat) ≤ th.pc + 1 by omega),
                  if_pos (show (7 : Nat) ≤ th.pc + 1 by omega),
                  if_pos (show (6 : Nat) ≤ th.pc by omega),
                  if_neg (show ¬((7 : Nat) ≤ th.pc) by omega),
                  if_pos (by omega : 1 ≤ j + 1 ∧ j + 1 ≤ R),
                  if_pos (by omega : 1 ≤ j + 1 ∧ j + 1 ≤ R)]
              rw [hsent2, hcons2]
              omega
            · rw [get?_set_ne (fun hh => hqj hh.symm) _] at hc
              rw [c7sent_set_ne _ hqj, c7cons_set hth hb1 hb8 q]
              exact hInv.tokEq q c hq hc
          · obtain ⟨m, hmle, hres, hw, hr⟩ := hInv.resOrd
            refine ⟨m, hmle, hres, ?_, ?_⟩
            · intro th0 hth0
              rw [get?_set_ne (Nat.succ_ne_zero j) _] at hth0
              exact hw th0 hth0
            · intro j2 th2 hj2
              by_cases hj2j : j2 = j
              · rw [hj2j, get?_set_self _ hth] at hj2
                injection hj2 with hj2
                rw [← hj2, hj2j]
                show 5 ≤ th.pc + 1 ↔ j < m
                constructor
                · intro h5
                  exact (hr j th hth).mp (by omega)
                · intro hjm
                  have := (hr j th hth).mpr hjm
                  omega
              · rw [get?_set_ne (by omega) _] at hj2
                exact hr j2 th2 hj2
        all_goals cases h
      · -- reader exit recv: pc 7 → 8
        simp only [stepInstr] at h
        split at h
        next c0 hc0 =>
          injection h with h
          subst h
          have hb1 : 1 ≤ ({ th with pc := th.pc + 1 } : Th).pc ↔ 1 ≤ th.pc := by
            show 1 ≤ th.pc + 1 ↔ 1 ≤ th.pc
            omega
          have hb6 : 6 ≤ ({ th with pc := th.pc + 1 } : Th).pc ↔ 6 ≤ th.pc := by
            show 6 ≤ th.pc + 1 ↔ 6 ≤ th.pc
            omega
          have hb7 : 7 ≤ ({ th with pc := th.pc + 1 } : Th).pc ↔ 7 ≤ th.pc := by
            show 7 ≤ th.pc + 1 ↔ 7 ≤ th.pc
            omega
          refine ⟨hstat1 _, ?_, ?_, ?_, ?_, ?_, ?_⟩
          · intro j2 th2 hj2
            by_cases hj2j : j2 = j
            · rw [hj2j, get?_set_self _ hth] at hj2
              injection hj2 with hj2
              subst hj2
              show alookup th.tid (getLed s.pLeds 0)
                = if 3 ≤ th.pc + 1 ∧ th.pc + 1 ≤ 8 then some [Mode.shared]
                  else none
              rw [hInv.shSync j th hth, hpc]
              rfl
            · rw [get?_set_ne (by omega) _] at hj2
              exact hInv.shSync j2 th2 hj2
          · intro th0 hth0 h1 th2 hj2
            rw [get?_set_ne (Nat.succ_ne_zero j) _] at hth0
            by_cases hj0b : j = 0
            · subst hj0b
              rw [Nat.zero_add] at hth hj2
              rw [get?_set_self _ hth] at hj2
              injection hj2 with hj2
              rw [← hj2]
              show 3 ≤ th.pc + 1
              have := hInv.barW th0 hth0 h1 th hth
              omega
            · rw [get?_set_ne (by omega) _] at hj2
              exact hInv.barW th0 hth0 h1 th2 hj2
          · intro th0 hth0 h3 j2 th2 hj2
            rw [get?_set_ne (Nat.succ_ne_zero j) _] at hth0
            have hprem := hInv.exclW th0 hth0 h3
            by_cases hj2j : j2 = j
            · rw [hj2j, get?_set_self _ hth] at hj2
              injection hj2 with hj2
              rw [← hj2]
              show 9 ≤ th.pc + 1
              have := hprem j th hth
              omega
            · rw [get?_set_ne (by omega) _] at hj2
              exact hprem j2 th2 hj2
          · show (s.toks.set (j + 2) c0).length = R + 3
            rw [List.length_set]
            exact hInv.tokLen
          · intro q c hq hc
            by_cases hqj : q = j + 2
            · rw [hqj, get?_set_self _ hc0] at hc
              injection hc with hc
              subst hc
              rw [hqj]
              have hq2 : j + 2 ≤ R + 1 := by omega
              have hold := hInv.tokEq (j + 2) (c0 + 1) hq2 hc0
              have hsent2 := c7sent_set (R := R) hth hb6 hb7 (j + 2)
              have hbp : ({ th with pc := th.pc + 1 } : Th).pc = th.pc + 1 := rfl
              have hcons2 : c7cons R (s.threads.set (j + 1)
                  { th with pc := th.pc + 1 }) (j + 2)
                  = c7cons R s.threads (j + 2) + 1 := by
                unfold c7cons
                rw [show j + 2 - 1 = j + 1 from rfl,
                  flagGe_set_ne (by omega : j + 1 ≠ j + 2 + 1) _ 1,
                  flagGe_some (get?_set_self _ hth) 8, flagGe_some hth 8, hbp,
                  if_pos (show (8 : Nat) ≤ th.pc + 1 by omega),
                  if_neg (show ¬((8 : Nat) ≤ th.pc) by omega),
                  if_pos (by omega : 2 ≤ j + 2 ∧ j + 2 ≤ R + 1),
                  if_pos (by omega : 2 ≤ j + 2 ∧ j + 2 ≤ R + 1)]
              rw [hsent2, hcons2]
              omega
            · rw [get?_set_ne (fun hh => hqj hh.symm) _] at hc
              rw [c7sent_set hth hb6 hb7 q,
                c7cons_set_ne8 hth hb1 (by omega : q - 1 ≠ j + 1)]
              exact hInv.tokEq q c hq hc
          · obtain ⟨m, hmle, hres, hw, hr⟩ := hInv.resOrd
            refine ⟨m, hmle, hres, ?_, ?_⟩
            · intro th0 hth0
              rw [get?_set_ne (Nat.succ_ne_zero j) _] at hth0
              exact hw th0 hth0
            · intro j2 th2 hj2
              by_cases hj2j : j2 = j
              · rw [hj2j, get?_set_self _ hth] at hj2
                injection hj2 with hj2
                rw [← hj2, hj2j]
                show 5 ≤ th.pc + 1 ↔ j < m
                constructor
                · intro h5
                  exact (hr j th hth).mp (by omega)
                · intro hjm
                  have := (hr j th hth).mpr hjm
                  omega
              · rw [get?_set_ne (by omega) _] at hj2
                exact hr j2 th2 hj2
        all_goals cases h
      · -- reader pRel: pc 8 → 9
        simp only [stepInstr] at h
        split at h
        next st hst =>
          injection h with h
          subst h
          have hb1 : 1 ≤ ({ th with pc := th.pc + 1 } : Th).pc ↔ 1 ≤ th.pc := by
            show 1 ≤ th.pc + 1 ↔ 1 ≤ th.pc
            omega
          have hb6 : 6 ≤ ({ th with pc := th.pc + 1 } : Th).pc ↔ 6 ≤ th.pc := by
            show 6 ≤ th.pc + 1 ↔ 6 ≤ th.pc
            omega
          have hb7 : 7 ≤ ({ th with pc := th.pc + 1 } : Th).pc ↔ 7 ≤ th.pc := by
            show 7 ≤ th.pc + 1 ↔ 7 ≤ th.pc
            omega
          have hb8 : 8 ≤ ({ th with pc := th.pc + 1 } : Th).pc ↔ 8 ≤ th.pc := by
            show 8 ≤ th.pc + 1 ↔ 8 ≤ th.pc
            omega
          have hsyncj := hInv.shSync j th hth
          rw [if_pos (show 3 ≤ th.pc ∧ th.pc ≤ 8 by omega)] at hsyncj
          have hrel : rwRelease (getLed s.pLeds 0) th.tid
              = aremove th.tid (getLed s.pLeds 0) := by
            unfold rwRelease
            rw [hsyncj]
          refine ⟨hstat1 _, ?_, ?_, ?_, hInv.tokLen, ?_, ?_⟩
          · intro j2 th2 hj2
            by_cases hj2j : j2 = j
            · rw [hj2j, get?_set_self _ hth] at hj2
              injection hj2 with hj2
              subst hj2
              show alookup th.tid (getLed (aset th.pid
                  (rwRelease (getLed s.pLeds th.pid) th.tid) s.pLeds) 0)
                = if 3 ≤ th.pc + 1 ∧ th.pc + 1 ≤ 8 then some [Mode.shared]
                  else none
              rw [hpid, getLed_aset_self, hrel, alookup_aremove_self, hpc]
              rfl
            · rw [get?_set_ne (by omega) _] at hj2
              have htid2 := (c7_stat_r hInv.stat hj2).2.2.1
              have hne2 : th2.tid ≠ th.tid := by omega
              show alookup th2.tid (getLed (aset th.pid
                  (rwRelease (getLed s.pLeds th.pid) th.tid) s.pLeds) 0) = _
              rw [hpid, getLed_aset_self, hrel, alookup_aremove_ne hne2]
              exact hInv.shSync j2 th2 hj2
          · intro th0 hth0 h1 th2 hj2
            rw [get?_set_ne (Nat.succ_ne_zero j) _] at hth0
            by_cases hj0b : j = 0
            · subst hj0b
              rw [Nat.zero_add] at hth hj2
              rw [get?_set_self _ hth] at hj2
              injection hj2 with hj2
              rw [← hj2]
              show 3 ≤ th.pc + 1
              have := hInv.barW th0 hth0 h1 th hth
              omega
            · rw [get?_set_ne (by omega) _] at hj2
              exact hInv.barW th0 hth0 h1 th2 hj2
          · intro th0 hth0 h3 j2 th2 hj2
            rw [get?_set_ne (Nat.succ_ne_zero j) _] at hth0
            have hprem := hInv.exclW th0 hth0 h3
            by_cases hj2j : j2 = j
            · rw [hj2j, get?_set_self _ hth] at hj2
              injection hj2 with hj2
              rw [← hj2]
              show 9 ≤ th.pc + 1
              have := hprem j th hth
              omega
            · rw [get?_set_ne (by omega) _] at hj2
              exact hprem j2 th2 hj2
          · intro q c hq hc
            rw [c7sent_set hth hb6 hb7 q, c7cons_set hth hb1 hb8 q]
            exact hInv.tokEq q c hq hc
          · obtain ⟨m, hmle, hres, hw, hr⟩ := hInv.resOrd
            refine ⟨m, hmle, hres, ?_, ?_⟩
            · intro th0 hth0
              rw [get?_set_ne (Nat.succ_ne_zero j) _] at hth0
              exact hw th0 hth0
            · intro j2 th2 hj2
              by_cases hj2j : j2 = j
              · rw [hj2j, get?_set_self _ hth] at hj2
                injection hj2 with hj2
                rw [← hj2, hj2j]
                show 5 ≤ th.pc + 1 ↔ j < m
                constructor
                · intro h5
                  exact (hr j th hth).mp (by omega)
                · intro hjm
                  have := (hr j th hth).mpr hjm
                  omega
              · rw [get?_set_ne (by omega) _] at hj2
                exact hr j2 th2 hj2
        next hst => cases h
      · -- reader tRel: pc 9 → 10
        simp only [stepInstr] at h
        split at h
        next st hst =>
          injection h with h
          subst h
          have hb1 : 1 ≤ ({ th with pc := th.pc + 1 } : Th).pc ↔ 1 ≤ th.pc := by
            show 1 ≤ th.pc + 1 ↔ 1 ≤ th.pc
            omega
          have hb6 : 6 ≤ ({ th with pc := th.pc + 1 } : Th).pc ↔ 6 ≤ th.pc := by
            show 6 ≤ th.pc + 1 ↔ 6 ≤ th.pc
            omega
          have hb7 : 7 ≤ ({ th with pc := th.pc + 1 } : Th).pc ↔ 7 ≤ th.pc := by
            show 7 ≤ th.pc + 1 ↔ 7 ≤ th.pc
            omega
          have hb8 : 8 ≤ ({ th with pc := th.pc + 1 } : Th).pc ↔ 8 ≤ th.pc := by
            show 8 ≤ th.pc + 1 ↔ 8 ≤ th.pc
            omega
          refine ⟨hstat1 _, ?_, ?_, ?_, hInv.tokLen, ?_, ?_⟩
          · intro j2 th2 hj2
            by_cases hj2j : j2 = j
            · rw [hj2j, get?_set_self _ hth] at hj2
              injection hj2 with hj2
              subst hj2
              show alookup th.tid (getLed s.pLeds 0)
                = if 3 ≤ th.pc + 1 ∧ th.pc + 1 ≤ 8 then some [Mode.shared]
                  else none
              rw [hInv.shSync j th hth, hpc]
              rfl
            · rw [get?_set_ne (by omega) _] at hj2
              exact hInv.shSync j2 th2 hj2
          · intro th0 hth0 h1 th2 hj2
            rw [get?_set_ne (Nat.succ_ne_zero j) _] at hth0
            by_cases hj0b : j = 0
            · subst hj0b
              rw [Nat.zero_add] at hth hj2
              rw [get?_set_self _ hth] at hj2
              injection hj2 with hj2
              rw [← hj2]
              show 3 ≤ th.pc + 1
              have := hInv.barW th0 hth0 h1 th hth
              omega
            · rw [get?_set_ne (by omega) _] at hj2
              exact hInv.barW th0 hth0 h1 th2 hj2
          · intro th0 hth0 h3 j2 th2 hj2
            rw [get?_set_ne (Nat.succ_ne_zero j) _] at hth0
            have hprem := hInv.exclW th0 hth0 h3
            by_cases hj2j : j2 = j
            · rw [hj2j, get?_set_self _ hth] at hj2
              injection hj2 with hj2
              rw [← hj2]
              show 9 ≤ th.pc + 1
              have := hprem j th hth
              omega
            · rw [get?_set_ne (by omega) _] at hj2
              exact hprem j2 th2 hj2
          · intro q c hq hc
            rw [c7sent_set hth hb6 hb7 q, c7cons_set hth hb1 hb8 q]
            exact hInv.tokEq q c hq hc
          · obtain ⟨m, hmle, hres, hw, hr⟩ := hInv.resOrd
            refine ⟨m, hmle, hres, ?_, ?_⟩
            · intro th0 hth0
              rw [get?_set_ne (Nat.succ_ne_zero j) _] at hth0
              exact hw th0 hth0
            · intro j2 th2 hj2
              by_cases hj2j : j2 = j
              · rw [hj2j, get?_set_self _ hth] at hj2
                injection hj2 with hj2
                rw [← hj2, hj2j]
                show 5 ≤ th.pc + 1 ↔ j < m
                constructor
                · intro h5
                  exact (hr j th hth).mp (by omega)
                · intro hjm
                  have := (hr j th hth).mpr hjm
                  omega
              · rw [get?_set_ne (by omega) _] at hj2
                exact hr j2 th2 hj2
        next hst => cases h

theorem c7Inv_run {R : Nat} {s s' : TSys} (hInv : C7Inv R s) {acts : List Nat}
    (h : run s acts = some s') : C7Inv R s' := by
  induction acts generalizing s with
  | nil =>
      simp only [run] at h
      injection h with h
      rw [← h]
      exact hInv
  | cons i acts ih =>
      simp only [run] at h
      cases hs : step s i with
      | none => rw [hs] at h; cases h
      | some s2 =>
          rw [hs] at h
          exact ih (c7Inv_step hInv hs) h

/-- **C7.**  In the chained-readers scenario (reader `j + 1` acquires
before reader `j` releases, so the shared lock is never dropped, and the
writer's blocking exclusive request is issued once reader 0 is inside),
the writer is granted the lock only after every chained reader has
released, and every completed run enqueues exactly `0, 1, ..., R` in that
order, with the writer's id `R` last. -/
theorem C7_chained_readers_exclusive_granted_last :
    ∀ R acts s', run (initC7 R) acts = some s' →
      ((∀ th, s'.threads.get? 0 = some th → 3 ≤ th.pc →
          ∀ j th2, s'.threads.get? (j + 1) = some th2 → 9 ≤ th2.pc)
        ∧ (allDone s' = true →
            s'.results = List.range (R + 1)
              ∧ s'.results.getLast? = some R)) := by
  intro R acts s' hrun
  have hInv := c7Inv_run (c7Inv_init R) hrun
  constructor
  · exact fun th hth h3 j th2 hj => hInv.exclW th hth h3 j th2 hj
  · intro hdone
    have hlen := congrArg List.length hInv.stat
    rw [List.length_map, List.length_cons, List.length_map,
      List.length_range] at hlen
    cases h0 : s'.threads.get? 0 with
    | none =>
        exfalso
        rw [List.get?_eq_none] at h0
        omega
    | some th0 =>
        obtain ⟨hpid0, htid0, hidv0, hprog0⟩ := c7_stat_w hInv.stat h0
        unfold allDone at hdone
        rw [List.all_eq_true] at hdone
        have hpc0 := of_decide_eq_true (hdone th0 (List.get?_mem h0))
        rw [hprog0, show c7Writer.length = 6 from rfl] at hpc0
        obtain ⟨m, hmle, hres, hw, hr⟩ := hInv.resOrd
        have hRm : R < m := (hw th0 h0).mp (by omega)
        have hmeq : m = R + 1 := by omega
        constructor
        · rw [hres, hmeq]
        · rw [hres, hmeq, List.range_succ]
          exact List.getLast?_concat _

/-- A schedule for three chained readers and the writer: each reader
enters in turn, the chain unwinds, then the writer gets the lock. -/
def c7Sched : List Nat := [1, 1, 1, 1, 1, 1, 1, 2, 2, 2, 2, 2, 2, 2, 3, 3, 3, 3, 3, 3, 3, 1, 1, 1, 2, 2, 2, 3, 3, 3, 0, 0, 0, 0, 0, 0]

/-- The state that schedule reaches. -/
def c7Final : TSys := (run (initC7 3) c7Sched).getD (initC7 3)

theorem C7_chained_readers_exclusive_granted_last_witness :
    run (initC7 3) c7Sched = some c7Final
    ∧ allDone c7Final = true
    ∧ c7Final.results = List.range 4
    ∧ c7Final.results.getLast? = some 3 := by
  refine ⟨rfl, rfl, ?_, ?_⟩
  · exact ((C7_chained_readers_exclusive_granted_last 3 c7Sched c7Final
      rfl).2 rfl).1
  · exact ((C7_chained_readers_exclusive_granted_last 3 c7Sched c7Final
      rfl).2 rfl).2


end Dreadlocks

